import Mathlib

set_option maxHeartbeats 1000000

namespace Looplift

/-! Shallow embedding of the looplift in-place extent shuffler.

The embedding follows the Rust sources `src/lift.rs`, `src/lift/itree.rs`,
`src/utils.rs` and `src/main.rs`.  Machine integers (`u64`) are modelled as
`Nat`: the program never subtracts below zero or overflows on the values it
manipulates (offsets and lengths within a device), and every claim is stated
on in-range values.  Fallible code (Rust `Result`, `assert!`, `panic!`,
`unwrap`) is modelled with `Option`: `none` is any abort, `some` a normal
return.  Rust `Vec` is `List` (push = append at the end, `swap_remove`
modelled exactly). -/

/-- Half-open interval over `Nat`, mirroring Rust `ops::Range<u64>`.
`stop` plays the role of the field `end` (a Lean keyword). -/
structure Rg where
  start : Nat
  stop : Nat
deriving DecidableEq, Repr

/-- Interval length. -/
def Rg.len (r : Rg) : Nat := r.stop - r.start

/-- Rust `Range::is_empty`: `!(start < end)`. -/
def Rg.is_emptyR (r : Rg) : Bool := !(decide (r.start < r.stop))

/-- `RangeOps::contains_range` — identical in `lift.rs` and `itree.rs`:
`(self.start <= other.start) && (other.end <= self.end)`. -/
def containsRange (s o : Rg) : Bool :=
  decide (s.start ≤ o.start) && decide (o.stop ≤ s.stop)

/-- `RangeOps::overlaps_range` as written in `lift.rs` (lines 277-279):
`!((self.end <= other.start) || (other.end <= self.start))`. -/
def overlapsRangeLift (s o : Rg) : Bool :=
  !(decide (s.stop ≤ o.start) || decide (o.stop ≤ s.start))

/-- `RangeOps::overlaps_range` as written in `itree.rs` (lines 259-261):
`(self.end <= other.start) == (other.end <= self.start)`. -/
def overlapsRangeItree (s o : Rg) : Bool :=
  decide (s.stop ≤ o.start) == decide (o.stop ≤ s.start)

theorem containsRange_iff {s o : Rg} :
    containsRange s o = true ↔ s.start ≤ o.start ∧ o.stop ≤ s.stop := by
  simp [containsRange]

theorem overlapsRangeLift_iff {s o : Rg} :
    overlapsRangeLift s o = true ↔ o.start < s.stop ∧ s.start < o.stop := by
  simp [overlapsRangeLift]

theorem overlapsRangeItree_iff {s o : Rg} (hs : s.start < s.stop)
    (ho : o.start < o.stop) :
    overlapsRangeItree s o = true ↔ o.start < s.stop ∧ s.start < o.stop := by
  simp only [overlapsRangeItree, beq_iff_eq]
  by_cases h1 : s.stop ≤ o.start <;> by_cases h2 : o.stop ≤ s.start <;>
    simp [h1, h2] <;> omega

theorem overlapsRangeItree_eq_lift {s o : Rg} (hs : s.start < s.stop)
    (ho : o.start < o.stop) :
    overlapsRangeItree s o = overlapsRangeLift s o := by
  simp only [overlapsRangeItree, overlapsRangeLift]
  by_cases h1 : s.stop ≤ o.start <;> by_cases h2 : o.stop ≤ s.start <;>
    simp [h1, h2] <;> omega

/-! ## List helpers mirroring `Vec` operations -/

section ListHelpers

variable {T : Type} [DecidableEq T]

/-- Rust `Vec::swap_remove(i)`: removes and returns the element at index `i`,
replacing it with the last element.  `none` models the out-of-bounds panic. -/
def swapRemove (l : List T) (i : Nat) : Option (T × List T) :=
  match l.get? i, l.getLast? with
  | some x, some la => some (x, (l.set i la).dropLast)
  | _, _ => none

/-- Rust `Iterator::position(|x| x == entry)`: index of the first occurrence. -/
def posOf (l : List T) (e : T) : Option Nat :=
  match l with
  | [] => none
  | x :: xs => if x = e then some 0 else (posOf xs e).map (· + 1)

end ListHelpers

/-! ## The interval tree (`src/lift/itree.rs`)

The tree is generic over an entry type `T` with decidable equality and an
interval function `ivl` (the trait `IntervalTreeEntry`).  Rust's
`Populated(Box<BinaryNode>)` is flattened into a three-field constructor. -/

inductive NodeType (T : Type) where
  | Empty : NodeType T
  | Populated (here : List T) (left right : NodeType T) : NodeType T
deriving DecidableEq, Repr

namespace NodeType

variable {T : Type} [DecidableEq T]

/-- `NodeType::is_empty` (itree.rs lines 221-231).  The `debug_assert!` in the
`Populated` arm is a debug-build check, not part of release behaviour; the
invariant it checks is proved separately (claim C7). -/
def is_emptyN : NodeType T → Bool
  | .Empty => true
  | .Populated _ _ _ => false

/-- All entries stored in a node and beneath it, in node order
(local bag, then left subtree, then right subtree). -/
def entriesN : NodeType T → List T
  | .Empty => []
  | .Populated here l r => here ++ l.entriesN ++ r.entriesN

/-- `BinaryNode::is_inline_singleton` (itree.rs lines 241-248).  The inner
`assert!(!self.here.is_empty())` fires only when both children are empty,
matching Rust's short-circuit `&&`; `none` models the panic. -/
def isInlineSingleton (here : List T) (l r : NodeType T) : Option Bool :=
  if l.is_emptyN && r.is_emptyN then
    if here.isEmpty then none
    else some (here.length == 1)
  else some false

/-- Left child sub-span: `self_span.start..mid` with `mid = (lo+hi)/2`. -/
def leftSpanOf (span : Rg) : Rg := ⟨span.start, (span.start + span.stop) / 2⟩

/-- Right child sub-span: `mid..self_span.end`. -/
def rightSpanOf (span : Rg) : Rg := ⟨(span.start + span.stop) / 2, span.stop⟩

variable (ivl : T → Rg)

/-- `NodeType::insert` (itree.rs lines 59-112).  The function takes a fuel
argument because the inline-singleton relocation re-enters `insert` on the
updated node; the wrapper passes fuel `2 * span.len + 2`, which is proved
sufficient.  `none` models any `assert!` failure (the leading span-containment
assertion, `swap_remove` out of bounds, the relocation's
`assert!(self.insert(..))`, and the assertion inside `is_inline_singleton`). -/
def insertF : Nat → Rg → T → Bool → NodeType T → Option (Bool × NodeType T)
  | 0, _, _, _, _ => none
  | fuel + 1, span, entry, suppress, n =>
    if ¬ containsRange span (ivl entry) = true then none else
    match n with
    | .Empty => some (true, .Populated [entry] .Empty .Empty)
    | .Populated here l r =>
      match (if suppress then some false else isInlineSingleton here l r) with
      | none => none
      | some was =>
        match (if 2 ≤ span.stop - span.start ∧
                  containsRange (leftSpanOf span) (ivl entry) = true then
                 match insertF fuel (leftSpanOf span) entry false l with
                 | none => none
                 | some (res, l2) => some (res, here, l2, r)
               else if 2 ≤ span.stop - span.start ∧
                  containsRange (rightSpanOf span) (ivl entry) = true then
                 match insertF fuel (rightSpanOf span) entry false r with
                 | none => none
                 | some (res, r2) => some (res, here, l, r2)
               else if entry ∈ here then some (false, here, l, r)
               else some (true, here ++ [entry], l, r)) with
        | none => none
        | some (res, here2, l2, r2) =>
          if was && res then
            match swapRemove here2 0 with
            | none => none
            | some (x, here3) =>
              match insertF fuel span x true (.Populated here3 l2 r2) with
              | none => none
              | some (true, n2) => some (true, n2)
              | some (false, _) => none
          else some (res, .Populated here2 l2 r2)

/-- `NodeType::find` (itree.rs lines 114-147), accumulating into a result list
in visit order (local bag, left child, right child).  `none` models the
leading `assert!(self_span.overlaps_range(query_span))`. -/
def findN (span query : Rg) : NodeType T → Option (List T)
  | .Empty =>
    if ¬ overlapsRangeItree span query = true then none else some []
  | .Populated here l r =>
    if ¬ overlapsRangeItree span query = true then none else
    if 2 ≤ span.stop - span.start then
      match (if overlapsRangeItree (leftSpanOf span) query = true then
               findN (leftSpanOf span) query l
             else some []) with
      | none => none
      | some lres =>
        match (if overlapsRangeItree (rightSpanOf span) query = true then
                 findN (rightSpanOf span) query r
               else some []) with
        | none => none
        | some rres =>
          some (here.filter (fun h => overlapsRangeItree query (ivl h))
                ++ lres ++ rres)
    else some (here.filter (fun h => overlapsRangeItree query (ivl h)))

/-- The demotion step at the end of `NodeType::remove` (itree.rs lines
191-214): after a successful removal, an empty local bag with exactly one
populated child that is an inline singleton pulls that child's entry up and
drops the child.  `none` models the
`panic!("Node is entirely empty, should be unreachable")` branch and the
assertion inside `is_inline_singleton` when reached from here. -/
def demote (here2 : List T) (l2 r2 : NodeType T) : Option (NodeType T) :=
  match here2.isEmpty, l2, r2 with
  | false, _, _ => some (.Populated here2 l2 r2)
  | true, .Empty, .Empty => none
  | true, .Populated lh ll lr, .Empty =>
    match isInlineSingleton lh ll lr with
    | none => none
    | some true =>
      match swapRemove lh 0 with
      | none => none
      | some (x, _) => some (.Populated (here2 ++ [x]) .Empty r2)
    | some false => some (.Populated here2 (.Populated lh ll lr) r2)
  | true, .Empty, .Populated rh rl rr =>
    match isInlineSingleton rh rl rr with
    | none => none
    | some true =>
      match swapRemove rh 0 with
      | none => none
      | some (x, _) => some (.Populated (here2 ++ [x]) l2 .Empty)
    | some false => some (.Populated here2 l2 (.Populated rh rl rr))
  | true, .Populated lh ll lr, .Populated rh rl rr =>
    some (.Populated here2 (.Populated lh ll lr) (.Populated rh rl rr))

/-- `NodeType::remove` (itree.rs lines 149-219), with the demotion step
factored out as `demote`.  `none` models the asserts and the `unwrap`. -/
def removeN (span : Rg) (entry : T) : NodeType T → Option (Bool × NodeType T)
  | .Empty =>
    if ¬ containsRange span (ivl entry) = true then none
    else some (false, .Empty)
  | .Populated here l r =>
    if ¬ containsRange span (ivl entry) = true then none else
    match isInlineSingleton here l r with
    | none => none
    | some true =>
      match here.head? with
      | none => none
      | some x =>
        if x = entry then some (true, .Empty)
        else some (false, .Populated here l r)
    | some false =>
      match (if 2 ≤ span.stop - span.start ∧
                containsRange (leftSpanOf span) (ivl entry) = true then
               match removeN (leftSpanOf span) entry l with
               | none => none
               | some (res, l2) => some (res, here, l2, r)
             else if 2 ≤ span.stop - span.start ∧
                containsRange (rightSpanOf span) (ivl entry) = true then
               match removeN (rightSpanOf span) entry r with
               | none => none
               | some (res, r2) => some (res, here, l, r2)
             else
               match posOf here entry with
               | some idx =>
                 match swapRemove here idx with
                 | none => none
                 | some (_, here2) => some (true, here2, l, r)
               | none => some (false, here, l, r)) with
      | none => none
      | some (res, here2, l2, r2) =>
        if res then
          match demote here2 l2 r2 with
          | none => none
          | some n2 => some (res, n2)
        else some (res, .Populated here2 l2 r2)

/-- Modelled from the spec: `IntervalTree::first` is called by the shuffler
(`lift.rs` line 59) but its definition is not present in the sources.  The
spec (section 4.1) says it "returns some entry, used only to pick the next
work item; any deterministic choice is acceptable".  We take the first entry
in node order: the local bag, else the left subtree, else the right. -/
def firstEntry : NodeType T → Option T
  | .Empty => none
  | .Populated here l r =>
    match here.head? with
    | some x => some x
    | none =>
      match firstEntry l with
      | some x => some x
      | none => firstEntry r

end NodeType

/-- `IntervalTree` (itree.rs lines 15-51). -/
structure IntervalTree (T : Type) where
  span : Rg
  root_node : NodeType T

namespace IntervalTree

variable {T : Type} [DecidableEq T] (ivl : T → Rg)

/-- `IntervalTree::new`: `none` models `assert!(span.start < span.end)`
(the `span.start >= 0` assertion is vacuous over `Nat`). -/
def new (span : Rg) : Option (IntervalTree T) :=
  if span.start < span.stop then some ⟨span, .Empty⟩ else none

/-- `IntervalTree::insert`, with the `assert!(!entry.interval().is_empty())`
guard.  Passes fuel `2 * span.len + 2` to `insertF`, which is proved
sufficient for spans of this size. -/
def insert (t : IntervalTree T) (entry : T) : Option (Bool × IntervalTree T) :=
  if (ivl entry).is_emptyR then none else
  match NodeType.insertF ivl (2 * t.span.len + 2) t.span entry false
      t.root_node with
  | none => none
  | some (b, n2) => some (b, ⟨t.span, n2⟩)

/-- `IntervalTree::find`, with the `assert!(!query_span.is_empty())` guard. -/
def find (t : IntervalTree T) (query : Rg) : Option (List T) :=
  if query.is_emptyR then none
  else NodeType.findN ivl t.span query t.root_node

/-- `IntervalTree::remove`, with the `assert!(!entry.interval().is_empty())`
guard. -/
def remove (t : IntervalTree T) (entry : T) :
    Option (Bool × IntervalTree T) :=
  if (ivl entry).is_emptyR then none else
  match NodeType.removeN ivl t.span entry t.root_node with
  | none => none
  | some (b, n2) => some (b, ⟨t.span, n2⟩)

/-- `IntervalTree::is_empty`. -/
def is_emptyT (t : IntervalTree T) : Bool := t.root_node.is_emptyN

/-- All entries currently stored in the tree, in node order. -/
def entriesT (t : IntervalTree T) : List T := t.root_node.entriesN

/-- `IntervalTree::first` (modelled from the spec, see
`NodeType.firstEntry`). -/
def first (t : IntervalTree T) : Option T := t.root_node.firstEntry

end IntervalTree

/-! ## Positional device I/O (`src/lift.rs` lines 174-266)

The device is a fixed-length byte list; `read_exact_at` past the end is a
short read (error) and `write_all_at` past the end is a write error, matching
a block device of that size. -/

/-- `utils::BUFFER_LENGTH`: the I/O chunk size, 128 KiB. -/
def BUFFER_LENGTH : Nat := 128 * 1024

/-- `read_exact_at`: the bytes at `[off, off+len)`, or `none` past the end. -/
def readSeg (dev : List Nat) (off len : Nat) : Option (List Nat) :=
  if off + len ≤ dev.length then some ((dev.drop off).take len) else none

/-- `write_all_at`: overwrite `[off, off+data.length)` with `data`. -/
def writeSeg (dev : List Nat) (off : Nat) (data : List Nat) :
    Option (List Nat) :=
  if off + data.length ≤ dev.length then
    some (dev.take off ++ data ++ dev.drop (off + data.length))
  else none

/-- The chunk loop of `copy_segment` (lift.rs 174-186): repeatedly read
`min(BUFFER_LENGTH, length - read)` bytes at `srcStart + read` and write them
at `destOff + read`.  The fuel argument only bounds the iteration count; the
wrappers pass `length + 1`, which is sufficient since each chunk is
non-empty. -/
def copyChunks (srcStart destOff length : Nat) :
    Nat → Nat → List Nat → Option (List Nat)
  | 0, read, dev => if read < length then none else some dev
  | fuel + 1, read, dev =>
    if read < length then
      let chunk := min BUFFER_LENGTH (length - read)
      match readSeg dev (srcStart + read) chunk with
      | none => none
      | some data =>
        match writeSeg dev (destOff + read) data with
        | none => none
        | some dev2 => copyChunks srcStart destOff length fuel (read + chunk) dev2
    else some dev

/-- `copy_segment` (lift.rs 174-186). -/
def copy_segment (dev : List Nat) (source : Rg) (destOff : Nat) :
    Option (List Nat) :=
  let length := source.stop - source.start
  copyChunks source.start destOff length (length + 1) 0 dev

/-- The chunk loop of `swap_segment` (lift.rs 188-208): per chunk, read both
regions, then write each to the other's position (source chunk first). -/
def swapChunks (srcStart destOff length : Nat) :
    Nat → Nat → List Nat → Option (List Nat)
  | 0, read, dev => if read < length then none else some dev
  | fuel + 1, read, dev =>
    if read < length then
      let chunk := min BUFFER_LENGTH (length - read)
      match readSeg dev (srcStart + read) chunk with
      | none => none
      | some chunkA =>
        match readSeg dev (destOff + read) chunk with
        | none => none
        | some chunkB =>
          match writeSeg dev (destOff + read) chunkA with
          | none => none
          | some dev2 =>
            match writeSeg dev2 (srcStart + read) chunkB with
            | none => none
            | some dev3 =>
              swapChunks srcStart destOff length fuel (read + chunk) dev3
    else some dev

/-- `swap_segment` (lift.rs 188-208). -/
def swap_segment (dev : List Nat) (source : Rg) (destOff : Nat) :
    Option (List Nat) :=
  let length := source.stop - source.start
  swapChunks source.start destOff length (length + 1) 0 dev

/-- The chunk loop of `fill_zeros` (lift.rs 210-220): write zero chunks over
`[outOff, stop)`. -/
def zeroChunks (stop : Nat) : Nat → Nat → List Nat → Option (List Nat)
  | 0, outOff, dev => if outOff < stop then none else some dev
  | fuel + 1, outOff, dev =>
    if outOff < stop then
      let chunk := min BUFFER_LENGTH (stop - outOff)
      match writeSeg dev outOff (List.replicate chunk 0) with
      | none => none
      | some dev2 => zeroChunks stop fuel (outOff + chunk) dev2
    else some dev

/-- `fill_zeros` (lift.rs 210-220). -/
def fill_zeros (dev : List Nat) (range : Rg) : Option (List Nat) :=
  zeroChunks range.stop (range.len + 1) range.start dev

/-- One `Hash::hash` step of a byte chunk into the hasher state.  This is an
executable stand-in for the standard library's `DefaultHasher` (SipHash),
which is external to this repository; the claims depend only on the
fingerprint being a deterministic function of the hashed chunk stream. -/
def hashChunk (h : Nat) (chunk : List Nat) : Nat :=
  chunk.foldl (fun a b => (a * 1099511628211 + b + 1) % 2 ^ 64)
    ((h + chunk.length + 1) % 2 ^ 64)

/-- The chunked read-and-hash loop of `validate_checksum` (lift.rs 240-266). -/
def csumChunks (off length : Nat) (dev : List Nat) :
    Nat → Nat → Nat → Option Nat
  | 0, read, h => if read < length then none else some h
  | fuel + 1, read, h =>
    if read < length then
      let chunk := min BUFFER_LENGTH (length - read)
      match readSeg dev (off + read) chunk with
      | none => none
      | some data => csumChunks off length dev fuel (read + chunk) (hashChunk h data)
    else some h

/-- `validate_checksum` (lift.rs 240-266): fingerprint `[offset,
offset+length)` and require equality with `expected_csum`
(`assert_eq!` models as `none` on mismatch). -/
def validate_checksum (dev : List Nat) (offset length expected_csum : Nat) :
    Option Unit :=
  match csumChunks offset length dev (length + 1) 0 0 with
  | none => none
  | some h => if h = expected_csum then some () else none

/-! ## `FileOps` (`src/utils.rs`): the dry-run-aware I/O helpers

These are the only code paths with a dry-run capability.  `do_lift` never
constructs a `FileOps` (it uses the local helpers above, which write
unconditionally), and the `Lift` CLI command (`src/main.rs` lines 60-63)
carries only a `device` argument and no dry-run flag. -/

namespace FileOps

/-- The chunk loop of `FileOps::copy_segment` (utils.rs 83-108): each chunk
is read unconditionally; the write is issued only when `dry_run` is
false. -/
def copyChunksF (dry_run : Bool) (srcStart destOff length : Nat) :
    Nat → Nat → List Nat → Option (List Nat)
  | 0, read, dev => if read < length then none else some dev
  | fuel + 1, read, dev =>
    if read < length then
      let chunk := min BUFFER_LENGTH (length - read)
      match readSeg dev (srcStart + read) chunk with
      | none => none
      | some data =>
        if dry_run then
          copyChunksF dry_run srcStart destOff length fuel (read + chunk) dev
        else
          match writeSeg dev (destOff + read) data with
          | none => none
          | some dev2 =>
            copyChunksF dry_run srcStart destOff length fuel (read + chunk)
              dev2
    else some dev

/-- `FileOps::copy_segment` (utils.rs 83-108). -/
def copy_segment (dry_run : Bool) (dev : List Nat) (source : Rg)
    (destOff : Nat) : Option (List Nat) :=
  let length := source.stop - source.start
  copyChunksF dry_run source.start destOff length (length + 1) 0 dev

/-- The chunk loop of `FileOps::swap_segment` (utils.rs 110-138): both
regions are read per chunk; the two writes are issued only when `dry_run`
is false. -/
def swapChunksF (dry_run : Bool) (srcStart destOff length : Nat) :
    Nat → Nat → List Nat → Option (List Nat)
  | 0, read, dev => if read < length then none else some dev
  | fuel + 1, read, dev =>
    if read < length then
      let chunk := min BUFFER_LENGTH (length - read)
      match readSeg dev (srcStart + read) chunk with
      | none => none
      | some chunkA =>
        match readSeg dev (destOff + read) chunk with
        | none => none
        | some chunkB =>
          if dry_run then
            swapChunksF dry_run srcStart destOff length fuel (read + chunk)
              dev
          else
            match writeSeg dev (destOff + read) chunkA with
            | none => none
            | some dev2 =>
              match writeSeg dev2 (srcStart + read) chunkB with
              | none => none
              | some dev3 =>
                swapChunksF dry_run srcStart destOff length fuel
                  (read + chunk) dev3
    else some dev

/-- `FileOps::swap_segment` (utils.rs 110-138). -/
def swap_segment (dry_run : Bool) (dev : List Nat) (source : Rg)
    (destOff : Nat) : Option (List Nat) :=
  let length := source.stop - source.start
  swapChunksF dry_run source.start destOff length (length + 1) 0 dev

/-- `FileOps::fill_zeros` (utils.rs 140-157): in dry-run mode it returns
immediately, issuing neither reads nor writes. -/
def fill_zeros (dry_run : Bool) (dev : List Nat) (range : Rg) :
    Option (List Nat) :=
  if dry_run then some dev
  else zeroChunks range.stop (range.len + 1) range.start dev

end FileOps

/-! ## Report data model (`src/report.rs`) -/

structure ReportSummary where
  device_length : Nat
deriving DecidableEq, Repr

inductive ExtentSource where
  | Zeros : ExtentSource
  | Offset (offset : Nat) (checksum : Nat) : ExtentSource
deriving DecidableEq, Repr

structure ReportExtent where
  destination_offset : Nat
  length : Nat
  source : ExtentSource
deriving DecidableEq, Repr

/-- `CsumOp` (lift.rs 222-226). -/
structure CsumOp where
  offset : Nat
  length : Nat
  csum : Nat
deriving DecidableEq, Repr

/-- `CopyOp` (lift.rs 228-232); equality is structural on both fields. -/
structure CopyOp where
  source : Rg
  destination_offset : Nat
deriving DecidableEq, Repr

/-- `IntervalTreeEntry for CopyOp`: the interval is the source range. -/
def CopyOp.interval (c : CopyOp) : Rg := c.source

/-- `chop_op` (lift.rs 160-172): split an op at prefix length `k`.  `none`
models its two `assert!`s (`0 < k` and `source.start + k < source.end`). -/
def chop_op (op : CopyOp) (k : Nat) : Option (CopyOp × CopyOp) :=
  if ¬ 0 < k then none else
  if ¬ op.source.start + k < op.source.stop then none else
  some (⟨⟨op.source.start, op.source.start + k⟩, op.destination_offset⟩,
        ⟨⟨op.source.start + k, op.source.stop⟩, op.destination_offset + k⟩)

/-! ## The planner: report parse loop of `do_lift` (lift.rs 24-52) -/

/-- The parse loop: while the running offset is below `U`, pull the next
extent record, require its destination to equal the running offset, and feed
the zeroing queue, the final-checksum queue, and the copy-op index.  `none`
models a deserialization error (stream exhausted), the `assert_eq!` on the
destination offset, a checksum mismatch, and the `assert!` on insertion. -/
def parsePhase (dev : List Nat) (U : Nat) :
    Nat → List ReportExtent → List Rg → List CsumOp → IntervalTree CopyOp →
    Option (List Rg × List CsumOp × IntervalTree CopyOp)
  | expected, exts, zq, cq, tree =>
    if expected < U then
      match exts with
      | [] => none
      | e :: rest =>
        if e.destination_offset ≠ expected then none
        else
          match e.source with
          | .Zeros =>
            parsePhase dev U (expected + e.length) rest
              (zq ++ [⟨e.destination_offset, e.destination_offset + e.length⟩])
              cq tree
          | .Offset off csum =>
            match validate_checksum dev off e.length csum with
            | none => none
            | some _ =>
              let cq2 := cq ++ [⟨e.destination_offset, e.length, csum⟩]
              match tree.insert CopyOp.interval
                  ⟨⟨off, off + e.length⟩, e.destination_offset⟩ with
              | some (true, t2) =>
                parsePhase dev U (expected + e.length) rest zq cq2 t2
              | _ => none
    else some (zq, cq, tree)

/-! ## The shuffler: copy loop of `do_lift` (lift.rs 57-139) -/

/-- The `for other_op in &overlapping_sources` walk of Step C: check the
overlap assertion for each element in order, skip exact matches, and stop at
the first non-identical overlapper (the split victim).  `some none` means the
walk completed (Step D applies); `none` models the failed assertion. -/
def scanOverlaps (dest : Rg) : List CopyOp → Option (Option CopyOp)
  | [] => some none
  | o :: rest =>
    if ¬ overlapsRangeLift dest o.source = true then none
    else if dest = o.source then scanOverlaps dest rest
    else some (some o)

/-- The Step D rewrite loop (lift.rs 130-137): for each overlapper, assert it
differs from `op` and has source exactly `dest`, remove it, and re-insert it
with source `op.source`. -/
def swapRewrite (op : CopyOp) (dest : Rg) :
    List CopyOp → IntervalTree CopyOp → Option (IntervalTree CopyOp)
  | [], t => some t
  | o :: rest, t =>
    if op = o then none else
    if ¬ dest = o.source then none else
    match t.remove CopyOp.interval o with
    | some (true, t2) =>
      match t2.insert CopyOp.interval ⟨op.source, o.destination_offset⟩ with
      | some (true, t3) => swapRewrite op dest rest t3
      | _ => none
    | _ => none

/-- The split selection of Step C (lift.rs 90-120) followed by the
re-insertion of the two halves: returns the updated tree, or `none` for any
failed assertion including the `panic!("BUG")` fallthrough. -/
def splitStep (op other : CopyOp) (dest : Rg) (t : IntervalTree CopyOp) :
    Option (IntervalTree CopyOp) :=
  let victim? : Option (CopyOp × Nat) :=
    if dest.start < other.source.start then
      some (op, other.source.start - dest.start)
    else if other.source.start < dest.start then
      some (other, dest.start - other.source.start)
    else if other.source.stop < dest.stop then
      some (op, other.source.stop - other.source.start)
    else if dest.stop < other.source.stop then
      some (other, dest.stop - dest.start)
    else none
  match victim? with
  | none => none
  | some (victim, k) =>
    match t.remove CopyOp.interval victim with
    | some (true, t2) =>
      match chop_op victim k with
      | none => none
      | some (op1, op2) =>
        match t2.insert CopyOp.interval op1 with
        | some (true, t3) =>
          match t3.insert CopyOp.interval op2 with
          | some (true, t4) => some t4
          | _ => none
        | _ => none
    | _ => none

/-- One iteration of the `'copy_loop` (lift.rs 58-138): pick `first()`, then
Step A (no-op elimination), Step B (copy when nothing overlaps the
destination), Step C (split) or Step D (swap and rewrite). -/
def copyIter (dev : List Nat) (t : IntervalTree CopyOp) :
    Option (List Nat × IntervalTree CopyOp) :=
  match t.first with
  | none => none
  | some op =>
    if op.source.start = op.destination_offset then
      match t.remove CopyOp.interval op with
      | some (true, t2) => some (dev, t2)
      | _ => none
    else
      let dest : Rg := ⟨op.destination_offset,
        op.source.stop - op.source.start + op.destination_offset⟩
      match t.find CopyOp.interval dest with
      | none => none
      | some overlapping =>
        if overlapping.isEmpty then
          match t.remove CopyOp.interval op with
          | some (true, t2) =>
            match copy_segment dev op.source op.destination_offset with
            | none => none
            | some dev2 => some (dev2, t2)
          | _ => none
        else
          match scanOverlaps dest overlapping with
          | none => none
          | some (some other) =>
            match splitStep op other dest t with
            | none => none
            | some t2 => some (dev, t2)
          | some none =>
            match t.remove CopyOp.interval op with
            | some (true, t2) =>
              match swap_segment dev op.source op.destination_offset with
              | none => none
              | some dev2 =>
                match swapRewrite op dest overlapping t2 with
                | none => none
                | some t3 => some (dev2, t3)
            | _ => none

/-- Result of running the copy loop under a fuel bound: `fuelOut` is a
modelling artifact distinguishing fuel exhaustion from program aborts; the
termination theorem shows it is never reached with fuel above the measure. -/
inductive LoopRes where
  | ok (dev : List Nat) : LoopRes
  | err : LoopRes
  | fuelOut : LoopRes
deriving DecidableEq, Repr

/-- The `'copy_loop` itself: loop while the index is non-empty. -/
def copyLoop : Nat → List Nat → IntervalTree CopyOp → LoopRes
  | 0, dev, t => if t.is_emptyT then .ok dev else .fuelOut
  | fuel + 1, dev, t =>
    if t.is_emptyT then .ok dev
    else
      match copyIter dev t with
      | none => .err
      | some (dev2, t2) => copyLoop fuel dev2 t2

/-- The zeroing loop of `do_lift` (lift.rs 141-146). -/
def zeroPhase : List Rg → List Nat → Option (List Nat)
  | [], dev => some dev
  | r :: rest, dev =>
    match fill_zeros dev r with
    | none => none
    | some dev2 => zeroPhase rest dev2

/-- The final checksum loop of `do_lift` (lift.rs 148-153). -/
def verifyPhase (dev : List Nat) : List CsumOp → Option Unit
  | [] => some ()
  | c :: rest =>
    match validate_checksum dev c.offset c.length c.csum with
    | none => none
    | some _ => verifyPhase dev rest

/-- Total source length of a list of copy ops: the quantity whose double
bounds the copy loop's termination measure. -/
def sumLens (l : List CopyOp) : Nat := (l.map (fun op => op.source.len)).sum

/-- `do_lift` (lift.rs 13-158).  The input stream is modelled as the already
deserialized summary record followed by the list of extent records (the JSON
codec is `serde_json`, external to this repository); a missing record is a
deserialization error.  The copy loop runs with fuel `2 * sumLens + 1`,
proved to exceed the termination measure of every index state, so `fuelOut`
is unreachable and the fuel is a pure modelling artifact. -/
def do_lift (dev : List Nat) (sr : ReportSummary)
    (extents : List ReportExtent) : Option (List Nat) :=
  let U := dev.length
  if sr.device_length ≠ U then none else
  match (IntervalTree.new ⟨0, U⟩ : Option (IntervalTree CopyOp)) with
  | none => none
  | some t0 =>
    match parsePhase dev U 0 extents [] [] t0 with
    | none => none
    | some (zq, cq, tree) =>
      match copyLoop (2 * sumLens tree.entriesT + 1) dev tree with
      | .ok dev1 =>
        match zeroPhase zq dev1 with
        | none => none
        | some dev2 =>
          match verifyPhase dev2 cq with
          | none => none
          | some _ => some dev2
      | _ => none

/-! ## List helper lemmas -/

section ListLemmas

variable {T : Type} [DecidableEq T]

theorem swapRemove_zero_singleton (x : T) :
    swapRemove [x] 0 = some ((x, ([] : List T))) := by
  simp [swapRemove]

theorem swapRemove_get {l : List T} {i : Nat} {x : T} {l2 : List T}
    (h : swapRemove l i = some (x, l2)) : l.get? i = some x := by
  unfold swapRemove at h
  cases hg : l.get? i with
  | none => rw [hg] at h; exact absurd h (by simp)
  | some v =>
    rw [hg] at h
    cases hl : l.getLast? with
    | none => rw [hl] at h; exact absurd h (by simp)
    | some la =>
      rw [hl] at h
      simp only [Option.some_inj, Prod.mk.injEq] at h
      exact congrArg some h.1

theorem getLast?_perm {l : List T} {la : T} (h : l.getLast? = some la) :
    l.Perm (la :: l.dropLast) := by
  have hla : l.dropLast ++ [la] = l := List.dropLast_append_getLast? la h
  have h2 := List.perm_append_singleton la l.dropLast
  rw [hla] at h2
  exact h2

theorem swapRemove_perm {l : List T} {i : Nat} {x : T} {l2 : List T}
    (h : swapRemove l i = some (x, l2)) : (x :: l2).Perm l := by
  have hget := swapRemove_get h
  have hi : i < l.length := by
    by_contra hc
    rw [List.get?_eq_none.mpr (Nat.le_of_not_lt hc)] at hget
    exact absurd hget (by simp)
  unfold swapRemove at h
  rw [hget] at h
  cases hl : l.getLast? with
  | none => rw [hl] at h; exact absurd h (by simp)
  | some la =>
    rw [hl] at h
    simp only [Option.some_inj, Prod.mk.injEq] at h
    obtain ⟨-, h2⟩ := h
    subst h2
    have hset : l.set i la = l.take i ++ la :: l.drop (i + 1) :=
      List.set_eq_take_cons_drop la hi
    have hgx : l[i] = x := by
      have h1 : l.get? i = some l[i] := by
        rw [List.get?_eq_getElem?]
        exact List.getElem?_eq_getElem hi
      rw [h1] at hget
      exact Option.some_inj.mp hget
    have hx : l = l.take i ++ x :: l.drop (i + 1) := by
      have h2 : l.drop i = x :: l.drop (i + 1) := by
        rw [List.drop_eq_getElem_cons hi, hgx]
      conv_lhs => rw [← List.take_append_drop i l]
      rw [h2]
    by_cases hilast : i + 1 = l.length
    · have hxla : x = la := by
        have h1 : l.getLast? = l.get? i := by
          rw [List.getLast?_eq_get?]
          congr 1
          omega
        rw [h1, hget] at hl
        exact Option.some_inj.mp hl
      subst hxla
      have hsetid : l.set i x = l := by
        rw [hset, ← hx]
      rw [hsetid]
      have hp := List.perm_append_singleton x l.dropLast
      rw [List.dropLast_append_getLast? x hl] at hp
      exact hp.symm
    · have hlen : i + 1 < l.length := by omega
      have hdropne : l.drop (i + 1) ≠ [] := by
        intro hc
        have := List.drop_eq_nil_iff.mp hc
        omega
      have hlast_drop : (l.drop (i + 1)).getLast? = some la := by
        rw [List.getLast?_drop, if_neg (by omega), hl]
      have hdl : (l.drop (i + 1)).dropLast ++ [la] = l.drop (i + 1) :=
        List.dropLast_append_getLast? la hlast_drop
      have hsetlen : (l.take i ++ la :: l.drop (i + 1)).dropLast
          = l.take i ++ la :: (l.drop (i + 1)).dropLast := by
        rw [List.dropLast_append_of_ne_nil _ (by simp)]
        congr 1
        exact List.dropLast_cons_of_ne_nil hdropne
      rw [hset, hsetlen]
      have t1 : (x :: (l.take i ++ la :: (l.drop (i + 1)).dropLast)).Perm
          (x :: (la :: (l.take i ++ (l.drop (i + 1)).dropLast))) :=
        List.Perm.cons x List.perm_middle
      have s1 : (l.take i ++ x :: ((l.drop (i + 1)).dropLast ++ [la])).Perm
          (x :: (l.take i ++ ((l.drop (i + 1)).dropLast ++ [la]))) :=
        List.perm_middle
      have s2 : l.take i ++ ((l.drop (i + 1)).dropLast ++ [la])
          = (l.take i ++ (l.drop (i + 1)).dropLast) ++ [la] :=
        (List.append_assoc _ _ _).symm
      have s3 := List.perm_append_singleton la
        (l.take i ++ (l.drop (i + 1)).dropLast)
      have t2 : (l.take i ++ x :: ((l.drop (i + 1)).dropLast ++ [la])).Perm
          (x :: (la :: (l.take i ++ (l.drop (i + 1)).dropLast))) := by
        refine s1.trans ?_
        refine List.Perm.cons x ?_
        rw [s2]
        exact s3
      have hfin : (l.take i ++ x :: ((l.drop (i + 1)).dropLast ++ [la])).Perm l := by
        rw [hdl]
        rw [← hx]
      exact (t1.trans t2.symm).trans hfin

theorem posOf_eq_none {l : List T} {e : T} : posOf l e = none ↔ e ∉ l := by
  induction l with
  | nil => simp [posOf]
  | cons a tl ih =>
    by_cases ha : a = e
    · subst ha; simp [posOf]
    · have hstep : posOf (a :: tl) e = (posOf tl e).map (· + 1) := by
        simp [posOf, ha]
      rw [hstep, Option.map_eq_none', ih, List.mem_cons]
      constructor
      · intro hn hc
        rcases hc with hc | hc
        · exact ha hc.symm
        · exact hn hc
      · intro hn hc
        exact hn (Or.inr hc)

theorem posOf_get {l : List T} {e : T} {i : Nat} (h : posOf l e = some i) :
    l.get? i = some e := by
  induction l generalizing i with
  | nil => simp [posOf] at h
  | cons a tl ih =>
    by_cases ha : a = e
    · subst ha
      simp [posOf] at h
      subst h
      rfl
    · simp only [posOf, ha, if_false] at h
      cases hp : posOf tl e with
      | none => rw [hp] at h; exact absurd h (by simp)
      | some j =>
        rw [hp] at h
        simp at h
        subst h
        simpa using ih hp

/-- Removing via `position` + `swap_remove` is, as a multiset, `List.erase`. -/
theorem posOf_swapRemove_erase {l : List T} {e : T} {i : Nat} {x : T}
    {l2 : List T} (hp : posOf l e = some i)
    (hs : swapRemove l i = some (x, l2)) :
    x = e ∧ l2.Perm (l.erase e) := by
  have hget := swapRemove_get hs
  have hget2 := posOf_get hp
  rw [hget2] at hget
  have hx : x = e := (Option.some_inj.mp hget).symm
  subst hx
  refine ⟨rfl, ?_⟩
  have hmem : x ∈ l := List.get?_mem hget2
  have h1 : (x :: l2).Perm l := swapRemove_perm hs
  have h2 : l.Perm (x :: l.erase x) := List.perm_cons_erase hmem
  exact (List.perm_cons x).mp (h1.trans h2)

theorem subperm_nodup {l1 l2 : List T} (h : List.Subperm l1 l2)
    (h2 : l2.Nodup) : l1.Nodup := by
  obtain ⟨l, hp, hs⟩ := h
  exact hp.nodup_iff.mp (hs.nodup h2)

/-- A list whose `erase e` is empty and that contains `e` is exactly `[e]`. -/
theorem eq_singleton_of_erase_nil {l : List T} {e : T} (hmem : e ∈ l)
    (h : l.erase e = []) : l = [e] := by
  cases l with
  | nil => simp at hmem
  | cons a tl =>
    by_cases ha : a = e
    · subst ha
      rw [List.erase_cons_head] at h
      rw [h]
    · rw [List.erase_cons_tail] at h
      · exact absurd h (by simp)
      · simp [ha]

end ListLemmas

/-! ## Interval tree invariants and specification -/

namespace NodeType

variable {T : Type} [DecidableEq T]

/-- The shape of an inline singleton: no children, exactly one local entry. -/
def singShapeB : NodeType T → Bool
  | .Populated here l r => l.is_emptyN && r.is_emptyN && (here.length == 1)
  | .Empty => false

/-- No node anywhere has an empty bag together with exactly one populated
child that is an inline singleton: the shape the demotion step of `remove`
always collapses, and whose presence would make the
`panic!("Node is entirely empty")` branch reachable. -/
def noDemotable : NodeType T → Prop
  | .Empty => True
  | .Populated here l r =>
      ¬(here = [] ∧ ((singShapeB l = true ∧ r = .Empty) ∨
                     (l = .Empty ∧ singShapeB r = true))) ∧
      noDemotable l ∧ noDemotable r

variable (ivl : T → Rg)

/-- Structural well-formedness of a node with respect to its sub-span:
every bag entry has a non-empty interval inside the span; all entries
beneath the node are distinct; a populated node holds at least one entry;
a node whose span cannot bisect is childless; and a bag entry whose
interval would fit in a child only occurs in an inline singleton. -/
def WFn : Rg → NodeType T → Prop
  | _, .Empty => True
  | span, .Populated here l r =>
      (∀ e ∈ here, 0 < (ivl e).len ∧ containsRange span (ivl e) = true) ∧
      (here ++ l.entriesN ++ r.entriesN).Nodup ∧
      here ++ l.entriesN ++ r.entriesN ≠ [] ∧
      (span.len < 2 → l = .Empty ∧ r = .Empty) ∧
      (∀ e ∈ here, 2 ≤ span.len →
        (containsRange (leftSpanOf span) (ivl e) = true ∨
         containsRange (rightSpanOf span) (ivl e) = true) →
        here = [e] ∧ l = .Empty ∧ r = .Empty) ∧
      WFn (leftSpanOf span) l ∧ WFn (rightSpanOf span) r

theorem is_emptyN_iff {n : NodeType T} : n.is_emptyN = true ↔ n = .Empty := by
  cases n <;> simp [is_emptyN]

theorem contains_trans {a b c : Rg} (h1 : containsRange a b = true)
    (h2 : containsRange b c = true) : containsRange a c = true := by
  rw [containsRange_iff] at h1 h2 ⊢
  omega

theorem valid_at_left {span r : Rg} (h : containsRange (leftSpanOf span) r = true)
    (hr : 0 < r.len) : containsRange span r = true := by
  rw [containsRange_iff] at h ⊢
  simp only [leftSpanOf] at h
  simp only [Rg.len] at hr
  omega

theorem valid_at_right {span r : Rg} (h : containsRange (rightSpanOf span) r = true)
    (hr : 0 < r.len) : containsRange span r = true := by
  rw [containsRange_iff] at h ⊢
  simp only [rightSpanOf] at h
  simp only [Rg.len] at hr
  omega

theorem not_left_and_right {span r : Rg} (hr : 0 < r.len) :
    ¬(containsRange (leftSpanOf span) r = true ∧
      containsRange (rightSpanOf span) r = true) := by
  rintro ⟨h1, h2⟩
  rw [containsRange_iff] at h1 h2
  simp only [leftSpanOf, rightSpanOf] at h1 h2
  simp only [Rg.len] at hr
  omega

theorem entries_valid {span : Rg} {n : NodeType T} (hwf : WFn ivl span n) :
    ∀ e ∈ entriesN n, 0 < (ivl e).len ∧ containsRange span (ivl e) = true := by
  induction n generalizing span with
  | Empty => intro e he; simp [entriesN] at he
  | Populated here l r ihl ihr =>
    obtain ⟨hA, -, -, -, -, hwl, hwr⟩ := hwf
    intro e he
    simp only [entriesN, List.append_assoc, List.mem_append] at he
    rcases he with he | he | he
    · exact hA e he
    · obtain ⟨h1, h2⟩ := ihl hwl e he
      exact ⟨h1, valid_at_left h2 h1⟩
    · obtain ⟨h1, h2⟩ := ihr hwr e he
      exact ⟨h1, valid_at_right h2 h1⟩

theorem WFn_nodup {span : Rg} {n : NodeType T} (hwf : WFn ivl span n) :
    (entriesN n).Nodup := by
  cases n with
  | Empty => simp [entriesN]
  | Populated here l r => exact hwf.2.1

theorem WFn_entries_ne_nil {span : Rg} {here : List T} {l r : NodeType T}
    (hwf : WFn ivl span (.Populated here l r)) :
    entriesN (T := T) (.Populated here l r) ≠ [] := by
  simpa [entriesN] using hwf.2.2.1

/-- An entry whose interval sits inside a sub-span and overlaps the query
forces the sub-span to overlap the query. -/
theorem overlap_lift_to_span {ls q r : Rg} (hc : containsRange ls r = true)
    (hr : 0 < r.len) (hq : 0 < q.len)
    (hov : overlapsRangeItree q r = true) :
    overlapsRangeItree ls q = true := by
  rw [containsRange_iff] at hc
  simp only [Rg.len] at hr hq
  rw [overlapsRangeItree_iff (by omega) (by omega)] at hov
  rw [overlapsRangeItree_iff (by omega) (by omega)]
  omega

theorem isInlineSingleton_of_WFn {span : Rg} {here : List T} {l r : NodeType T}
    (hwf : WFn ivl span (.Populated here l r)) :
    ∃ b, isInlineSingleton here l r = some b ∧
      (b = true ↔ singShapeB (T := T) (.Populated here l r) = true) := by
  have hne := WFn_entries_ne_nil ivl hwf
  unfold isInlineSingleton singShapeB
  by_cases hl : l.is_emptyN = true ∧ r.is_emptyN = true
  · obtain ⟨h1, h2⟩ := hl
    have hlE := is_emptyN_iff.mp h1
    have hrE := is_emptyN_iff.mp h2
    subst hlE hrE
    have hh : here ≠ [] := by
      simpa [entriesN] using hne
    rw [if_pos (by simp [h1, h2])]
    rw [if_neg (by simpa using hh)]
    exact ⟨here.length == 1, rfl, by simp [is_emptyN]⟩
  · have : ¬(l.is_emptyN && r.is_emptyN) = true := by
      intro hc
      simp only [Bool.and_eq_true] at hc
      exact hl hc
    rw [if_neg this]
    refine ⟨false, rfl, ?_⟩
    simp only [Bool.false_eq_true, false_iff]
    intro hc
    simp only [Bool.and_eq_true] at hc
    exact hl ⟨hc.1.1, hc.1.2⟩

theorem singShapeB_iff {n : NodeType T} :
    singShapeB n = true ↔ ∃ x, n = .Populated [x] .Empty .Empty := by
  cases n with
  | Empty => simp [singShapeB]
  | Populated here l r =>
    simp only [singShapeB, Bool.and_eq_true, is_emptyN_iff, beq_iff_eq]
    constructor
    · rintro ⟨⟨hl, hr⟩, hlen⟩
      subst hl; subst hr
      obtain ⟨x, hx⟩ := List.length_eq_one.mp hlen
      exact ⟨x, by rw [hx]⟩
    · rintro ⟨x, hx⟩
      injection hx with h1 h2 h3
      subst h1; subst h2; subst h3
      simp

/-- `find` returns exactly the entries beneath the node whose interval
overlaps the query, in node order. -/
theorem findN_spec {span query : Rg} {n : NodeType T} (hwf : WFn ivl span n)
    (hq : 0 < query.len) (hov : overlapsRangeItree span query = true) :
    findN ivl span query n
      = some ((entriesN n).filter (fun h => overlapsRangeItree query (ivl h))) := by
  induction n generalizing span with
  | Empty => simp [findN, hov, entriesN]
  | Populated here l r ihl ihr =>
    obtain ⟨hA, hB, hC, hlen, hD, hwl, hwr⟩ := hwf
    rw [findN]
    rw [if_neg (by simp [hov])]
    by_cases h2 : 2 ≤ span.stop - span.start
    · rw [if_pos h2]
      have hleft : (if overlapsRangeItree (leftSpanOf span) query = true then
            findN ivl (leftSpanOf span) query l else some [])
          = some ((entriesN l).filter (fun h => overlapsRangeItree query (ivl h))) := by
        by_cases hovl : overlapsRangeItree (leftSpanOf span) query = true
        · rw [if_pos hovl]
          exact ihl hwl hovl
        · rw [if_neg hovl]
          congr 1
          symm
          rw [List.filter_eq_nil_iff]
          intro e he
          intro hc
          apply hovl
          obtain ⟨h1, h2'⟩ := entries_valid ivl hwl e he
          exact overlap_lift_to_span h2' h1 hq (by simpa using hc)
      have hright : (if overlapsRangeItree (rightSpanOf span) query = true then
            findN ivl (rightSpanOf span) query r else some [])
          = some ((entriesN r).filter (fun h => overlapsRangeItree query (ivl h))) := by
        by_cases hovr : overlapsRangeItree (rightSpanOf span) query = true
        · rw [if_pos hovr]
          exact ihr hwr hovr
        · rw [if_neg hovr]
          congr 1
          symm
          rw [List.filter_eq_nil_iff]
          intro e he
          intro hc
          apply hovr
          obtain ⟨h1, h2'⟩ := entries_valid ivl hwr e he
          exact overlap_lift_to_span h2' h1 hq (by simpa using hc)
      rw [hleft, hright]
      simp [entriesN, List.filter_append]
    · rw [if_neg h2]
      obtain ⟨hl0, hr0⟩ := hlen (by simp [Rg.len]; omega)
      subst hl0; subst hr0
      simp [entriesN, List.filter_append]

/-- Permutation helper: replacing the middle of a three-part append with a
permuted copy that is a cons pulls the head to the front. -/
theorem perm_mid_cons {a lb c l2 : List T} {e : T} (h : l2.Perm (e :: lb)) :
    (a ++ l2 ++ c).Perm (e :: (a ++ lb ++ c)) := by
  have p1 : ((a ++ l2) ++ c).Perm ((a ++ (e :: lb)) ++ c) :=
    (h.append_left a).append_right c
  have p2 : (a ++ (e :: lb)).Perm (e :: (a ++ lb)) := List.perm_middle
  have p3 : ((a ++ (e :: lb)) ++ c).Perm ((e :: (a ++ lb)) ++ c) :=
    p2.append_right c
  have p4 : ((e :: (a ++ lb)) ++ c) = e :: ((a ++ lb) ++ c) := rfl
  rw [p4] at p3
  exact p1.trans p3

theorem singleton_of_isInlineSingleton_true {here : List T} {l r : NodeType T}
    (h : isInlineSingleton here l r = some true) :
    ∃ x, here = [x] ∧ l = .Empty ∧ r = .Empty := by
  unfold isInlineSingleton at h
  by_cases hc : (l.is_emptyN && r.is_emptyN) = true
  · rw [if_pos hc] at h
    by_cases hh : here.isEmpty = true
    · rw [if_pos hh] at h; exact absurd h (by simp)
    · rw [if_neg hh] at h
      simp only [Option.some_inj] at h
      have hlen : here.length = 1 := by simpa using h
      obtain ⟨x, hx⟩ := List.length_eq_one.mp hlen
      simp only [Bool.and_eq_true, is_emptyN_iff] at hc
      exact ⟨x, hx, hc.1, hc.2⟩
  · rw [if_neg hc] at h
    exact absurd h (by simp)

/-- The demotion step preserves the multiset of entries. -/
theorem demote_entries {here2 : List T} {l2 r2 n2 : NodeType T}
    (h : demote here2 l2 r2 = some n2) :
    (entriesN n2).Perm (here2 ++ entriesN l2 ++ entriesN r2) := by
  unfold demote at h
  cases hh : here2.isEmpty with
  | false =>
    rw [hh] at h
    simp only [Option.some_inj] at h
    subst h
    exact List.Perm.refl _
  | true =>
    have hh2 : here2 = [] := by simpa using hh
    subst hh2
    rw [hh] at h
    cases l2 with
    | Empty =>
      cases r2 with
      | Empty => exact absurd h (by simp)
      | Populated rh rl rr =>
        dsimp only at h
        cases hs : isInlineSingleton rh rl rr with
        | none => rw [hs] at h; exact absurd h (by simp)
        | some b =>
          rw [hs] at h
          cases b with
          | true =>
            obtain ⟨x, hx, hrl, hrr⟩ := singleton_of_isInlineSingleton_true hs
            subst hx; subst hrl; subst hrr
            rw [swapRemove_zero_singleton] at h
            simp only [Option.some_inj] at h
            subst h
            simp [entriesN]
          | false =>
            simp only [Option.some_inj] at h
            subst h
            exact List.Perm.refl _
    | Populated lh ll lr =>
      cases r2 with
      | Empty =>
        dsimp only at h
        cases hs : isInlineSingleton lh ll lr with
        | none => rw [hs] at h; exact absurd h (by simp)
        | some b =>
          rw [hs] at h
          cases b with
          | true =>
            obtain ⟨x, hx, hll, hlr⟩ := singleton_of_isInlineSingleton_true hs
            subst hx; subst hll; subst hlr
            rw [swapRemove_zero_singleton] at h
            simp only [Option.some_inj] at h
            subst h
            simp [entriesN]
          | false =>
            simp only [Option.some_inj] at h
            subst h
            exact List.Perm.refl _
      | Populated rh rl rr =>
        dsimp only at h
        simp only [Option.some_inj] at h
        subst h
        exact List.Perm.refl _

/-- Conditional entry tracking for `insert`: on a normal return, `true` means
exactly the new entry was added (as a multiset) and `false` means the node is
unchanged.  No invariant is assumed. -/
theorem ins_track : ∀ (fuel : Nat) (span : Rg) (e : T) (sup : Bool)
    (n : NodeType T) (b : Bool) (n2 : NodeType T),
    insertF ivl fuel span e sup n = some (b, n2) →
    (b = true → (entriesN n2).Perm (e :: entriesN n)) ∧
    (b = false → n2 = n) := by
  intro fuel
  induction fuel with
  | zero => intro span e sup n b n2 h; exact absurd h (by simp [insertF])
  | succ fuel ih =>
    intro span e sup n b n2 h
    simp only [insertF] at h
    by_cases hcont : containsRange span (ivl e) = true
    case neg => rw [if_pos (by simpa using hcont)] at h; exact absurd h (by simp)
    rw [if_neg (by simpa using hcont)] at h
    cases n with
    | Empty =>
      dsimp only at h
      simp only [Option.some_inj, Prod.mk.injEq] at h
      obtain ⟨hb, hn⟩ := h
      subst hb; subst hn
      constructor
      · intro _; simp [entriesN]
      · intro hbf; exact absurd hbf (by simp)
    | Populated here l r =>
      dsimp only at h
      cases hw : (if sup then some false else isInlineSingleton here l r) with
      | none => rw [hw] at h; exact absurd h (by simp)
      | some was =>
        rw [hw] at h
        dsimp only at h
        -- name the dispatch result
        cases hs : (if 2 ≤ span.stop - span.start ∧
              containsRange (leftSpanOf span) (ivl e) = true then
             match insertF ivl fuel (leftSpanOf span) e false l with
             | none => none
             | some (res, l2) => some (res, here, l2, r)
           else if 2 ≤ span.stop - span.start ∧
              containsRange (rightSpanOf span) (ivl e) = true then
             match insertF ivl fuel (rightSpanOf span) e false r with
             | none => none
             | some (res, r2) => some (res, here, l, r2)
           else if e ∈ here then some (false, here, l, r)
           else some (true, here ++ [e], l, r)) with
        | none => rw [hs] at h; exact absurd h (by simp)
        | some q =>
          obtain ⟨res, here2, l2, r2⟩ := q
          rw [hs] at h
          dsimp only at h
          -- step characterization
          have hstep : (res = true →
                (here2 ++ entriesN l2 ++ entriesN r2).Perm
                  (e :: (here ++ entriesN l ++ entriesN r))) ∧
              (res = false → here2 = here ∧ l2 = l ∧ r2 = r) := by
            by_cases hc1 : 2 ≤ span.stop - span.start ∧
                containsRange (leftSpanOf span) (ivl e) = true
            · rw [if_pos hc1] at hs
              cases hrec : insertF ivl fuel (leftSpanOf span) e false l with
              | none => rw [hrec] at hs; exact absurd hs (by simp)
              | some p =>
                obtain ⟨res0, l20⟩ := p
                rw [hrec] at hs
                simp only [Option.some_inj, Prod.mk.injEq] at hs
                obtain ⟨hr1, hr2, hr3, hr4⟩ := hs
                subst hr1; subst hr2; subst hr3; subst hr4
                obtain ⟨ht, hf⟩ := ih _ _ _ _ _ _ hrec
                constructor
                · intro hres
                  exact perm_mid_cons (ht hres)
                · intro hres
                  exact ⟨rfl, hf hres, rfl⟩
            · rw [if_neg hc1] at hs
              by_cases hc2 : 2 ≤ span.stop - span.start ∧
                  containsRange (rightSpanOf span) (ivl e) = true
              · rw [if_pos hc2] at hs
                cases hrec : insertF ivl fuel (rightSpanOf span) e false r with
                | none => rw [hrec] at hs; exact absurd hs (by simp)
                | some p =>
                  obtain ⟨res0, r20⟩ := p
                  rw [hrec] at hs
                  simp only [Option.some_inj, Prod.mk.injEq] at hs
                  obtain ⟨hr1, hr2, hr3, hr4⟩ := hs
                  subst hr1; subst hr2; subst hr3; subst hr4
                  obtain ⟨ht, hf⟩ := ih _ _ _ _ _ _ hrec
                  constructor
                  · intro hres
                    have h5 := ht hres
                    have h6 : (here ++ entriesN l ++ entriesN r20).Perm
                        (here ++ entriesN l ++ (e :: entriesN r)) :=
                      (h5.append_left (here ++ entriesN l))
                    refine h6.trans ?_
                    have h7 : (here ++ entriesN l) ++ e :: entriesN r
                        = (here ++ entriesN l) ++ e :: entriesN r := rfl
                    exact List.perm_middle
                  · intro hres
                    exact ⟨rfl, rfl, hf hres⟩
              · rw [if_neg hc2] at hs
                by_cases hc3 : e ∈ here
                · rw [if_pos hc3] at hs
                  simp only [Option.some_inj, Prod.mk.injEq] at hs
                  obtain ⟨hr1, hr2, hr3, hr4⟩ := hs
                  subst hr1; subst hr2; subst hr3; subst hr4
                  constructor
                  · intro hres; exact absurd hres (by simp)
                  · intro _; exact ⟨rfl, rfl, rfl⟩
                · rw [if_neg hc3] at hs
                  simp only [Option.some_inj, Prod.mk.injEq] at hs
                  obtain ⟨hr1, hr2, hr3, hr4⟩ := hs
                  subst hr1; subst hr2; subst hr3; subst hr4
                  constructor
                  · intro _
                    have h5 : (here ++ [e]).Perm (e :: here) :=
                      List.perm_append_singleton e here
                    have h6 : ((here ++ [e]) ++ entriesN l ++ entriesN r).Perm
                        ((e :: here) ++ entriesN l ++ entriesN r) :=
                      (h5.append_right _).append_right _
                    exact h6
                  · intro hres; exact absurd hres (by simp)
          -- final assembly
          by_cases hwr : (was && res) = true
          · rw [if_pos hwr] at h
            have hres : res = true := by
              rcases Bool.and_eq_true .. |>.mp hwr with ⟨-, h2⟩; exact h2
            cases hsw : swapRemove here2 0 with
            | none => rw [hsw] at h; exact absurd h (by simp)
            | some p =>
              obtain ⟨x, here3⟩ := p
              rw [hsw] at h
              dsimp only at h
              cases hrec2 : insertF ivl fuel span x true
                  (.Populated here3 l2 r2) with
              | none => rw [hrec2] at h; exact absurd h (by simp)
              | some p2 =>
                obtain ⟨b2, n3⟩ := p2
                rw [hrec2] at h
                cases b2 with
                | false => exact absurd h (by simp)
                | true =>
                  simp only [Option.some_inj, Prod.mk.injEq] at h
                  obtain ⟨hb, hn⟩ := h
                  subst hn
                  constructor
                  · intro _
                    obtain ⟨ht2, -⟩ := ih _ _ _ _ _ _ hrec2
                    have p1 := ht2 rfl
                    -- entries n2 ~ x :: (here3 ++ el2 ++ er2)
                    have p2 : (x :: (here3 ++ entriesN l2 ++ entriesN r2))
                        = ((x :: here3) ++ entriesN l2 ++ entriesN r2) := rfl
                    have p3 : (x :: here3).Perm here2 := swapRemove_perm hsw
                    have p4 : ((x :: here3) ++ entriesN l2 ++ entriesN r2).Perm
                        (here2 ++ entriesN l2 ++ entriesN r2) :=
                      (p3.append_right _).append_right _
                    have p5 := (hstep.1 hres)
                    simp only [entriesN]
                    exact ((p1.trans (p2 ▸ p4)).trans p5)
                  · intro hbf; rw [← hb] at hbf; exact absurd hbf (by simp)
          · rw [if_neg hwr] at h
            simp only [Option.some_inj, Prod.mk.injEq] at h
            obtain ⟨hb, hn⟩ := h
            subst hb; subst hn
            constructor
            · intro hres
              simp only [entriesN]
              exact hstep.1 hres
            · intro hres
              obtain ⟨h1, h2, h3⟩ := hstep.2 hres
              subst h1; subst h2; subst h3
              rfl

/-- Converting a cons-form permutation into an erase-form one. -/
theorem perm_erase_of_cons {rest lst : List T} {e : T}
    (h : (e :: rest).Perm lst) : rest.Perm (lst.erase e) := by
  have h2 : (lst.erase e).Perm ((e :: rest).erase e) := (h.symm).erase e
  rw [List.erase_cons_head] at h2
  exact h2.symm

/-- Conditional entry tracking for `remove`: on a normal return, `true` means
exactly one copy of the entry was removed (as a multiset) and it was present,
`false` means the node is unchanged.  No invariant is assumed. -/
theorem rem_track : ∀ (span : Rg) (e : T) (n : NodeType T) (b : Bool)
    (n2 : NodeType T),
    removeN ivl span e n = some (b, n2) →
    (b = true → e ∈ entriesN n ∧ (e :: entriesN n2).Perm (entriesN n)) ∧
    (b = false → n2 = n) := by
  intro span e n
  induction n generalizing span with
  | Empty =>
    intro b n2 h
    rw [removeN] at h
    by_cases hcont : containsRange span (ivl e) = true
    · rw [if_neg (by simpa using hcont)] at h
      simp only [Option.some_inj, Prod.mk.injEq] at h
      obtain ⟨hb, hn⟩ := h
      subst hn
      exact ⟨fun ht => absurd (hb ▸ ht) (by simp), fun _ => rfl⟩
    · rw [if_pos (by simpa using hcont)] at h
      exact absurd h (by simp)
  | Populated here l r ihl ihr =>
    intro b n2 h
    rw [removeN] at h
    by_cases hcont : containsRange span (ivl e) = true
    case neg => rw [if_pos (by simpa using hcont)] at h; exact absurd h (by simp)
    rw [if_neg (by simpa using hcont)] at h
    cases hw : isInlineSingleton here l r with
    | none => rw [hw] at h; exact absurd h (by simp)
    | some was =>
      rw [hw] at h
      cases was with
      | true =>
        obtain ⟨x, hx, hl, hr⟩ := singleton_of_isInlineSingleton_true hw
        subst hx; subst hl; subst hr
        simp only [List.head?] at h
        by_cases hxe : x = e
        · rw [if_pos hxe] at h
          subst hxe
          simp only [Option.some_inj, Prod.mk.injEq] at h
          obtain ⟨hb, hn⟩ := h
          subst hn
          constructor
          · intro _
            exact ⟨by simp [entriesN], by simp [entriesN]⟩
          · intro hbf; rw [← hb] at hbf; exact absurd hbf (by simp)
        · rw [if_neg hxe] at h
          simp only [Option.some_inj, Prod.mk.injEq] at h
          obtain ⟨hb, hn⟩ := h
          subst hn
          exact ⟨fun ht => absurd (hb ▸ ht) (by simp), fun _ => rfl⟩
      | false =>
        dsimp only at h
        cases hs : (if 2 ≤ span.stop - span.start ∧
              containsRange (leftSpanOf span) (ivl e) = true then
             match removeN ivl (leftSpanOf span) e l with
             | none => none
             | some (res, l2) => some (res, here, l2, r)
           else if 2 ≤ span.stop - span.start ∧
              containsRange (rightSpanOf span) (ivl e) = true then
             match removeN ivl (rightSpanOf span) e r with
             | none => none
             | some (res, r2) => some (res, here, l, r2)
           else
             match posOf here e with
             | some idx =>
               match swapRemove here idx with
               | none => none
               | some (_, here2) => some (true, here2, l, r)
             | none => some (false, here, l, r)) with
        | none => rw [hs] at h; exact absurd h (by simp)
        | some q =>
          obtain ⟨res, here2, l2, r2⟩ := q
          rw [hs] at h
          dsimp only at h
          have hstep : (res = true →
                e ∈ entriesN (T := T) (.Populated here l r) ∧
                (e :: (here2 ++ entriesN l2 ++ entriesN r2)).Perm
                  (here ++ entriesN l ++ entriesN r)) ∧
              (res = false → here2 = here ∧ l2 = l ∧ r2 = r) := by
            by_cases hc1 : 2 ≤ span.stop - span.start ∧
                containsRange (leftSpanOf span) (ivl e) = true
            · rw [if_pos hc1] at hs
              cases hrec : removeN ivl (leftSpanOf span) e l with
              | none => rw [hrec] at hs; exact absurd hs (by simp)
              | some p =>
                obtain ⟨res0, l20⟩ := p
                rw [hrec] at hs
                simp only [Option.some_inj, Prod.mk.injEq] at hs
                obtain ⟨hr1, hr2, hr3, hr4⟩ := hs
                subst hr1; subst hr2; subst hr3; subst hr4
                obtain ⟨ht, hf⟩ := ihl _ _ _ hrec
                constructor
                · intro hres
                  obtain ⟨hmem, hperm⟩ := ht hres
                  refine ⟨by simp only [entriesN, List.append_assoc,
                    List.mem_append]; exact Or.inr (Or.inl hmem), ?_⟩
                  exact (perm_mid_cons hperm.symm).symm
                · intro hres
                  exact ⟨rfl, hf hres, rfl⟩
            · rw [if_neg hc1] at hs
              by_cases hc2 : 2 ≤ span.stop - span.start ∧
                  containsRange (rightSpanOf span) (ivl e) = true
              · rw [if_pos hc2] at hs
                cases hrec : removeN ivl (rightSpanOf span) e r with
                | none => rw [hrec] at hs; exact absurd hs (by simp)
                | some p =>
                  obtain ⟨res0, r20⟩ := p
                  rw [hrec] at hs
                  simp only [Option.some_inj, Prod.mk.injEq] at hs
                  obtain ⟨hr1, hr2, hr3, hr4⟩ := hs
                  subst hr1; subst hr2; subst hr3; subst hr4
                  obtain ⟨ht, hf⟩ := ihr _ _ _ hrec
                  constructor
                  · intro hres
                    obtain ⟨hmem, hperm⟩ := ht hres
                    refine ⟨by simp only [entriesN, List.append_assoc,
                      List.mem_append]; exact Or.inr (Or.inr hmem), ?_⟩
                    -- e :: (here ++ el ++ er2) ~ here ++ el ++ er
                    have h5 : (here ++ entriesN l ++ (e :: entriesN r20)).Perm
                        (here ++ entriesN l ++ entriesN r) :=
                      hperm.append_left (here ++ entriesN l)
                    refine List.Perm.trans ?_ h5
                    exact List.perm_middle.symm
                  · intro hres
                    exact ⟨rfl, rfl, hf hres⟩
              · rw [if_neg hc2] at hs
                cases hp : posOf here e with
                | some idx =>
                  rw [hp] at hs
                  dsimp only at hs
                  cases hsw : swapRemove here idx with
                  | none => rw [hsw] at hs; exact absurd hs (by simp)
                  | some p =>
                    obtain ⟨y, here20⟩ := p
                    rw [hsw] at hs
                    simp only [Option.some_inj, Prod.mk.injEq] at hs
                    obtain ⟨hr1, hr2, hr3, hr4⟩ := hs
                    subst hr1; subst hr2; subst hr3; subst hr4
                    obtain ⟨hy, -⟩ := posOf_swapRemove_erase hp hsw
                    subst hy
                    have hmem : y ∈ here := List.get?_mem (posOf_get hp)
                    constructor
                    · intro _
                      refine ⟨by simp only [entriesN, List.append_assoc,
                        List.mem_append]; exact Or.inl hmem, ?_⟩
                      have h5 : (y :: here20).Perm here := swapRemove_perm hsw
                      exact (h5.append_right _).append_right _
                    · intro hres; exact absurd hres (by simp)
                | none =>
                  rw [hp] at hs
                  dsimp only at hs
                  simp only [Option.some_inj, Prod.mk.injEq] at hs
                  obtain ⟨hr1, hr2, hr3, hr4⟩ := hs
                  subst hr1; subst hr2; subst hr3; subst hr4
                  exact ⟨fun ht => absurd ht (by simp),
                    fun _ => ⟨rfl, rfl, rfl⟩⟩
          cases res with
          | true =>
            rw [if_pos rfl] at h
            cases hd : demote here2 l2 r2 with
            | none => rw [hd] at h; exact absurd h (by simp)
            | some n3 =>
              rw [hd] at h
              simp only [Option.some_inj, Prod.mk.injEq] at h
              obtain ⟨hb, hn⟩ := h
              subst hn
              constructor
              · intro _
                obtain ⟨hmem, hperm⟩ := hstep.1 rfl
                refine ⟨hmem, ?_⟩
                have h5 := demote_entries hd
                simp only [entriesN]
                exact (h5.cons e).trans hperm
              · intro hbf; rw [← hb] at hbf; exact absurd hbf (by simp)
          | false =>
            rw [if_neg (by simp)] at h
            simp only [Option.some_inj, Prod.mk.injEq] at h
            obtain ⟨hb, hn⟩ := h
            subst hb; subst hn
            constructor
            · intro hres; exact absurd hres (by simp)
            · intro _
              obtain ⟨h1, h2, h3⟩ := hstep.2 rfl
              subst h1; subst h2; subst h3
              rfl

/-- Unfolding lemma for `WFn` at a populated node. -/
theorem WFn_pop_iff {span : Rg} {here : List T} {l r : NodeType T} :
    WFn ivl span (.Populated here l r) ↔
      ((∀ e ∈ here, 0 < (ivl e).len ∧ containsRange span (ivl e) = true) ∧
       (here ++ l.entriesN ++ r.entriesN).Nodup ∧
       here ++ l.entriesN ++ r.entriesN ≠ [] ∧
       (span.len < 2 → l = .Empty ∧ r = .Empty) ∧
       (∀ e ∈ here, 2 ≤ span.len →
         (containsRange (leftSpanOf span) (ivl e) = true ∨
          containsRange (rightSpanOf span) (ivl e) = true) →
         here = [e] ∧ l = .Empty ∧ r = .Empty) ∧
       WFn ivl (leftSpanOf span) l ∧ WFn ivl (rightSpanOf span) r) :=
  Iff.rfl

/-- Unfolding lemma for `noDemotable` at a populated node. -/
theorem noDemotable_pop_iff {here : List T} {l r : NodeType T} :
    noDemotable (T := T) (.Populated here l r) ↔
      (¬(here = [] ∧ ((singShapeB l = true ∧ r = .Empty) ∨
                      (l = .Empty ∧ singShapeB r = true))) ∧
       noDemotable l ∧ noDemotable r) :=
  Iff.rfl

/-- The bag entries of the root together with the children, as used for the
suppressed relocation call: no bag entry fits a child, and both children
satisfy `noDemotable`. -/
def rootOkSup (span : Rg) : NodeType T → Prop
  | .Empty => True
  | .Populated here l r =>
      (∀ e0 ∈ here, 2 ≤ span.len →
        ¬(containsRange (leftSpanOf span) (ivl e0) = true ∨
          containsRange (rightSpanOf span) (ivl e0) = true)) ∧
      noDemotable l ∧ noDemotable r

theorem sing_entries {n : NodeType T} (h : singShapeB n = true) :
    ∃ y, entriesN n = [y] := by
  obtain ⟨x, hx⟩ := singShapeB_iff.mp h
  subst hx
  exact ⟨x, by simp [entriesN]⟩

theorem perm_cons_ne_nil {l2 lb : List T} {e : T} (h : l2.Perm (e :: lb)) :
    l2 ≠ [] := by
  intro hc
  subst hc
  have := h.length_eq
  simp at this

theorem nodup_perm_mid {a lb c l2 : List T} {e : T}
    (hperm : l2.Perm (e :: lb)) (hnod : (a ++ lb ++ c).Nodup)
    (hfresh : e ∉ a ++ lb ++ c) : (a ++ l2 ++ c).Nodup := by
  have hp : (a ++ l2 ++ c).Perm (e :: (a ++ lb ++ c)) := perm_mid_cons hperm
  rw [hp.nodup_iff]
  exact List.Nodup.cons hfresh hnod

theorem mem_entries_pop {x : T} {here : List T} {l r : NodeType T} :
    x ∈ entriesN (T := T) (.Populated here l r) ↔
      x ∈ here ∨ x ∈ entriesN l ∨ x ∈ entriesN r := by
  simp [entriesN, List.mem_append, or_assoc]

theorem entriesN_Empty : entriesN (T := T) .Empty = [] := rfl

theorem left_len_lt {span : Rg} (h : 2 ≤ span.len) :
    (leftSpanOf span).len < span.len ∧ 0 < (leftSpanOf span).len := by
  simp only [leftSpanOf, Rg.len] at h ⊢
  omega

theorem right_len_lt {span : Rg} (h : 2 ≤ span.len) :
    (rightSpanOf span).len < span.len ∧ 0 < (rightSpanOf span).len := by
  simp only [rightSpanOf, Rg.len] at h ⊢
  omega

theorem isInlineSingleton_singleton (x : T) :
    isInlineSingleton [x] (.Empty : NodeType T) .Empty = some true := by
  simp [isInlineSingleton, is_emptyN]

theorem swapRemove_pair (x e : T) : swapRemove [x, e] 0 = some (x, [e]) := by
  simp [swapRemove]

theorem singShape_dest {here : List T} {l r : NodeType T}
    (h : singShapeB (T := T) (.Populated here l r) = true) :
    ∃ x, here = [x] ∧ l = .Empty ∧ r = .Empty := by
  obtain ⟨x, hx⟩ := singShapeB_iff.mp h
  injection hx with h1 h2 h3
  exact ⟨x, h1, h2, h3⟩

theorem WFn_Empty {span : Rg} : WFn ivl span (.Empty : NodeType T) := trivial

theorem noDemotable_Empty : noDemotable (.Empty : NodeType T) := trivial

/-- The main insertion theorem: inserting a fresh valid entry succeeds,
returns `true`, preserves the structural invariants, and adds exactly that
entry.  The `sup` (suppress-relocation) variant is used internally by the
relocation call; the hypothesis on the pre-state differs accordingly. -/
theorem ins_main : ∀ (fuel : Nat) (span : Rg) (e : T) (sup : Bool)
    (n : NodeType T),
    WFn ivl span n →
    0 < (ivl e).len → containsRange span (ivl e) = true →
    e ∉ entriesN n →
    (if sup = true then rootOkSup ivl span n else noDemotable n) →
    2 * span.len + (if sup = true then 1 else 2) ≤ fuel →
    ∃ n2, insertF ivl fuel span e sup n = some (true, n2) ∧
      WFn ivl span n2 ∧ noDemotable n2 ∧
      (entriesN n2).Perm (e :: entriesN n) := by
  intro fuel
  induction fuel with
  | zero =>
    intro span e sup n hwf hlen hcont hfresh hsup hfuel
    cases sup <;> simp at hfuel <;> omega
  | succ fuel ih =>
    intro span e sup n hwf hlen hcont hfresh hsup hfuel
    simp only [insertF]
    rw [if_neg (by simp [hcont])]
    cases n with
    | Empty =>
      refine ⟨.Populated [e] .Empty .Empty, rfl, ?_, ?_, ?_⟩
      · rw [WFn_pop_iff]
        refine ⟨?_, ?_, ?_, ?_, ?_, trivial, trivial⟩
        · intro e0 he0
          simp at he0
          subst he0
          exact ⟨hlen, hcont⟩
        · simp [entriesN_Empty]
        · simp [entriesN_Empty]
        · intro _; exact ⟨rfl, rfl⟩
        · intro e0 he0 _ _
          simp at he0
          subst he0
          exact ⟨rfl, rfl, rfl⟩
      · rw [noDemotable_pop_iff]
        exact ⟨by simp, trivial, trivial⟩
      · simp [entriesN]
    | Populated here l r =>
      obtain ⟨hA, hB, hC, hlg, hD, hwl, hwr⟩ := WFn_pop_iff ivl |>.mp hwf
      -- characterize the was flag
      obtain ⟨was, hwas, hsupf, hsupt⟩ :
          ∃ was, (if sup = true then some false
                  else isInlineSingleton here l r) = some was ∧
            (sup = false → (was = true ↔
              singShapeB (T := T) (.Populated here l r) = true)) ∧
            (sup = true → was = false) := by
        cases sup with
        | true => exact ⟨false, by simp, by simp, fun _ => rfl⟩
        | false =>
          obtain ⟨b, hb, hbiff⟩ := isInlineSingleton_of_WFn ivl hwf
          exact ⟨b, by simpa using hb, fun _ => hbiff, by simp⟩
      dsimp only
      rw [hwas]
      dsimp only
      -- freshness pieces
      have hfh : e ∉ here := fun hc => hfresh (mem_entries_pop.mpr (Or.inl hc))
      have hfl : e ∉ entriesN l :=
        fun hc => hfresh (mem_entries_pop.mpr (Or.inr (Or.inl hc)))
      have hfr : e ∉ entriesN r :=
        fun hc => hfresh (mem_entries_pop.mpr (Or.inr (Or.inr hc)))
      have hNDl : noDemotable l := by
        cases sup with
        | true => exact (by simpa using hsup : rootOkSup ivl span
            (.Populated here l r)).2.1
        | false => exact ((noDemotable_pop_iff.mp (by simpa using hsup)).2.1)
      have hNDr : noDemotable r := by
        cases sup with
        | true => exact (by simpa using hsup : rootOkSup ivl span
            (.Populated here l r)).2.2
        | false => exact ((noDemotable_pop_iff.mp (by simpa using hsup)).2.2)
      -- (D)-style contradiction helper for the final states
      have hDpost : ∀ e0 ∈ here, 2 ≤ span.len →
          (containsRange (leftSpanOf span) (ivl e0) = true ∨
           containsRange (rightSpanOf span) (ivl e0) = true) →
          was = true := by
        intro e0 he0 h2 hfit
        cases sup with
        | true =>
          exfalso
          have := (by simpa using hsup : rootOkSup ivl span
            (.Populated here l r)).1 e0 he0 h2
          exact this hfit
        | false =>
          obtain ⟨hq1, hq2, hq3⟩ := hD e0 he0 h2 hfit
          subst hq2; subst hq3
          refine (hsupf rfl).mpr ?_
          rw [hq1]
          simp [singShapeB, is_emptyN]
      by_cases hc1 : 2 ≤ span.stop - span.start ∧
          containsRange (leftSpanOf span) (ivl e) = true
      · -- descend left
        rw [if_pos hc1]
        have h2span : 2 ≤ span.len := by simp only [Rg.len]; exact hc1.1
        have hfuel2 : 2 * (leftSpanOf span).len + 2 ≤ fuel := by
          have := (left_len_lt h2span).1
          cases sup <;> simp at hfuel <;> omega
        obtain ⟨l2, hrec, hwfl2, hndl2, hperml2⟩ :=
          ih (leftSpanOf span) e false l hwl hlen hc1.2 hfl
            (by simpa using hNDl) (by simpa using hfuel2)
        rw [hrec]
        dsimp only
        cases hwr2 : was with
        | false =>
          rw [if_neg (by simp [hwr2])]
          refine ⟨.Populated here l2 r, rfl, ?_, ?_, ?_⟩
          · rw [WFn_pop_iff]
            refine ⟨hA, ?_, ?_, ?_, ?_, hwfl2, hwr⟩
            · exact nodup_perm_mid hperml2 hB (by
                intro hc
                simp only [List.append_assoc, List.mem_append] at hc
                rcases hc with hc | hc | hc
                · exact hfh hc
                · exact hfl hc
                · exact hfr hc)
            · intro hc
              have := congrArg List.length hc
              simp [hperml2.length_eq] at this
            · intro hl2
              exfalso
              simp only [Rg.len] at hl2
              omega
            · intro e0 he0 h2 hfit
              exfalso
              have := hDpost e0 he0 h2 hfit
              rw [hwr2] at this
              exact absurd this (by simp)
          · rw [noDemotable_pop_iff]
            refine ⟨?_, hndl2, hNDr⟩
            rintro ⟨hh0, hcase⟩
            rcases hcase with ⟨hsl2, hre⟩ | ⟨hl2e, hsr⟩
            · -- l2 singleton means l was empty; with here=[] and r=Empty
              -- the pre-node had no entries
              obtain ⟨y, hy⟩ := sing_entries hsl2
              have hlnil : entriesN l = [] := by
                have hlen2 := hperml2.length_eq
                rw [hy] at hlen2
                simp only [List.length_cons, List.length_nil] at hlen2
                have h0 : (entriesN l).length = 0 := by omega
                exact List.length_eq_zero.mp h0
              apply hC
              subst hh0
              rw [hlnil, hre]
              simp [entriesN_Empty]
            · exact perm_cons_ne_nil hperml2 (by simp [hl2e, entriesN])
          · simp only [entriesN]
            exact perm_mid_cons hperml2
        | true =>
          rw [if_pos (by simp [hwr2])]
          -- singleton shape
          have hsupF : sup = false := by
            cases sup with
            | false => rfl
            | true => exact absurd (hsupt rfl) (by simp [hwr2])
          obtain ⟨x, hx, hlE, hrE⟩ := singShape_dest ((hsupf hsupF).mp hwr2)
          subst hx; subst hlE; subst hrE
          rw [swapRemove_zero_singleton]
          dsimp only
          -- relocation call on the intermediate node
          have hxne : x ≠ e := by
            intro hc
            subst hc
            exact hfresh (by simp [entriesN])
          have hxval := hA x (by simp)
          have hel2 : (entriesN l2).Perm [e] := by
            simpa [entriesN_Empty] using hperml2
          have hm_wf : WFn ivl span (.Populated [] l2 .Empty) := by
            rw [WFn_pop_iff]
            refine ⟨by simp, ?_, ?_, ?_, by simp, hwfl2, trivial⟩
            · simp only [List.nil_append, entriesN_Empty, List.append_nil]
              exact hel2.nodup_iff.mpr (by simp)
            · simp only [List.nil_append, entriesN_Empty, List.append_nil]
              exact perm_cons_ne_nil hperml2
            · intro hl2
              exfalso
              simp only [Rg.len] at hl2
              omega
          have hm_sup : rootOkSup ivl span (.Populated [] l2 .Empty) := by
            exact ⟨by simp, hndl2, trivial⟩
          have hm_fresh : x ∉ entriesN (T := T) (.Populated [] l2 .Empty) := by
            rw [mem_entries_pop]
            rintro (hc | hc | hc)
            · simp at hc
            · rw [hel2.mem_iff] at hc
              simp at hc
              exact hxne hc
            · simp [entriesN_Empty] at hc
          have hfuel3 : 2 * span.len + 1 ≤ fuel := by
            rw [hsupF] at hfuel
            simp at hfuel
            omega
          obtain ⟨n3, hrec2, hwfn3, hndn3, hpermn3⟩ :=
            ih span x true (.Populated [] l2 .Empty) hm_wf hxval.1 hxval.2
              hm_fresh (by simpa using hm_sup) (by simpa using hfuel3)
          rw [hrec2]
          refine ⟨n3, rfl, hwfn3, hndn3, ?_⟩
          refine hpermn3.trans ?_
          simp only [entriesN, List.nil_append, entriesN_Empty, List.append_nil]
          exact (hel2.cons x).trans (List.Perm.swap e x [])
      · rw [if_neg hc1]
        by_cases hc2 : 2 ≤ span.stop - span.start ∧
            containsRange (rightSpanOf span) (ivl e) = true
        · -- descend right
          rw [if_pos hc2]
          have h2span : 2 ≤ span.len := by simp only [Rg.len]; exact hc2.1
          have hfuel2 : 2 * (rightSpanOf span).len + 2 ≤ fuel := by
            have := (right_len_lt h2span).1
            cases sup <;> simp at hfuel <;> omega
          obtain ⟨r2, hrec, hwfr2, hndr2, hpermr2⟩ :=
            ih (rightSpanOf span) e false r hwr hlen hc2.2 hfr
              (by simpa using hNDr) (by simpa using hfuel2)
          rw [hrec]
          dsimp only
          cases hwr2 : was with
          | false =>
            rw [if_neg (by simp [hwr2])]
            refine ⟨.Populated here l r2, rfl, ?_, ?_, ?_⟩
            · rw [WFn_pop_iff]
              refine ⟨hA, ?_, ?_, ?_, ?_, hwl, hwfr2⟩
              · -- nodup with new right entries
                have hp : (here ++ entriesN l ++ entriesN r2).Perm
                    (e :: (here ++ entriesN l ++ entriesN r)) := by
                  have h5 : (entriesN r2).Perm (e :: entriesN r) := hpermr2
                  have h6 := h5.append_left (here ++ entriesN l)
                  exact h6.trans List.perm_middle
                rw [hp.nodup_iff]
                refine List.Nodup.cons ?_ hB
                intro hc
                simp only [List.append_assoc, List.mem_append] at hc
                rcases hc with hc | hc | hc
                · exact hfh hc
                · exact hfl hc
                · exact hfr hc
              · intro hc
                have := congrArg List.length hc
                simp [hpermr2.length_eq] at this
              · intro hl2
                exfalso
                simp only [Rg.len] at hl2
                omega
              · intro e0 he0 h2 hfit
                exfalso
                have := hDpost e0 he0 h2 hfit
                rw [hwr2] at this
                exact absurd this (by simp)
            · rw [noDemotable_pop_iff]
              refine ⟨?_, hNDl, hndr2⟩
              rintro ⟨hh0, hcase⟩
              rcases hcase with ⟨hsl, hr2e⟩ | ⟨hlE, hsr2⟩
              · exact perm_cons_ne_nil hpermr2 (by simp [hr2e, entriesN])
              · obtain ⟨y, hy⟩ := sing_entries hsr2
                have hrnil : entriesN r = [] := by
                  have hlen2 := hpermr2.length_eq
                  rw [hy] at hlen2
                  simp only [List.length_cons, List.length_nil] at hlen2
                  have h0 : (entriesN r).length = 0 := by omega
                  exact List.length_eq_zero.mp h0
                apply hC
                subst hh0
                rw [hrnil, hlE]
                simp [entriesN_Empty]
            · simp only [entriesN]
              have h6 := hpermr2.append_left (here ++ entriesN l)
              exact h6.trans List.perm_middle
          | true =>
            rw [if_pos (by simp [hwr2])]
            have hsupF : sup = false := by
              cases sup with
              | false => rfl
              | true => exact absurd (hsupt rfl) (by simp [hwr2])
            obtain ⟨x, hx, hlE, hrE⟩ := singShape_dest ((hsupf hsupF).mp hwr2)
            subst hx; subst hlE; subst hrE
            rw [swapRemove_zero_singleton]
            dsimp only
            have hxne : x ≠ e := by
              intro hc
              subst hc
              exact hfresh (by simp [entriesN])
            have hxval := hA x (by simp)
            have her2 : (entriesN r2).Perm [e] := by
              simpa [entriesN_Empty] using hpermr2
            have hm_wf : WFn ivl span (.Populated [] .Empty r2) := by
              rw [WFn_pop_iff]
              refine ⟨by simp, ?_, ?_, ?_, by simp, trivial, hwfr2⟩
              · simp only [List.nil_append, entriesN_Empty]
                exact her2.nodup_iff.mpr (by simp)
              · simp only [List.nil_append, entriesN_Empty]
                exact perm_cons_ne_nil hpermr2
              · intro hl2
                exfalso
                simp only [Rg.len] at hl2
                omega
            have hm_sup : rootOkSup ivl span (.Populated [] .Empty r2) :=
              ⟨by simp, trivial, hndr2⟩
            have hm_fresh : x ∉ entriesN (T := T) (.Populated [] .Empty r2) := by
              rw [mem_entries_pop]
              rintro (hc | hc | hc)
              · simp at hc
              · simp [entriesN_Empty] at hc
              · rw [her2.mem_iff] at hc
                simp at hc
                exact hxne hc
            have hfuel3 : 2 * span.len + 1 ≤ fuel := by
              rw [hsupF] at hfuel
              simp at hfuel
              omega
            obtain ⟨n3, hrec2, hwfn3, hndn3, hpermn3⟩ :=
              ih span x true (.Populated [] .Empty r2) hm_wf hxval.1 hxval.2
                hm_fresh (by simpa using hm_sup) (by simpa using hfuel3)
            rw [hrec2]
            refine ⟨n3, rfl, hwfn3, hndn3, ?_⟩
            refine hpermn3.trans ?_
            simp only [entriesN, List.nil_append, entriesN_Empty]
            exact (her2.cons x).trans (List.Perm.swap e x [])
        · -- the local bag
          rw [if_neg hc2]
          rw [if_neg hfh]
          dsimp only
          cases hwr2 : was with
          | false =>
            rw [if_neg (by simp [hwr2])]
            refine ⟨.Populated (here ++ [e]) l r, rfl, ?_, ?_, ?_⟩
            · rw [WFn_pop_iff]
              refine ⟨?_, ?_, ?_, ?_, ?_, hwl, hwr⟩
              · intro e0 he0
                rcases List.mem_append.mp he0 with he0 | he0
                · exact hA e0 he0
                · simp at he0; subst he0; exact ⟨hlen, hcont⟩
              · have hp : ((here ++ [e]) ++ entriesN l ++ entriesN r).Perm
                    (e :: (here ++ entriesN l ++ entriesN r)) := by
                  have h5 : (here ++ [e]).Perm (e :: here) :=
                    List.perm_append_singleton e here
                  exact (h5.append_right _).append_right _
                rw [hp.nodup_iff]
                refine List.Nodup.cons ?_ hB
                intro hc
                simp only [List.append_assoc, List.mem_append] at hc
                rcases hc with hc | hc | hc
                · exact hfh hc
                · exact hfl hc
                · exact hfr hc
              · simp
              · intro hsl
                exact hlg hsl
              · intro e0 he0 h2 hfit
                exfalso
                rcases List.mem_append.mp he0 with he0 | he0
                · have := hDpost e0 he0 h2 hfit
                  rw [hwr2] at this
                  exact absurd this (by simp)
                · simp at he0
                  subst he0
                  rcases hfit with hfit | hfit
                  · exact hc1 ⟨by simpa [Rg.len] using h2, hfit⟩
                  · exact hc2 ⟨by simpa [Rg.len] using h2, hfit⟩
            · rw [noDemotable_pop_iff]
              refine ⟨?_, hNDl, hNDr⟩
              rintro ⟨hh0, -⟩
              simp at hh0
            · simp only [entriesN]
              have h5 : (here ++ [e]).Perm (e :: here) :=
                List.perm_append_singleton e here
              exact (h5.append_right _).append_right _
          | true =>
            rw [if_pos (by simp [hwr2])]
            have hsupF : sup = false := by
              cases sup with
              | false => rfl
              | true => exact absurd (hsupt rfl) (by simp [hwr2])
            obtain ⟨x, hx, hlE, hrE⟩ := singShape_dest ((hsupf hsupF).mp hwr2)
            subst hx; subst hlE; subst hrE
            simp only [List.singleton_append]
            rw [swapRemove_pair]
            dsimp only
            have hxne : x ≠ e := by
              intro hc
              subst hc
              exact hfresh (by simp [entriesN])
            have hxval := hA x (by simp)
            have hm_wf : WFn ivl span (.Populated [e] .Empty .Empty) := by
              rw [WFn_pop_iff]
              refine ⟨?_, by simp [entriesN], by simp [entriesN],
                fun _ => ⟨rfl, rfl⟩, ?_, trivial, trivial⟩
              · intro e0 he0
                simp at he0
                subst he0
                exact ⟨hlen, hcont⟩
              · intro e0 he0 _ _
                simp at he0
                subst he0
                exact ⟨rfl, rfl, rfl⟩
            have hm_sup : rootOkSup ivl span (.Populated [e] .Empty .Empty) := by
              refine ⟨?_, trivial, trivial⟩
              intro e0 he0 h2 hfit
              simp at he0
              subst he0
              rcases hfit with hfit | hfit
              · exact hc1 ⟨by simpa [Rg.len] using h2, hfit⟩
              · exact hc2 ⟨by simpa [Rg.len] using h2, hfit⟩
            have hm_fresh : x ∉ entriesN (T := T)
                (.Populated [e] .Empty .Empty) := by
              simp [entriesN]
              exact hxne
            have hfuel3 : 2 * span.len + 1 ≤ fuel := by
              rw [hsupF] at hfuel
              simp at hfuel
              omega
            obtain ⟨n3, hrec2, hwfn3, hndn3, hpermn3⟩ :=
              ih span x true (.Populated [e] .Empty .Empty) hm_wf hxval.1
                hxval.2 hm_fresh (by simpa using hm_sup) (by simpa using hfuel3)
            rw [hrec2]
            refine ⟨n3, rfl, hwfn3, hndn3, ?_⟩
            refine hpermn3.trans ?_
            simp only [entriesN, List.nil_append, entriesN_Empty,
              List.append_nil]
            exact List.Perm.swap e x []

/-- Inserting an entry that is already present either aborts (the relocation
assertion fires) or returns `false` leaving the node unchanged. -/
theorem ins_dup : ∀ (fuel : Nat) (span : Rg) (e : T) (n : NodeType T),
    WFn ivl span n → 0 < (ivl e).len → containsRange span (ivl e) = true →
    e ∈ entriesN n → 2 * span.len + 2 ≤ fuel →
    insertF ivl fuel span e false n = none ∨
      insertF ivl fuel span e false n = some (false, n) := by
  intro fuel
  induction fuel using Nat.strong_induction_on with
  | _ fuel ihs =>
    intro span e n hwf hlen hcont hmem hfuel
    match fuel, hfuel with
    | f1 + 1, hfuel =>
    simp only [insertF]
    rw [if_neg (by simp [hcont])]
    cases n with
    | Empty => simp [entriesN] at hmem
    | Populated here l r =>
      obtain ⟨hA, hB, hC, hlg, hD, hwl, hwr⟩ := WFn_pop_iff ivl |>.mp hwf
      obtain ⟨was, hwas, hbiff⟩ := isInlineSingleton_of_WFn ivl hwf
      dsimp only
      rw [if_neg (by simp), hwas]
      dsimp only
      by_cases hc1 : 2 ≤ span.stop - span.start ∧
          containsRange (leftSpanOf span) (ivl e) = true
      · rw [if_pos hc1]
        -- locate e
        have hnotr : e ∉ entriesN r := by
          intro hc
          obtain ⟨h1, h2⟩ := entries_valid ivl hwr e hc
          exact not_left_and_right hlen ⟨hc1.2, h2⟩
        rcases mem_entries_pop.mp hmem with hhin | hlin | hrin
        · -- e sits in the local bag: the node is an inline singleton [e]
          obtain ⟨hq1, hq2, hq3⟩ := hD e hhin (by simpa [Rg.len] using hc1.1)
            (Or.inl hc1.2)
          subst hq2; subst hq3
          have hwastrue : was = true := by
            rw [hq1] at hwas
            rw [isInlineSingleton_singleton] at hwas
            exact (Option.some_inj.mp hwas).symm
          subst hwastrue
          -- the child insert goes into the Empty left child and succeeds
          have hf1pos : 1 ≤ f1 := by omega
          match f1, hf1pos with
          | f2 + 1, _ =>
          have hchild : insertF ivl (f2 + 1) (leftSpanOf span) e false .Empty
              = some (true, .Populated [e] .Empty .Empty) := by
            simp only [insertF]
            rw [if_neg (by simp [hc1.2])]
          rw [hchild]
          dsimp only
          rw [if_pos (by simp)]
          rw [hq1, swapRemove_zero_singleton]
          dsimp only
          -- the relocation re-inserts e, which collides with the copy just
          -- placed in the left child
          have hreloc : insertF ivl (f2 + 1) span e true
              (.Populated [] (.Populated [e] .Empty .Empty) .Empty) = none ∨
              insertF ivl (f2 + 1) span e true
              (.Populated [] (.Populated [e] .Empty .Empty) .Empty)
                = some (false, (.Populated []
                    (.Populated [e] .Empty .Empty) .Empty)) := by
            simp only [insertF]
            rw [if_neg (by simp [hcont])]
            rw [if_pos hc1]
            have hinwf : WFn ivl (leftSpanOf span)
                (.Populated [e] .Empty .Empty) := by
              rw [WFn_pop_iff]
              refine ⟨?_, by simp [entriesN], by simp [entriesN],
                fun _ => ⟨rfl, rfl⟩, ?_, trivial, trivial⟩
              · intro e0 he0
                simp at he0
                subst he0
                exact ⟨hlen, hc1.2⟩
              · intro e0 he0 _ _
                simp at he0
                subst he0
                exact ⟨rfl, rfl, rfl⟩
            have hfuel3 : 2 * (leftSpanOf span).len + 2 ≤ f2 := by
              have h2 : 2 ≤ span.len := by simpa [Rg.len] using hc1.1
              have := (left_len_lt h2).1
              omega
            have hdup := ihs f2 (by omega) (leftSpanOf span) e
              (.Populated [e] .Empty .Empty) hinwf hlen hc1.2
              (by simp [entriesN]) hfuel3
            rcases hdup with hdup | hdup
            · rw [hdup]
              exact Or.inl rfl
            · rw [hdup]
              right
              simp
          rcases hreloc with hrel | hrel
          · rw [hrel]
            exact Or.inl rfl
          · rw [hrel]
            exact Or.inl rfl
        · -- e in the left subtree
          have hfuel2 : 2 * (leftSpanOf span).len + 2 ≤ f1 := by
            have h2 : 2 ≤ span.len := by simpa [Rg.len] using hc1.1
            have := (left_len_lt h2).1
            omega
          have hdup := ihs f1 (by omega) (leftSpanOf span) e l hwl hlen hc1.2
            hlin hfuel2
          rcases hdup with hdup | hdup
          · rw [hdup]
            exact Or.inl rfl
          · rw [hdup]
            dsimp only
            rw [if_neg (by simp)]
            exact Or.inr rfl
        · exact absurd hrin hnotr
      · rw [if_neg hc1]
        by_cases hc2 : 2 ≤ span.stop - span.start ∧
            containsRange (rightSpanOf span) (ivl e) = true
        · rw [if_pos hc2]
          have hnotl : e ∉ entriesN l := by
            intro hc
            obtain ⟨h1, h2⟩ := entries_valid ivl hwl e hc
            exact not_left_and_right hlen ⟨h2, hc2.2⟩
          rcases mem_entries_pop.mp hmem with hhin | hlin | hrin
          · obtain ⟨hq1, hq2, hq3⟩ := hD e hhin (by simpa [Rg.len] using hc2.1)
              (Or.inr hc2.2)
            subst hq2; subst hq3
            have hwastrue : was = true := by
              rw [hq1] at hwas
              rw [isInlineSingleton_singleton] at hwas
              exact (Option.some_inj.mp hwas).symm
            subst hwastrue
            have hf1pos : 1 ≤ f1 := by omega
            match f1, hf1pos with
            | f2 + 1, _ =>
            have hchild : insertF ivl (f2 + 1) (rightSpanOf span) e false
                .Empty = some (true, .Populated [e] .Empty .Empty) := by
              simp only [insertF]
              rw [if_neg (by simp [hc2.2])]
            rw [hchild]
            dsimp only
            rw [if_pos (by simp)]
            rw [hq1, swapRemove_zero_singleton]
            dsimp only
            have hreloc : insertF ivl (f2 + 1) span e true
                (.Populated [] .Empty (.Populated [e] .Empty .Empty)) = none ∨
                insertF ivl (f2 + 1) span e true
                (.Populated [] .Empty (.Populated [e] .Empty .Empty))
                  = some (false, (.Populated [] .Empty
                      (.Populated [e] .Empty .Empty))) := by
              simp only [insertF]
              rw [if_neg (by simp [hcont])]
              rw [if_neg hc1, if_pos hc2]
              have hinwf : WFn ivl (rightSpanOf span)
                  (.Populated [e] .Empty .Empty) := by
                rw [WFn_pop_iff]
                refine ⟨?_, by simp [entriesN], by simp [entriesN],
                  fun _ => ⟨rfl, rfl⟩, ?_, trivial, trivial⟩
                · intro e0 he0
                  simp at he0
                  subst he0
                  exact ⟨hlen, hc2.2⟩
                · intro e0 he0 _ _
                  simp at he0
                  subst he0
                  exact ⟨rfl, rfl, rfl⟩
              have hfuel3 : 2 * (rightSpanOf span).len + 2 ≤ f2 := by
                have h2 : 2 ≤ span.len := by simpa [Rg.len] using hc2.1
                have := (right_len_lt h2).1
                omega
              have hdup := ihs f2 (by omega) (rightSpanOf span) e
                (.Populated [e] .Empty .Empty) hinwf hlen hc2.2
                (by simp [entriesN]) hfuel3
              rcases hdup with hdup | hdup
              · rw [hdup]
                exact Or.inl rfl
              · rw [hdup]
                right
                simp
            rcases hreloc with hrel | hrel
            · rw [hrel]
              exact Or.inl rfl
            · rw [hrel]
              exact Or.inl rfl
          · exact absurd hlin hnotl
          · have hfuel2 : 2 * (rightSpanOf span).len + 2 ≤ f1 := by
              have h2 : 2 ≤ span.len := by simpa [Rg.len] using hc2.1
              have := (right_len_lt h2).1
              omega
            have hdup := ihs f1 (by omega) (rightSpanOf span) e r hwr hlen
              hc2.2 hrin hfuel2
            rcases hdup with hdup | hdup
            · rw [hdup]
              exact Or.inl rfl
            · rw [hdup]
              dsimp only
              rw [if_neg (by simp)]
              exact Or.inr rfl
        · -- local bag: e must be here, and the membership test rejects it
          rw [if_neg hc2]
          have hin : e ∈ here := by
            rcases mem_entries_pop.mp hmem with hhin | hlin | hrin
            · exact hhin
            · exfalso
              obtain ⟨h1, h2⟩ := entries_valid ivl hwl e hlin
              by_cases h2s : 2 ≤ span.stop - span.start
              · exact hc1 ⟨h2s, h2⟩
              · obtain ⟨hle, -⟩ := hlg (by simp [Rg.len]; omega)
                rw [hle] at hlin
                simp [entriesN] at hlin
            · exfalso
              obtain ⟨h1, h2⟩ := entries_valid ivl hwr e hrin
              by_cases h2s : 2 ≤ span.stop - span.start
              · exact hc2 ⟨h2s, h2⟩
              · obtain ⟨-, hre⟩ := hlg (by simp [Rg.len]; omega)
                rw [hre] at hrin
                simp [entriesN] at hrin
          rw [if_pos hin]
          dsimp only
          rw [if_neg (by simp)]
          exact Or.inr rfl

theorem posOf_some_of_mem {l : List T} {e : T} (h : e ∈ l) :
    ∃ i, posOf l e = some i := by
  induction l with
  | nil => simp at h
  | cons a tl ih =>
    by_cases ha : a = e
    · exact ⟨0, by simp [posOf, ha]⟩
    · have h2 : e ∈ tl := by
        rcases List.mem_cons.mp h with hc | hc
        · exact absurd hc.symm ha
        · exact hc
      obtain ⟨j, hj⟩ := ih h2
      exact ⟨j + 1, by simp [posOf, ha, hj]⟩

theorem swapRemove_of_get {l : List T} {i : Nat} {x : T}
    (h : l.get? i = some x) : ∃ l2, swapRemove l i = some (x, l2) := by
  have hne : l ≠ [] := by
    intro hc; subst hc; simp at h
  refine ⟨(l.set i (l.getLast hne)).dropLast, ?_⟩
  unfold swapRemove
  rw [h, List.getLast?_eq_getLast l hne]

/-- Under the full invariant, a node with exactly one entry beneath it is an
inline singleton: the demotion step has collapsed every other shape. -/
theorem single_entry_sing {n : NodeType T} {x : T} :
    ∀ {span : Rg}, WFn ivl span n → noDemotable n → entriesN n = [x] →
    singShapeB n = true := by
  induction n with
  | Empty => intro span _ _ h; simp [entriesN] at h
  | Populated here l r ihl ihr =>
    intro span hwf hnd hone
    obtain ⟨hA, hB, hC, hlg, hD, hwl, hwr⟩ := WFn_pop_iff ivl |>.mp hwf
    obtain ⟨hroot, hndl, hndr⟩ := noDemotable_pop_iff.mp hnd
    simp only [entriesN] at hone
    rcases here with - | ⟨h0, htl⟩
    · -- empty local bag: exactly one child holds the single entry
      simp only [List.nil_append] at hone
      rcases hl : entriesN l with - | ⟨y, ys⟩
      · rw [hl] at hone
        simp at hone
        -- the entry is in r and l must be Empty
        have hlE : l = .Empty := by
          cases l with
          | Empty => rfl
          | Populated lh ll lr =>
            exact absurd hl (WFn_entries_ne_nil ivl hwl)
        have hsr : singShapeB r = true := ihr hwr hndr hone
        exact absurd ⟨rfl, Or.inr ⟨hlE, hsr⟩⟩ hroot
      · rw [hl] at hone
        have hys : ys = [] ∧ y = x ∧ entriesN r = [] := by
          cases ys with
          | nil =>
            simp at hone
            exact ⟨rfl, hone.1, hone.2⟩
          | cons z zs => simp at hone
        obtain ⟨hys0, hyx, hrnil⟩ := hys
        subst hys0
        have hrE : r = .Empty := by
          cases r with
          | Empty => rfl
          | Populated rh rl rr =>
            exact absurd hrnil (WFn_entries_ne_nil ivl hwr)
        have hsl : singShapeB l = true := ihl hwl hndl (by rw [hl, hyx])
        exact absurd ⟨rfl, Or.inl ⟨hsl, hrE⟩⟩ hroot
    · -- nonempty local bag
      rcases htl with - | ⟨h1, htl2⟩
      · -- bag is [h0]; the children must be empty
        simp only [List.cons_append, List.nil_append, List.cons.injEq] at hone
        obtain ⟨hx0, hrest⟩ := hone
        have hlnil : entriesN l = [] := by
          cases he : entriesN l with
          | nil => rfl
          | cons a as =>
            rw [he] at hrest
            simp at hrest
        have hrnil : entriesN r = [] := by
          rw [hlnil] at hrest
          simpa using hrest
        have hlE : l = .Empty := by
          cases l with
          | Empty => rfl
          | Populated lh ll lr => exact absurd hlnil (WFn_entries_ne_nil ivl hwl)
        have hrE : r = .Empty := by
          cases r with
          | Empty => rfl
          | Populated rh rl rr => exact absurd hrnil (WFn_entries_ne_nil ivl hwr)
        subst hlE; subst hrE
        simp [singShapeB, is_emptyN]
      · -- bag has two or more entries: impossible
        exfalso
        simp only [List.cons_append, List.cons.injEq] at hone
        obtain ⟨-, hrest⟩ := hone
        have := congrArg List.length hrest
        simp at this

/-- The demotion step always succeeds when at least one entry remains, and
it restores the full invariant. -/
theorem demote_ok {span : Rg} {here2 : List T} {l2 r2 : NodeType T}
    (hA2 : ∀ e ∈ here2, 0 < (ivl e).len ∧ containsRange span (ivl e) = true)
    (hB2 : (here2 ++ entriesN l2 ++ entriesN r2).Nodup)
    (hCne : here2 ++ entriesN l2 ++ entriesN r2 ≠ [])
    (hlg2 : span.len < 2 → l2 = .Empty ∧ r2 = .Empty)
    (hD2 : ∀ e ∈ here2, 2 ≤ span.len →
      (containsRange (leftSpanOf span) (ivl e) = true ∨
       containsRange (rightSpanOf span) (ivl e) = true) →
      here2 = [e] ∧ l2 = .Empty ∧ r2 = .Empty)
    (hwl2 : WFn ivl (leftSpanOf span) l2) (hwr2 : WFn ivl (rightSpanOf span) r2)
    (hndl2 : noDemotable l2) (hndr2 : noDemotable r2) :
    ∃ n2, demote here2 l2 r2 = some n2 ∧ WFn ivl span n2 ∧ noDemotable n2 ∧
      (entriesN n2).Perm (here2 ++ entriesN l2 ++ entriesN r2) := by
  cases hh : here2.isEmpty with
  | false =>
    refine ⟨.Populated here2 l2 r2, by unfold demote; rw [hh], ?_, ?_,
      List.Perm.refl _⟩
    · rw [WFn_pop_iff]
      exact ⟨hA2, hB2, hCne, hlg2, hD2, hwl2, hwr2⟩
    · rw [noDemotable_pop_iff]
      refine ⟨?_, hndl2, hndr2⟩
      rintro ⟨hc, -⟩
      rw [hc] at hh
      simp at hh
  | true =>
    have hh2 : here2 = [] := by simpa using hh
    subst hh2
    cases l2 with
    | Empty =>
      cases r2 with
      | Empty =>
        exfalso
        exact hCne (by simp [entriesN_Empty])
      | Populated rh rl rr =>
        obtain ⟨b, hb, hbiff⟩ := isInlineSingleton_of_WFn ivl hwr2
        cases b with
        | true =>
          obtain ⟨x, hx, hrl, hrr⟩ := singleton_of_isInlineSingleton_true hb
          subst hx; subst hrl; subst hrr
          refine ⟨.Populated [x] .Empty .Empty, ?_, ?_, ?_, ?_⟩
          · simp [demote, hb, swapRemove_zero_singleton]
          · rw [WFn_pop_iff]
            obtain ⟨hA3, -, -, -, -, -, -⟩ := WFn_pop_iff ivl |>.mp hwr2
            have hxv := hA3 x (by simp)
            refine ⟨?_, by simp [entriesN], by simp [entriesN],
              fun _ => ⟨rfl, rfl⟩, ?_, trivial, trivial⟩
            · intro e0 he0
              simp at he0
              subst he0
              exact ⟨hxv.1, valid_at_right hxv.2 hxv.1⟩
            · intro e0 he0 _ _
              simp at he0
              subst he0
              exact ⟨rfl, rfl, rfl⟩
          · rw [noDemotable_pop_iff]
            exact ⟨by simp, trivial, trivial⟩
          · simp [entriesN]
        | false =>
          refine ⟨.Populated [] .Empty (.Populated rh rl rr), ?_, ?_, ?_,
            List.Perm.refl _⟩
          · simp [demote, hb]
          · rw [WFn_pop_iff]
            exact ⟨hA2, hB2, hCne, hlg2, hD2, hwl2, hwr2⟩
          · rw [noDemotable_pop_iff]
            refine ⟨?_, hndl2, hndr2⟩
            rintro ⟨-, hcase⟩
            rcases hcase with ⟨hsl, -⟩ | ⟨-, hsr⟩
            · simp [singShapeB] at hsl
            · rw [← hbiff] at hsr
              simp at hsr
    | Populated lh ll lr =>
      cases r2 with
      | Empty =>
        obtain ⟨b, hb, hbiff⟩ := isInlineSingleton_of_WFn ivl hwl2
        cases b with
        | true =>
          obtain ⟨x, hx, hll, hlr⟩ := singleton_of_isInlineSingleton_true hb
          subst hx; subst hll; subst hlr
          refine ⟨.Populated [x] .Empty .Empty, ?_, ?_, ?_, ?_⟩
          · simp [demote, hb, swapRemove_zero_singleton]
          · rw [WFn_pop_iff]
            obtain ⟨hA3, -, -, -, -, -, -⟩ := WFn_pop_iff ivl |>.mp hwl2
            have hxv := hA3 x (by simp)
            refine ⟨?_, by simp [entriesN], by simp [entriesN],
              fun _ => ⟨rfl, rfl⟩, ?_, trivial, trivial⟩
            · intro e0 he0
              simp at he0
              subst he0
              exact ⟨hxv.1, valid_at_left hxv.2 hxv.1⟩
            · intro e0 he0 _ _
              simp at he0
              subst he0
              exact ⟨rfl, rfl, rfl⟩
          · rw [noDemotable_pop_iff]
            exact ⟨by simp, trivial, trivial⟩
          · simp [entriesN]
        | false =>
          refine ⟨.Populated [] (.Populated lh ll lr) .Empty, ?_, ?_, ?_,
            List.Perm.refl _⟩
          · simp [demote, hb]
          · rw [WFn_pop_iff]
            exact ⟨hA2, hB2, hCne, hlg2, hD2, hwl2, hwr2⟩
          · rw [noDemotable_pop_iff]
            refine ⟨?_, hndl2, hndr2⟩
            rintro ⟨-, hcase⟩
            rcases hcase with ⟨hsl, -⟩ | ⟨-, hsr⟩
            · rw [← hbiff] at hsl
              simp at hsl
            · simp [singShapeB] at hsr
      | Populated rh rl rr =>
        refine ⟨.Populated [] (.Populated lh ll lr) (.Populated rh rl rr),
          by simp [demote], ?_, ?_, List.Perm.refl _⟩
        · rw [WFn_pop_iff]
          exact ⟨hA2, hB2, hCne, hlg2, hD2, hwl2, hwr2⟩
        · rw [noDemotable_pop_iff]
          refine ⟨?_, hndl2, hndr2⟩
          rintro ⟨-, hcase⟩
          rcases hcase with ⟨-, hre⟩ | ⟨hle, -⟩
          · exact absurd hre (by simp)
          · exact absurd hle (by simp)

/-- Removing an absent entry returns `false` and leaves the node unchanged. -/
theorem rem_notfound : ∀ (n : NodeType T) (span : Rg) (e : T),
    WFn ivl span n → 0 < (ivl e).len → containsRange span (ivl e) = true →
    e ∉ entriesN n →
    removeN ivl span e n = some (false, n) := by
  intro n
  induction n with
  | Empty =>
    intro span e hwf hlen hcont hmem
    rw [removeN]
    rw [if_neg (by simp [hcont])]
  | Populated here l r ihl ihr =>
    intro span e hwf hlen hcont hmem
    obtain ⟨hA, hB, hC, hlg, hD, hwl, hwr⟩ := WFn_pop_iff ivl |>.mp hwf
    have hfh : e ∉ here := fun hc => hmem (mem_entries_pop.mpr (Or.inl hc))
    have hfl : e ∉ entriesN l :=
      fun hc => hmem (mem_entries_pop.mpr (Or.inr (Or.inl hc)))
    have hfr : e ∉ entriesN r :=
      fun hc => hmem (mem_entries_pop.mpr (Or.inr (Or.inr hc)))
    rw [removeN]
    rw [if_neg (by simp [hcont])]
    obtain ⟨was, hwas, hbiff⟩ := isInlineSingleton_of_WFn ivl hwf
    rw [hwas]
    cases was with
    | true =>
      obtain ⟨x, hx, hlE, hrE⟩ := singleton_of_isInlineSingleton_true hwas
      subst hx; subst hlE; subst hrE
      dsimp only [List.head?]
      rw [if_neg ?xne]
      case xne =>
        intro hc
        subst hc
        exact hfh (by simp)
    | false =>
      dsimp only
      by_cases hc1 : 2 ≤ span.stop - span.start ∧
          containsRange (leftSpanOf span) (ivl e) = true
      · rw [if_pos hc1, ihl (leftSpanOf span) e hwl hlen hc1.2 hfl]
        dsimp only
        rw [if_neg (by simp)]
      · rw [if_neg hc1]
        by_cases hc2 : 2 ≤ span.stop - span.start ∧
            containsRange (rightSpanOf span) (ivl e) = true
        · rw [if_pos hc2, ihr (rightSpanOf span) e hwr hlen hc2.2 hfr]
          dsimp only
          rw [if_neg (by simp)]
        · rw [if_neg hc2]
          rw [posOf_eq_none.mpr hfh]
          dsimp only
          rw [if_neg (by simp)]

/-- The main removal theorem: removing a present entry succeeds, returns
`true`, preserves the full invariant, and deletes exactly that entry. -/
theorem rem_found : ∀ (n : NodeType T) (span : Rg) (e : T),
    WFn ivl span n → noDemotable n →
    0 < (ivl e).len → containsRange span (ivl e) = true →
    e ∈ entriesN n →
    ∃ n2, removeN ivl span e n = some (true, n2) ∧ WFn ivl span n2 ∧
      noDemotable n2 ∧ (e :: entriesN n2).Perm (entriesN n) := by
  intro n
  induction n with
  | Empty =>
    intro span e _ _ _ _ hmem
    simp [entriesN] at hmem
  | Populated here l r ihl ihr =>
    intro span e hwf hnd hlen hcont hmem
    obtain ⟨hA, hB, hC, hlg, hD, hwl, hwr⟩ := WFn_pop_iff ivl |>.mp hwf
    obtain ⟨hroot, hndl, hndr⟩ := noDemotable_pop_iff.mp hnd
    rw [removeN]
    rw [if_neg (by simp [hcont])]
    obtain ⟨was, hwas, hbiff⟩ := isInlineSingleton_of_WFn ivl hwf
    rw [hwas]
    cases was with
    | true =>
      obtain ⟨x, hx, hlE, hrE⟩ := singleton_of_isInlineSingleton_true hwas
      subst hx; subst hlE; subst hrE
      have hex : e = x := by
        have h0 := hmem
        simp [entriesN] at h0
        exact h0
      subst hex
      dsimp only [List.head?]
      rw [if_pos rfl]
      refine ⟨.Empty, rfl, trivial, trivial, ?_⟩
      simp [entriesN]
    | false =>
      dsimp only
      -- a bag entry cannot trigger (D), else the node would be a singleton
      have hnotbagfit : ∀ e0 ∈ here, 2 ≤ span.len →
          ¬(containsRange (leftSpanOf span) (ivl e0) = true ∨
            containsRange (rightSpanOf span) (ivl e0) = true) := by
        intro e0 he0 h2 hfit
        obtain ⟨hq1, hq2, hq3⟩ := hD e0 he0 h2 hfit
        subst hq2; subst hq3
        have : singShapeB (T := T) (.Populated here .Empty .Empty) = true := by
          rw [hq1]; simp [singShapeB, is_emptyN]
        rw [← hbiff] at this
        exact absurd this (by simp)
      by_cases hc1 : 2 ≤ span.stop - span.start ∧
          containsRange (leftSpanOf span) (ivl e) = true
      · rw [if_pos hc1]
        -- e must be in the left subtree
        have hein : e ∈ entriesN l := by
          rcases mem_entries_pop.mp hmem with hhin | hlin | hrin
          · exact absurd (Or.inl hc1.2)
              (hnotbagfit e hhin (by simpa [Rg.len] using hc1.1))
          · exact hlin
          · exfalso
            obtain ⟨h1, h2⟩ := entries_valid ivl hwr e hrin
            exact not_left_and_right hlen ⟨hc1.2, h2⟩
        obtain ⟨l2, hrec, hwfl2, hndl2, hperml2⟩ :=
          ihl (leftSpanOf span) e hwl hndl hlen hc1.2 hein
        rw [hrec]
        dsimp only
        rw [if_pos rfl]
        have hBmid : (here ++ entriesN l2 ++ entriesN r).Nodup := by
          have hp : (here ++ entriesN l ++ entriesN r).Perm
              (e :: (here ++ entriesN l2 ++ entriesN r)) :=
            perm_mid_cons hperml2.symm
          have := hp.nodup_iff.mp hB
          exact this.of_cons
        have hCne : here ++ entriesN l2 ++ entriesN r ≠ [] := by
          intro hnil
          have h1 : here = [] ∧ entriesN l2 = [] ∧ entriesN r = [] := by
            simpa [List.append_eq_nil] using hnil
          obtain ⟨hh0, hl20, hr0⟩ := h1
          -- then l held exactly e and was an inline singleton, while r was
          -- empty: contradicts noDemotable at this node
          have hel : entriesN l = [e] := by
            have hp := hperml2.symm
            rw [hl20] at hp
            exact List.perm_singleton.mp hp
          have hrE : r = .Empty := by
            cases r with
            | Empty => rfl
            | Populated rh rl rr => exact absurd hr0 (WFn_entries_ne_nil ivl hwr)
          have hsl : singShapeB l = true := single_entry_sing ivl hwl hndl hel
          exact hroot ⟨hh0, Or.inl ⟨hsl, hrE⟩⟩
        have hlg2 : span.len < 2 → l2 = .Empty ∧ r = .Empty := by
          intro hs
          exact absurd hein (by rw [(hlg hs).1]; simp [entriesN])
        obtain ⟨n2, hdem, hwfn2, hndn2, hpermn2⟩ := demote_ok ivl hA hBmid
          hCne hlg2 (fun e0 he0 h2 hfit => absurd hfit (hnotbagfit e0 he0 h2))
          hwfl2 hwr hndl2 hndr
        rw [hdem]
        refine ⟨n2, rfl, hwfn2, hndn2, ?_⟩
        refine ((hpermn2.cons e).trans ?_)
        exact (perm_mid_cons hperml2.symm).symm
      · rw [if_neg hc1]
        by_cases hc2 : 2 ≤ span.stop - span.start ∧
            containsRange (rightSpanOf span) (ivl e) = true
        · rw [if_pos hc2]
          have hein : e ∈ entriesN r := by
            rcases mem_entries_pop.mp hmem with hhin | hlin | hrin
            · exact absurd (Or.inr hc2.2)
                (hnotbagfit e hhin (by simpa [Rg.len] using hc2.1))
            · exfalso
              obtain ⟨h1, h2⟩ := entries_valid ivl hwl e hlin
              exact not_left_and_right hlen ⟨h2, hc2.2⟩
            · exact hrin
          obtain ⟨r2, hrec, hwfr2, hndr2, hpermr2⟩ :=
            ihr (rightSpanOf span) e hwr hndr hlen hc2.2 hein
          rw [hrec]
          dsimp only
          rw [if_pos rfl]
          have hprw : (here ++ entriesN l ++ entriesN r).Perm
              (e :: (here ++ entriesN l ++ entriesN r2)) := by
            have h5 : (here ++ entriesN l ++ entriesN r).Perm
                (here ++ entriesN l ++ (e :: entriesN r2)) :=
              (hpermr2.symm).append_left (here ++ entriesN l)
            exact h5.trans List.perm_middle
          have hBmid : (here ++ entriesN l ++ entriesN r2).Nodup := by
            have := hprw.nodup_iff.mp hB
            exact this.of_cons
          have hCne : here ++ entriesN l ++ entriesN r2 ≠ [] := by
            intro hnil
            have h1 : here = [] ∧ entriesN l = [] ∧ entriesN r2 = [] := by
              simpa [List.append_eq_nil] using hnil
            obtain ⟨hh0, hl0, hr20⟩ := h1
            have her : entriesN r = [e] := by
              have hp := hpermr2.symm
              rw [hr20] at hp
              exact List.perm_singleton.mp hp
            have hlE : l = .Empty := by
              cases l with
              | Empty => rfl
              | Populated lh ll lr => exact absurd hl0 (WFn_entries_ne_nil ivl hwl)
            have hsr : singShapeB r = true := single_entry_sing ivl hwr hndr her
            exact hroot ⟨hh0, Or.inr ⟨hlE, hsr⟩⟩
          have hlg2 : span.len < 2 → l = .Empty ∧ r2 = .Empty := by
            intro hs
            exact absurd hein (by rw [(hlg hs).2]; simp [entriesN])
          obtain ⟨n2, hdem, hwfn2, hndn2, hpermn2⟩ := demote_ok ivl hA hBmid
            hCne hlg2 (fun e0 he0 h2 hfit => absurd hfit (hnotbagfit e0 he0 h2))
            hwl hwfr2 hndl hndr2
          rw [hdem]
          refine ⟨n2, rfl, hwfn2, hndn2, ?_⟩
          exact ((hpermn2.cons e).trans hprw.symm)
        · -- the entry is in the local bag
          rw [if_neg hc2]
          have hein : e ∈ here := by
            rcases mem_entries_pop.mp hmem with hhin | hlin | hrin
            · exact hhin
            · exfalso
              obtain ⟨h1, h2⟩ := entries_valid ivl hwl e hlin
              by_cases h2s : 2 ≤ span.stop - span.start
              · exact hc1 ⟨h2s, h2⟩
              · obtain ⟨hle, -⟩ := hlg (by simp [Rg.len]; omega)
                rw [hle] at hlin
                simp [entriesN] at hlin
            · exfalso
              obtain ⟨h1, h2⟩ := entries_valid ivl hwr e hrin
              by_cases h2s : 2 ≤ span.stop - span.start
              · exact hc2 ⟨h2s, h2⟩
              · obtain ⟨-, hre⟩ := hlg (by simp [Rg.len]; omega)
                rw [hre] at hrin
                simp [entriesN] at hrin
          obtain ⟨idx, hidx⟩ := posOf_some_of_mem hein
          rw [hidx]
          dsimp only
          obtain ⟨here2, hsw⟩ := swapRemove_of_get (posOf_get hidx)
          rw [hsw]
          dsimp only
          rw [if_pos rfl]
          have hpcons : (e :: here2).Perm here := swapRemove_perm hsw
          have hprw : (here ++ entriesN l ++ entriesN r).Perm
              (e :: (here2 ++ entriesN l ++ entriesN r)) := by
            have h5 : (here ++ entriesN l ++ entriesN r).Perm
                ((e :: here2) ++ entriesN l ++ entriesN r) :=
              (hpcons.symm.append_right (entriesN l)).append_right (entriesN r)
            exact h5
          have hA2 : ∀ e0 ∈ here2, 0 < (ivl e0).len ∧
              containsRange span (ivl e0) = true := by
            intro e0 he0
            have : e0 ∈ here := by
              have := hpcons.mem_iff (a := e0)
              exact this.mp (List.mem_cons_of_mem e he0)
            exact hA e0 this
          have hBmid : (here2 ++ entriesN l ++ entriesN r).Nodup := by
            have := hprw.nodup_iff.mp hB
            exact this.of_cons
          have hCne : here2 ++ entriesN l ++ entriesN r ≠ [] := by
            intro hnil
            have h1 : here2 = [] ∧ entriesN l = [] ∧ entriesN r = [] := by
              simpa [List.append_eq_nil] using hnil
            obtain ⟨hh20, hl0, hr0⟩ := h1
            -- then the node was the inline singleton [e], contradicting
            -- was = false
            have hhe : here = [e] := by
              have hp := hpcons.symm
              rw [hh20] at hp
              exact List.perm_singleton.mp hp
            have hlE : l = .Empty := by
              cases l with
              | Empty => rfl
              | Populated lh ll lr => exact absurd hl0 (WFn_entries_ne_nil ivl hwl)
            have hrE : r = .Empty := by
              cases r with
              | Empty => rfl
              | Populated rh rl rr => exact absurd hr0 (WFn_entries_ne_nil ivl hwr)
            subst hlE; subst hrE
            have : singShapeB (T := T) (.Populated here .Empty .Empty) = true := by
              rw [hhe]; simp [singShapeB, is_emptyN]
            rw [← hbiff] at this
            exact absurd this (by simp)
          have hd23 : ∀ e0 ∈ here2, 2 ≤ span.len →
              (containsRange (leftSpanOf span) (ivl e0) = true ∨
               containsRange (rightSpanOf span) (ivl e0) = true) →
              here2 = [e0] ∧ l = NodeType.Empty ∧ r = NodeType.Empty := by
            intro e0 he0 h2 hfit
            exfalso
            have he0m : e0 ∈ here := hpcons.mem_iff.mp (List.mem_cons_of_mem e he0)
            exact (hnotbagfit e0 he0m h2) hfit
          obtain ⟨n2, hdem, hwfn2, hndn2, hpermn2⟩ := demote_ok ivl hA2 hBmid
            hCne hlg hd23 hwl hwr hndl hndr
          rw [hdem]
          refine ⟨n2, rfl, hwfn2, hndn2, ?_⟩
          exact ((hpermn2.cons e).trans hprw.symm)

end NodeType

/-! ## Tree-level invariant, operation lemmas, and reachable states -/

section TreeLevel

variable {T : Type} [DecidableEq T] (ivl : T → Rg)

open NodeType

/-- Well-formedness of a whole tree: the root satisfies the structural
invariant over the tree's span and no node is overdue for demotion. -/
def WFt (t : IntervalTree T) : Prop :=
  WFn ivl t.span t.root_node ∧ noDemotable t.root_node

theorem WFt_new {span : Rg} {t : IntervalTree T}
    (h : IntervalTree.new span = some t) :
    WFt ivl t ∧ t.span = span ∧ IntervalTree.entriesT t = [] := by
  unfold IntervalTree.new at h
  by_cases hs : span.start < span.stop
  · rw [if_pos hs] at h
    injection h with h2
    subst h2
    exact ⟨⟨WFn_Empty ivl, noDemotable_Empty⟩, rfl, rfl⟩
  · rw [if_neg hs] at h
    exact absurd h (by simp)

theorem nonemptyR_len {r : Rg} (h : r.is_emptyR = false) : 0 < r.len := by
  simp [Rg.is_emptyR] at h
  simp [Rg.len]
  omega

/-- Inserting a fresh valid entry at the tree level: succeeds, returns
`true`, preserves the invariant and the span, and adds exactly the entry. -/
theorem insert_fresh {t : IntervalTree T} {e : T}
    (hwf : WFt ivl t) (hval : (ivl e).is_emptyR = false)
    (hcont : containsRange t.span (ivl e) = true)
    (hfresh : e ∉ IntervalTree.entriesT t) :
    ∃ t2, IntervalTree.insert ivl t e = some (true, t2) ∧ WFt ivl t2 ∧
      t2.span = t.span ∧
      (IntervalTree.entriesT t2).Perm (e :: IntervalTree.entriesT t) := by
  obtain ⟨n2, hins, hwf2, hnd2, hperm⟩ := ins_main ivl (2 * t.span.len + 2)
    t.span e false t.root_node hwf.1 (nonemptyR_len hval) hcont hfresh
    (by simpa using hwf.2) (by simp)
  refine ⟨⟨t.span, n2⟩, ?_, ⟨hwf2, hnd2⟩, rfl, hperm⟩
  unfold IntervalTree.insert
  rw [if_neg (by simp [hval]), hins]

/-- Inserting an entry already in the tree: either the call panics (the
relocation assert) or it returns `false` and leaves the tree unchanged. -/
theorem insert_dup {t : IntervalTree T} {e : T}
    (hwf : WFt ivl t) (hcont : containsRange t.span (ivl e) = true)
    (hmem : e ∈ IntervalTree.entriesT t) :
    IntervalTree.insert ivl t e = none ∨
      IntervalTree.insert ivl t e = some (false, t) := by
  unfold IntervalTree.insert
  by_cases hval : (ivl e).is_emptyR = true
  · rw [if_pos hval]
    exact Or.inl rfl
  · rw [if_neg hval]
    have hval2 : (ivl e).is_emptyR = false := by
      cases h : (ivl e).is_emptyR
      · rfl
      · exact absurd h hval
    rcases ins_dup ivl (2 * t.span.len + 2) t.span e t.root_node hwf.1
      (nonemptyR_len hval2) hcont hmem (by omega) with h | h
    · rw [h]
      exact Or.inl rfl
    · rw [h]
      exact Or.inr rfl

/-- Removing a present valid entry at the tree level: succeeds, returns
`true`, preserves the invariant and the span, and deletes the entry. -/
theorem remove_found {t : IntervalTree T} {e : T}
    (hwf : WFt ivl t) (hval : (ivl e).is_emptyR = false)
    (hcont : containsRange t.span (ivl e) = true)
    (hmem : e ∈ IntervalTree.entriesT t) :
    ∃ t2, IntervalTree.remove ivl t e = some (true, t2) ∧ WFt ivl t2 ∧
      t2.span = t.span ∧
      (e :: IntervalTree.entriesT t2).Perm (IntervalTree.entriesT t) := by
  obtain ⟨n2, hrem, hwf2, hnd2, hperm⟩ := rem_found ivl t.root_node t.span e
    hwf.1 hwf.2 (nonemptyR_len hval) hcont hmem
  refine ⟨⟨t.span, n2⟩, ?_, ⟨hwf2, hnd2⟩, rfl, hperm⟩
  unfold IntervalTree.remove
  rw [if_neg (by simp [hval]), hrem]

/-- Removing an absent valid entry at the tree level returns `false` and
leaves the tree unchanged. -/
theorem remove_notfound {t : IntervalTree T} {e : T}
    (hwf : WFt ivl t) (hval : (ivl e).is_emptyR = false)
    (hcont : containsRange t.span (ivl e) = true)
    (hmem : e ∉ IntervalTree.entriesT t) :
    IntervalTree.remove ivl t e = some (false, t) := by
  unfold IntervalTree.remove
  rw [if_neg (by simp [hval]),
    rem_notfound ivl t.root_node t.span e hwf.1 (nonemptyR_len hval) hcont hmem]

/-- One scripted mutation of an interval tree. -/
inductive TOp (T : Type) where
  | ins (e : T)
  | del (e : T)
deriving DecidableEq, Repr

def TOp.entry : TOp T → T
  | .ins e => e
  | .del e => e

/-- Run a script of `insert`/`remove` calls; `none` models a panic inside
any call. -/
def execOps : IntervalTree T → List (TOp T) → Option (IntervalTree T)
  | t, [] => some t
  | t, .ins e :: ops =>
    match IntervalTree.insert ivl t e with
    | none => none
    | some (_, t2) => execOps t2 ops
  | t, .del e :: ops =>
    match IntervalTree.remove ivl t e with
    | none => none
    | some (_, t2) => execOps t2 ops

/-- The reference live-entry list of a script: entries inserted and not
since removed, duplicates never admitted. -/
def liveList : List (TOp T) → List T → List T
  | [], acc => acc
  | .ins e :: ops, acc => liveList ops (if e ∈ acc then acc else acc ++ [e])
  | .del e :: ops, acc => liveList ops (acc.erase e)

/-- Any tree state a script reaches without panicking keeps the invariant,
keeps the span, and holds exactly the live entries of the script. -/
theorem execOps_inv : ∀ (ops : List (TOp T)) (t : IntervalTree T)
    (acc : List T), WFt ivl t → (IntervalTree.entriesT t).Perm acc →
    (∀ op ∈ ops, (ivl op.entry).is_emptyR = false ∧
      containsRange t.span (ivl op.entry) = true) →
    ∀ t2, execOps ivl t ops = some t2 →
      WFt ivl t2 ∧ t2.span = t.span ∧
        (IntervalTree.entriesT t2).Perm (liveList ops acc) := by
  intro ops
  induction ops with
  | nil =>
    intro t acc hwf hperm hvalid t2 h
    injection h with h
    subst h
    exact ⟨hwf, rfl, hperm⟩
  | cons op ops ih =>
    intro t acc hwf hperm hvalid t2 h
    cases op with
    | ins e =>
      rw [execOps] at h
      obtain ⟨hve, hce⟩ := hvalid (.ins e) (by simp)
      simp only [TOp.entry] at hve hce
      by_cases hmem : e ∈ IntervalTree.entriesT t
      · rcases insert_dup ivl hwf hce hmem with hnone | hsame
        · rw [hnone] at h
          exact absurd h (by simp)
        · rw [hsame] at h
          dsimp only at h
          have hacc : e ∈ acc := hperm.mem_iff.mp hmem
          rw [liveList, if_pos hacc]
          exact ih t acc hwf hperm
            (fun op hop => hvalid op (List.mem_cons_of_mem _ hop)) t2 h
      · obtain ⟨t3, hins, hwf3, hsp3, hperm3⟩ :=
          insert_fresh ivl hwf hve hce hmem
        rw [hins] at h
        dsimp only at h
        have hacc : e ∉ acc := fun hc => hmem (hperm.mem_iff.mpr hc)
        rw [liveList, if_neg hacc]
        have hpermacc : (IntervalTree.entriesT t3).Perm (acc ++ [e]) :=
          hperm3.trans ((hperm.cons e).trans
            (List.perm_append_singleton e acc).symm)
        have hres := ih t3 (acc ++ [e]) hwf3 hpermacc (fun op hop => by
          rw [hsp3]
          exact hvalid op (List.mem_cons_of_mem _ hop)) t2 h
        exact ⟨hres.1, hres.2.1.trans hsp3, hres.2.2⟩
    | del e =>
      rw [execOps] at h
      obtain ⟨hve, hce⟩ := hvalid (.del e) (by simp)
      simp only [TOp.entry] at hve hce
      by_cases hmem : e ∈ IntervalTree.entriesT t
      · obtain ⟨t3, hrem, hwf3, hsp3, hperm3⟩ :=
          remove_found ivl hwf hve hce hmem
        rw [hrem] at h
        dsimp only at h
        rw [liveList]
        have h6 := (hperm3.trans hperm).erase e
        rw [List.erase_cons_head] at h6
        have hres := ih t3 (acc.erase e) hwf3 h6 (fun op hop => by
          rw [hsp3]
          exact hvalid op (List.mem_cons_of_mem _ hop)) t2 h
        exact ⟨hres.1, hres.2.1.trans hsp3, hres.2.2⟩
      · rw [remove_notfound ivl hwf hve hce hmem] at h
        dsimp only at h
        rw [liveList]
        have hacc : e ∉ acc := fun hc => hmem (hperm.mem_iff.mpr hc)
        rw [List.erase_of_not_mem hacc]
        exact ih t acc hwf hperm
          (fun op hop => hvalid op (List.mem_cons_of_mem _ hop)) t2 h

/-- Under the invariant, `is_empty` answers exactly whether no entries
remain. -/
theorem is_emptyT_iff_nil {t : IntervalTree T} (hwf : WFt ivl t) :
    IntervalTree.is_emptyT t = true ↔ IntervalTree.entriesT t = [] := by
  unfold IntervalTree.is_emptyT IntervalTree.entriesT
  cases hn : t.root_node with
  | Empty => simp [NodeType.is_emptyN, NodeType.entriesN]
  | Populated here l r =>
    constructor
    · intro hc
      simp [NodeType.is_emptyN] at hc
    · intro hc
      have hw := hwf.1
      rw [hn] at hw
      exact absurd hc (WFn_entries_ne_nil ivl hw)

/-- Every `Populated` node in a subtree has at least one entry beneath it. -/
def allPopNonempty : NodeType T → Prop
  | .Empty => True
  | .Populated here l r =>
    entriesN (NodeType.Populated here l r) ≠ [] ∧
      allPopNonempty l ∧ allPopNonempty r

theorem WFn_allPopNonempty {n : NodeType T} : ∀ {span : Rg},
    WFn ivl span n → allPopNonempty n := by
  induction n with
  | Empty =>
    intro span _
    trivial
  | Populated here l r ihl ihr =>
    intro span hwf
    obtain ⟨hA, hB, hC, hlg, hD, hwl, hwr⟩ := WFn_pop_iff ivl |>.mp hwf
    exact ⟨WFn_entries_ne_nil ivl hwf, ihl hwl, ihr hwr⟩

end TreeLevel


/-! ## Claim theorems -/

/-- C8: for all natural numbers `a < b` and `c < d`, both `overlaps_range`
implementations return `true` if and only if some point `q` satisfies
`a ≤ q < b` and `c ≤ q < d`. -/
theorem C8_overlaps_range_iff_point (a b c d : Nat) (hab : a < b)
    (hcd : c < d) :
    (overlapsRangeLift ⟨a, b⟩ ⟨c, d⟩ = true ↔
      ∃ q, a ≤ q ∧ q < b ∧ c ≤ q ∧ q < d) ∧
    (overlapsRangeItree ⟨a, b⟩ ⟨c, d⟩ = true ↔
      ∃ q, a ≤ q ∧ q < b ∧ c ≤ q ∧ q < d) := by
  have hpt : (c < b ∧ a < d) ↔ ∃ q, a ≤ q ∧ q < b ∧ c ≤ q ∧ q < d := by
    constructor
    · intro h
      exact ⟨max a c, Nat.le_max_left a c, by omega, Nat.le_max_right a c,
        by omega⟩
    · rintro ⟨q, h1, h2, h3, h4⟩
      omega
  constructor
  · rw [overlapsRangeLift_iff]
    exact hpt
  · rw [overlapsRangeItree_iff hab hcd]
    exact hpt

theorem C8_overlaps_range_iff_point_witness :
    (0 : Nat) < 2 ∧ (1 : Nat) < 3 ∧
    ((overlapsRangeLift ⟨0, 2⟩ ⟨1, 3⟩ = true ↔
      ∃ q, 0 ≤ q ∧ q < 2 ∧ 1 ≤ q ∧ q < 3) ∧
     (overlapsRangeItree ⟨0, 2⟩ ⟨1, 3⟩ = true ↔
      ∃ q, 0 ≤ q ∧ q < 2 ∧ 1 ≤ q ∧ q < 3)) :=
  ⟨by decide, by decide,
    C8_overlaps_range_iff_point 0 2 1 3 (by decide) (by decide)⟩

/-- C10: the `overlaps_range` of `lift.rs` and the `overlaps_range` of
`itree.rs` return the same boolean for every pair of non-empty ranges. -/
theorem C10_overlaps_range_impls_agree (s o : Rg) (hs : s.start < s.stop)
    (ho : o.start < o.stop) :
    overlapsRangeItree s o = overlapsRangeLift s o :=
  overlapsRangeItree_eq_lift hs ho

theorem C10_overlaps_range_impls_agree_witness :
    (Rg.mk 0 2).start < (Rg.mk 0 2).stop ∧
    (Rg.mk 1 3).start < (Rg.mk 1 3).stop ∧
    overlapsRangeItree ⟨0, 2⟩ ⟨1, 3⟩ = overlapsRangeLift ⟨0, 2⟩ ⟨1, 3⟩ :=
  ⟨by decide, by decide,
    C10_overlaps_range_impls_agree ⟨0, 2⟩ ⟨1, 3⟩ (by decide) (by decide)⟩

/-- C9: inserting a valid entry into a freshly created tree and then
removing it yields `remove = true` and a tree on which `is_empty()` returns
`true`. -/
theorem C9_insert_remove_roundtrip {T : Type} [DecidableEq T] (ivl : T → Rg)
    (span : Rg) (e : T) (t0 : IntervalTree T)
    (hnew : IntervalTree.new span = some t0)
    (hval : (ivl e).is_emptyR = false)
    (hcont : containsRange span (ivl e) = true) :
    ∃ t1 t2, IntervalTree.insert ivl t0 e = some (true, t1) ∧
      IntervalTree.remove ivl t1 e = some (true, t2) ∧
      IntervalTree.is_emptyT t2 = true := by
  obtain ⟨hwf0, hsp0, hent0⟩ := WFt_new ivl hnew
  obtain ⟨t1, hins, hwf1, hsp1, hperm1⟩ := insert_fresh ivl hwf0 hval
    (by rw [hsp0]; exact hcont) (by rw [hent0]; simp)
  rw [hent0] at hperm1
  obtain ⟨t2, hrem, hwf2, hsp2, hperm2⟩ := remove_found ivl hwf1 hval
    (by rw [hsp1, hsp0]; exact hcont) (hperm1.mem_iff.mpr (by simp))
  refine ⟨t1, t2, hins, hrem, ?_⟩
  rw [is_emptyT_iff_nil ivl hwf2]
  have h3 : (e :: IntervalTree.entriesT t2).Perm [e] := hperm2.trans hperm1
  have hlen := h3.length_eq
  simp only [List.length_cons, List.length_nil] at hlen
  have h0 : (IntervalTree.entriesT t2).length = 0 := by omega
  exact List.length_eq_zero.mp h0

theorem C9_insert_remove_roundtrip_witness :
    IntervalTree.new (T := Rg) ⟨0, 4⟩ = some ⟨⟨0, 4⟩, .Empty⟩ ∧
    (id (⟨1, 2⟩ : Rg)).is_emptyR = false ∧
    containsRange ⟨0, 4⟩ (id (⟨1, 2⟩ : Rg)) = true ∧
    ∃ t1 t2,
      IntervalTree.insert id (⟨⟨0, 4⟩, .Empty⟩ : IntervalTree Rg) ⟨1, 2⟩
        = some (true, t1) ∧
      IntervalTree.remove id t1 ⟨1, 2⟩ = some (true, t2) ∧
      IntervalTree.is_emptyT t2 = true :=
  ⟨rfl, rfl, by decide,
    C9_insert_remove_roundtrip id ⟨0, 4⟩ ⟨1, 2⟩ ⟨⟨0, 4⟩, .Empty⟩ rfl rfl
      (by decide)⟩

/-- C7: in every tree state reachable from a fresh tree by a script of
valid inserts and removes that completes without panicking, every
`Populated` node has at least one entry beneath it, and `is_empty` answers
exactly whether no entries remain. -/
theorem C7_populated_nodes_nonempty {T : Type} [DecidableEq T] (ivl : T → Rg)
    (span : Rg) (ops : List (TOp T)) (t0 t : IntervalTree T)
    (hnew : IntervalTree.new span = some t0)
    (hvalid : ∀ op ∈ ops, (ivl op.entry).is_emptyR = false ∧
      containsRange span (ivl op.entry) = true)
    (hexec : execOps ivl t0 ops = some t) :
    allPopNonempty t.root_node ∧
      (IntervalTree.is_emptyT t = true ↔ IntervalTree.entriesT t = []) := by
  obtain ⟨hwf0, hsp0, hent0⟩ := WFt_new ivl hnew
  have hres := execOps_inv ivl ops t0 [] hwf0 (by rw [hent0])
    (by rw [hsp0]; exact hvalid) t hexec
  exact ⟨WFn_allPopNonempty ivl hres.1.1, is_emptyT_iff_nil ivl hres.1⟩

theorem C7_populated_nodes_nonempty_witness :
    IntervalTree.new (T := Rg) ⟨0, 4⟩ = some ⟨⟨0, 4⟩, .Empty⟩ ∧
    (∀ op ∈ ([.ins ⟨1, 2⟩, .ins ⟨0, 3⟩, .del ⟨1, 2⟩] : List (TOp Rg)),
      (id op.entry).is_emptyR = false ∧
      containsRange ⟨0, 4⟩ (id op.entry) = true) ∧
    execOps id (⟨⟨0, 4⟩, .Empty⟩ : IntervalTree Rg)
        [.ins ⟨1, 2⟩, .ins ⟨0, 3⟩, .del ⟨1, 2⟩]
      = some ⟨⟨0, 4⟩, .Populated [⟨0, 3⟩] .Empty .Empty⟩ ∧
    (allPopNonempty
        (⟨⟨0, 4⟩, .Populated [⟨0, 3⟩] .Empty .Empty⟩ :
          IntervalTree Rg).root_node ∧
      (IntervalTree.is_emptyT
          (⟨⟨0, 4⟩, .Populated [⟨0, 3⟩] .Empty .Empty⟩ : IntervalTree Rg)
          = true ↔
        IntervalTree.entriesT
          (⟨⟨0, 4⟩, .Populated [⟨0, 3⟩] .Empty .Empty⟩ : IntervalTree Rg)
          = [])) :=
  ⟨rfl, by decide, rfl,
    C7_populated_nodes_nonempty id ⟨0, 4⟩
      [.ins ⟨1, 2⟩, .ins ⟨0, 3⟩, .del ⟨1, 2⟩] ⟨⟨0, 4⟩, .Empty⟩
      ⟨⟨0, 4⟩, .Populated [⟨0, 3⟩] .Empty .Empty⟩ rfl (by decide) rfl⟩

/-- C4 counterexample: from the empty tree over `[0, 2)`, inserting the
entry `[0, 1)` makes it live, yet re-inserting the identical entry aborts
(the relocation `assert!` panics) instead of returning `false` and leaving
the live set unchanged, refuting the claim as stated. -/
theorem C4_counterexample :
    IntervalTree.new (T := Rg) ⟨0, 2⟩ = some ⟨⟨0, 2⟩, .Empty⟩ ∧
    IntervalTree.insert (T := Rg) id ⟨⟨0, 2⟩, .Empty⟩ ⟨0, 1⟩
      = some (true, ⟨⟨0, 2⟩, .Populated [⟨0, 1⟩] .Empty .Empty⟩) ∧
    (⟨0, 1⟩ : Rg) ∈ IntervalTree.entriesT
      (⟨⟨0, 2⟩, .Populated [⟨0, 1⟩] .Empty .Empty⟩ : IntervalTree Rg) ∧
    IntervalTree.insert (T := Rg) id
      ⟨⟨0, 2⟩, .Populated [⟨0, 1⟩] .Empty .Empty⟩ ⟨0, 1⟩ = none := by
  refine ⟨rfl, rfl, ?_, rfl⟩
  simp [IntervalTree.entriesT, NodeType.entriesN]

/-- C4 (amended): on every reachable tree state, inserting an entry that is
already live either aborts or returns `false` with the tree unchanged, and
inserting an entry equal to no live entry succeeds and returns `true` —
even when its interval duplicates a live entry's interval, since only full
entry equality is compared. -/
theorem C4_duplicate_entries_rejected {T : Type} [DecidableEq T]
    (ivl : T → Rg) (span : Rg) (ops : List (TOp T)) (t0 t : IntervalTree T)
    (e : T) (hnew : IntervalTree.new span = some t0)
    (hvalid : ∀ op ∈ ops, (ivl op.entry).is_emptyR = false ∧
      containsRange span (ivl op.entry) = true)
    (hexec : execOps ivl t0 ops = some t)
    (hve : (ivl e).is_emptyR = false)
    (hce : containsRange span (ivl e) = true) :
    (e ∈ liveList ops [] →
      IntervalTree.insert ivl t e = none ∨
        IntervalTree.insert ivl t e = some (false, t)) ∧
    (e ∉ liveList ops [] →
      ∃ t2, IntervalTree.insert ivl t e = some (true, t2) ∧
        (IntervalTree.entriesT t2).Perm (e :: IntervalTree.entriesT t)) := by
  obtain ⟨hwf0, hsp0, hent0⟩ := WFt_new ivl hnew
  obtain ⟨hwft, hspt, hpermt⟩ := execOps_inv ivl ops t0 [] hwf0
    (by rw [hent0]) (by rw [hsp0]; exact hvalid) t hexec
  have hce2 : containsRange t.span (ivl e) = true := by
    rw [hspt, hsp0]
    exact hce
  constructor
  · intro hmem
    exact insert_dup ivl hwft hce2 (hpermt.mem_iff.mpr hmem)
  · intro hmem
    obtain ⟨t2, hins, hwf2, hsp2, hperm⟩ := insert_fresh ivl hwft hve hce2
      (fun hc => hmem (hpermt.mem_iff.mp hc))
    exact ⟨t2, hins, hperm⟩

theorem C4_duplicate_entries_rejected_witness :
    IntervalTree.new (T := Rg) ⟨0, 4⟩ = some ⟨⟨0, 4⟩, .Empty⟩ ∧
    (∀ op ∈ ([.ins ⟨1, 2⟩] : List (TOp Rg)),
      (id op.entry).is_emptyR = false ∧
      containsRange ⟨0, 4⟩ (id op.entry) = true) ∧
    execOps id (⟨⟨0, 4⟩, .Empty⟩ : IntervalTree Rg) [.ins ⟨1, 2⟩]
      = some ⟨⟨0, 4⟩, .Populated [⟨1, 2⟩] .Empty .Empty⟩ ∧
    (id (⟨1, 2⟩ : Rg)).is_emptyR = false ∧
    containsRange ⟨0, 4⟩ (id (⟨1, 2⟩ : Rg)) = true ∧
    (((⟨1, 2⟩ : Rg) ∈ liveList ([.ins ⟨1, 2⟩] : List (TOp Rg)) [] →
      IntervalTree.insert id
          (⟨⟨0, 4⟩, .Populated [⟨1, 2⟩] .Empty .Empty⟩ : IntervalTree Rg)
          ⟨1, 2⟩ = none ∨
        IntervalTree.insert id
          (⟨⟨0, 4⟩, .Populated [⟨1, 2⟩] .Empty .Empty⟩ : IntervalTree Rg)
          ⟨1, 2⟩
          = some (false,
            ⟨⟨0, 4⟩, .Populated [⟨1, 2⟩] .Empty .Empty⟩)) ∧
    ((⟨1, 2⟩ : Rg) ∉ liveList ([.ins ⟨1, 2⟩] : List (TOp Rg)) [] →
      ∃ t2, IntervalTree.insert id
          (⟨⟨0, 4⟩, .Populated [⟨1, 2⟩] .Empty .Empty⟩ : IntervalTree Rg)
          ⟨1, 2⟩ = some (true, t2) ∧
        (IntervalTree.entriesT t2).Perm
          (⟨1, 2⟩ :: IntervalTree.entriesT
            (⟨⟨0, 4⟩, .Populated [⟨1, 2⟩] .Empty .Empty⟩ :
              IntervalTree Rg)))) :=
  ⟨rfl, by decide, rfl, rfl, by decide,
    C4_duplicate_entries_rejected id ⟨0, 4⟩ [.ins ⟨1, 2⟩] ⟨⟨0, 4⟩, .Empty⟩
      ⟨⟨0, 4⟩, .Populated [⟨1, 2⟩] .Empty .Empty⟩ ⟨1, 2⟩ rfl (by decide) rfl
      rfl (by decide)⟩

/-- C2 counterexample: on the tree freshly created over `[0, 1)` (no live
entries), the non-empty query `[5, 6)` makes `find` abort on its span
overlap `assert!` (`none`) instead of returning the empty overlap list,
refuting the claim for queries that do not overlap the span. -/
theorem C2_counterexample :
    IntervalTree.new (T := Rg) ⟨0, 1⟩ = some ⟨⟨0, 1⟩, .Empty⟩ ∧
    (⟨5, 6⟩ : Rg).is_emptyR = false ∧
    IntervalTree.find (T := Rg) id ⟨⟨0, 1⟩, .Empty⟩ ⟨5, 6⟩ = none ∧
    (IntervalTree.entriesT (T := Rg) ⟨⟨0, 1⟩, .Empty⟩).filter
      (fun h => overlapsRangeItree ⟨5, 6⟩ (id h)) = [] :=
  ⟨rfl, rfl, rfl, rfl⟩

/-- C2 (amended): after any script of valid inserts and removes that
completes without panicking, a non-empty query that overlaps the tree's
span returns exactly the live entries whose interval overlaps it, with no
duplicates and no omissions. -/
theorem C2_find_contract {T : Type} [DecidableEq T] (ivl : T → Rg)
    (span : Rg) (ops : List (TOp T)) (t0 t : IntervalTree T) (Q : Rg)
    (hnew : IntervalTree.new span = some t0)
    (hvalid : ∀ op ∈ ops, (ivl op.entry).is_emptyR = false ∧
      containsRange span (ivl op.entry) = true)
    (hexec : execOps ivl t0 ops = some t)
    (hq : Q.is_emptyR = false)
    (hov : overlapsRangeItree span Q = true) :
    ∃ res, IntervalTree.find ivl t Q = some res ∧ res.Nodup ∧
      ∀ x, x ∈ res ↔ x ∈ liveList ops [] ∧
        overlapsRangeItree Q (ivl x) = true := by
  obtain ⟨hwf0, hsp0, hent0⟩ := WFt_new ivl hnew
  obtain ⟨hwft, hspt, hpermt⟩ := execOps_inv ivl ops t0 [] hwf0
    (by rw [hent0]) (by rw [hsp0]; exact hvalid) t hexec
  have hov2 : overlapsRangeItree t.span Q = true := by
    rw [hspt, hsp0]
    exact hov
  have hfind := NodeType.findN_spec ivl hwft.1 (nonemptyR_len hq) hov2
  refine ⟨(IntervalTree.entriesT t).filter
    (fun h => overlapsRangeItree Q (ivl h)), ?_, ?_, ?_⟩
  · unfold IntervalTree.find
    rw [if_neg (by simp [hq]), hfind]
    rfl
  · exact (NodeType.WFn_nodup ivl hwft.1).filter _
  · intro x
    rw [List.mem_filter]
    constructor
    · intro h
      exact ⟨hpermt.mem_iff.mp h.1, h.2⟩
    · intro h
      exact ⟨hpermt.mem_iff.mpr h.1, h.2⟩

theorem C2_find_contract_witness :
    IntervalTree.new (T := Rg) ⟨0, 4⟩ = some ⟨⟨0, 4⟩, .Empty⟩ ∧
    (∀ op ∈ ([.ins ⟨1, 2⟩] : List (TOp Rg)),
      (id op.entry).is_emptyR = false ∧
      containsRange ⟨0, 4⟩ (id op.entry) = true) ∧
    execOps id (⟨⟨0, 4⟩, .Empty⟩ : IntervalTree Rg) [.ins ⟨1, 2⟩]
      = some ⟨⟨0, 4⟩, .Populated [⟨1, 2⟩] .Empty .Empty⟩ ∧
    (⟨0, 4⟩ : Rg).is_emptyR = false ∧
    overlapsRangeItree ⟨0, 4⟩ ⟨0, 4⟩ = true ∧
    ∃ res, IntervalTree.find id
        (⟨⟨0, 4⟩, .Populated [⟨1, 2⟩] .Empty .Empty⟩ : IntervalTree Rg)
        ⟨0, 4⟩ = some res ∧ res.Nodup ∧
      ∀ x, x ∈ res ↔ x ∈ liveList ([.ins ⟨1, 2⟩] : List (TOp Rg)) [] ∧
        overlapsRangeItree ⟨0, 4⟩ (id x) = true :=
  ⟨rfl, by decide, rfl, rfl, by decide,
    C2_find_contract id ⟨0, 4⟩ [.ins ⟨1, 2⟩] ⟨⟨0, 4⟩, .Empty⟩
      ⟨⟨0, 4⟩, .Populated [⟨1, 2⟩] .Empty .Empty⟩ ⟨0, 4⟩ rfl (by decide) rfl
      rfl (by decide)⟩

/-- The destination-offset chain property the parse loop enforces on the
records it consumes: whenever the running offset is still below `U`, the
stream is non-empty, the next record's destination equals the running
offset, and the rest chains from the advanced offset. -/
def chainOk (U : Nat) : Nat → List ReportExtent → Prop
  | expected, [] => expected < U → False
  | expected, e :: rest =>
    expected < U →
      e.destination_offset = expected ∧ chainOk U (expected + e.length) rest

/-- C5 counterexample: the report `[⟨0, 8, Zeros⟩]` against a device of
length 4 overshoots `device_length`, yet the parse stage accepts it and the
run proceeds to the copy loop (which completes), refuting the claimed final
running-offset check. -/
theorem C5_counterexample :
    parsePhase [1, 2, 3, 4] 4 0 [⟨0, 8, .Zeros⟩] [] [] ⟨⟨0, 4⟩, .Empty⟩
      = some ([⟨0, 8⟩], [], ⟨⟨0, 4⟩, .Empty⟩) ∧
    (0 : Nat) + (8 : Nat) ≠ 4 ∧
    copyLoop (2 * 4 + 1) [1, 2, 3, 4] ⟨⟨0, 4⟩, .Empty⟩ = .ok [1, 2, 3, 4] :=
  ⟨rfl, by decide, rfl⟩

/-- C5 (amended): the parse stage fails unless the consumed records'
destination offsets chain from the starting offset — each record pulled
while the running offset is below `device_length` must carry exactly the
running offset, and the stream must not end early; no check relates the
final running offset to `device_length`, so an overshooting last record is
accepted. -/
theorem C5_parse_requires_chain (dev : List Nat) (U : Nat) :
    ∀ (exts : List ReportExtent) (expected : Nat) (zq : List Rg)
      (cq : List CsumOp) (tree : IntervalTree CopyOp)
      (res : List Rg × List CsumOp × IntervalTree CopyOp),
    parsePhase dev U expected exts zq cq tree = some res →
    chainOk U expected exts := by
  intro exts
  induction exts with
  | nil =>
    intro expected zq cq tree res h
    intro hlt
    rw [parsePhase, if_pos hlt] at h
    exact absurd h (by simp)
  | cons e rest ih =>
    intro expected zq cq tree res h
    intro hlt
    rw [parsePhase, if_pos hlt] at h
    by_cases hd : e.destination_offset = expected
    · refine ⟨hd, ?_⟩
      rw [if_neg (by simp [hd])] at h
      cases hsrc : e.source with
      | Zeros =>
        rw [hsrc] at h
        dsimp only at h
        exact ih _ _ _ _ _ h
      | Offset off csum =>
        rw [hsrc] at h
        dsimp only at h
        cases hv : validate_checksum dev off e.length csum with
        | none =>
          rw [hv] at h
          exact absurd h (by simp)
        | some u =>
          rw [hv] at h
          dsimp only at h
          cases hins : IntervalTree.insert CopyOp.interval tree
              ⟨⟨off, off + e.length⟩, e.destination_offset⟩ with
          | none =>
            rw [hins] at h
            exact absurd h (by simp)
          | some p =>
            rw [hins] at h
            obtain ⟨b, t2⟩ := p
            cases b with
            | true => exact ih _ _ _ _ _ h
            | false => exact absurd h (by simp)
    · rw [if_pos (by simp [hd])] at h
      exact absurd h (by simp)

theorem C5_parse_requires_chain_witness :
    parsePhase [1, 2, 3, 4] 4 0 [⟨0, 4, .Zeros⟩] [] [] ⟨⟨0, 4⟩, .Empty⟩
      = some ([⟨0, 4⟩], [], ⟨⟨0, 4⟩, .Empty⟩) ∧
    chainOk 4 0 [⟨0, 4, .Zeros⟩] :=
  ⟨rfl,
    C5_parse_requires_chain [1, 2, 3, 4] 4 [⟨0, 4, .Zeros⟩] 0 [] []
      ⟨⟨0, 4⟩, .Empty⟩ ([⟨0, 4⟩], [], ⟨⟨0, 4⟩, .Empty⟩) rfl⟩

theorem copyChunksF_dry (srcStart destOff length : Nat) :
    ∀ (fuel read : Nat) (dev : List Nat),
    FileOps.copyChunksF true srcStart destOff length fuel read dev = none ∨
      FileOps.copyChunksF true srcStart destOff length fuel read dev
        = some dev := by
  intro fuel
  induction fuel with
  | zero =>
    intro read dev
    rw [FileOps.copyChunksF]
    by_cases h : read < length
    · rw [if_pos h]
      exact Or.inl rfl
    · rw [if_neg h]
      exact Or.inr rfl
  | succ fuel ih =>
    intro read dev
    rw [FileOps.copyChunksF]
    by_cases h : read < length
    · rw [if_pos h]
      dsimp only
      cases hr : readSeg dev (srcStart + read)
          (min BUFFER_LENGTH (length - read)) with
      | none => exact Or.inl rfl
      | some data =>
        dsimp only
        rw [if_pos rfl]
        exact ih _ dev
    · rw [if_neg h]
      exact Or.inr rfl

theorem swapChunksF_dry (srcStart destOff length : Nat) :
    ∀ (fuel read : Nat) (dev : List Nat),
    FileOps.swapChunksF true srcStart destOff length fuel read dev = none ∨
      FileOps.swapChunksF true srcStart destOff length fuel read dev
        = some dev := by
  intro fuel
  induction fuel with
  | zero =>
    intro read dev
    rw [FileOps.swapChunksF]
    by_cases h : read < length
    · rw [if_pos h]
      exact Or.inl rfl
    · rw [if_neg h]
      exact Or.inr rfl
  | succ fuel ih =>
    intro read dev
    rw [FileOps.swapChunksF]
    by_cases h : read < length
    · rw [if_pos h]
      dsimp only
      cases hr : readSeg dev (srcStart + read)
          (min BUFFER_LENGTH (length - read)) with
      | none => exact Or.inl rfl
      | some chunkA =>
        dsimp only
        cases hr2 : readSeg dev (destOff + read)
            (min BUFFER_LENGTH (length - read)) with
        | none => exact Or.inl rfl
        | some chunkB =>
          dsimp only
          rw [if_pos rfl]
          exact ih _ dev
    · rw [if_neg h]
      exact Or.inr rfl

/-- C6 counterexample: the lift path offers no dry-run mode — on the
4-byte device `[10, 11, 12, 13]` and a report whose two `Offset` extents
cross-reference each other's bytes (all fingerprints matching), `do_lift`
returns a device different from the input, so running lift mutates the
device unconditionally. -/
theorem C6_counterexample :
    do_lift [10, 11, 12, 13] ⟨4⟩
        [⟨0, 2, .Offset 2 2884019000229792⟩,
         ⟨2, 2, .Offset 0 2881819976973368⟩]
      = some [12, 13, 10, 11] ∧
    ([12, 13, 10, 11] : List Nat) ≠ [10, 11, 12, 13] :=
  ⟨rfl, by decide⟩

/-- C6 (amended): the dry-run capability exists only in `FileOps`
(utils.rs), which the lift path never uses: with `dry_run = true`,
`FileOps::copy_segment` and `FileOps::swap_segment` perform their reads
but issue no writes — any successful run returns the device bit-for-bit
unchanged — and `FileOps::fill_zeros` returns at once without touching
the device. -/
theorem C6_fileops_dry_run_pure (dev : List Nat) (source : Rg)
    (destOff : Nat) (range : Rg) :
    (FileOps.copy_segment true dev source destOff = none ∨
      FileOps.copy_segment true dev source destOff = some dev) ∧
    (FileOps.swap_segment true dev source destOff = none ∨
      FileOps.swap_segment true dev source destOff = some dev) ∧
    FileOps.fill_zeros true dev range = some dev := by
  refine ⟨?_, ?_, rfl⟩
  · exact copyChunksF_dry source.start destOff
      (source.stop - source.start) (source.stop - source.start + 1) 0 dev
  · exact swapChunksF_dry source.start destOff
      (source.stop - source.start) (source.stop - source.start + 1) 0 dev

/-! ## Termination of the copy loop -/

/-- The copy loop's termination measure: twice the total source length in
the index, minus the number of ops.  Every successful iteration strictly
decreases it. -/
def measureT (t : IntervalTree CopyOp) : Nat :=
  2 * sumLens (IntervalTree.entriesT t) - (IntervalTree.entriesT t).length

theorem sumLens_perm {l1 l2 : List CopyOp} (h : l1.Perm l2) :
    sumLens l1 = sumLens l2 := by
  unfold sumLens
  exact (h.map (fun op => op.source.len)).sum_eq

theorem sumLens_cons (x : CopyOp) (l : List CopyOp) :
    sumLens (x :: l) = x.source.len + sumLens l := by
  simp [sumLens]

theorem sumLens_ge_length {l : List CopyOp}
    (h : ∀ op ∈ l, 0 < op.source.len) : l.length ≤ sumLens l := by
  induction l with
  | nil => simp [sumLens]
  | cons x rest ih =>
    rw [sumLens_cons]
    have hx := h x (by simp)
    have := ih (fun op hop => h op (List.mem_cons_of_mem x hop))
    simp only [List.length_cons]
    omega

theorem firstEntry_mem {T : Type} [DecidableEq T] : ∀ {n : NodeType T} {x : T},
    NodeType.firstEntry n = some x → x ∈ NodeType.entriesN n := by
  intro n
  induction n with
  | Empty =>
    intro x h
    exact absurd h (by simp [NodeType.firstEntry])
  | Populated here l r ihl ihr =>
    intro x h
    rw [NodeType.firstEntry] at h
    cases hh : here.head? with
    | some y =>
      rw [hh] at h
      injection h with h
      subst h
      exact NodeType.mem_entries_pop.mpr
        (Or.inl (List.mem_of_mem_head? (by rw [hh]; rfl)))
    | none =>
      rw [hh] at h
      dsimp only at h
      cases hl : NodeType.firstEntry l with
      | some y =>
        rw [hl] at h
        injection h with h
        subst h
        exact NodeType.mem_entries_pop.mpr (Or.inr (Or.inl (ihl hl)))
      | none =>
        rw [hl] at h
        dsimp only at h
        exact NodeType.mem_entries_pop.mpr (Or.inr (Or.inr (ihr h)))

section TrackLevel

variable {T : Type} [DecidableEq T] (ivl : T → Rg)

theorem firstT_mem {t : IntervalTree T} {x : T}
    (h : IntervalTree.first t = some x) : x ∈ IntervalTree.entriesT t :=
  firstEntry_mem h

/-- Tree-level tracking of `insert`, without any invariant hypothesis. -/
theorem insertT_track {t t2 : IntervalTree T} {e : T} {b : Bool}
    (h : IntervalTree.insert ivl t e = some (b, t2)) :
    t2.span = t.span ∧
      (b = true →
        (IntervalTree.entriesT t2).Perm (e :: IntervalTree.entriesT t)) ∧
      (b = false → t2 = t) := by
  unfold IntervalTree.insert at h
  by_cases hval : (ivl e).is_emptyR = true
  · rw [if_pos hval] at h
    exact absurd h (by simp)
  · rw [if_neg hval] at h
    cases hins : NodeType.insertF ivl (2 * t.span.len + 2) t.span e false
        t.root_node with
    | none =>
      rw [hins] at h
      exact absurd h (by simp)
    | some p =>
      rw [hins] at h
      obtain ⟨b2, n2⟩ := p
      dsimp only at h
      simp only [Option.some_inj, Prod.mk.injEq] at h
      obtain ⟨hb, ht⟩ := h
      subst hb
      subst ht
      have htr := NodeType.ins_track ivl _ _ _ _ _ _ _ hins
      refine ⟨rfl, htr.1, fun hb2 => ?_⟩
      rw [htr.2 hb2]

/-- Tree-level tracking of `remove`, without any invariant hypothesis. -/
theorem removeT_track {t t2 : IntervalTree T} {e : T} {b : Bool}
    (h : IntervalTree.remove ivl t e = some (b, t2)) :
    t2.span = t.span ∧
      (b = true → e ∈ IntervalTree.entriesT t ∧
        (e :: IntervalTree.entriesT t2).Perm (IntervalTree.entriesT t)) ∧
      (b = false → t2 = t) := by
  unfold IntervalTree.remove at h
  by_cases hval : (ivl e).is_emptyR = true
  · rw [if_pos hval] at h
    exact absurd h (by simp)
  · rw [if_neg hval] at h
    cases hrem : NodeType.removeN ivl t.span e t.root_node with
    | none =>
      rw [hrem] at h
      exact absurd h (by simp)
    | some p =>
      rw [hrem] at h
      obtain ⟨b2, n2⟩ := p
      dsimp only at h
      simp only [Option.some_inj, Prod.mk.injEq] at h
      obtain ⟨hb, ht⟩ := h
      subst hb
      subst ht
      have htr := NodeType.rem_track ivl _ _ _ _ _ hrem
      refine ⟨rfl, htr.1, fun hb2 => ?_⟩
      rw [htr.2 hb2]

end TrackLevel

theorem chop_op_lens {v a b : CopyOp} {k : Nat}
    (h : chop_op v k = some (a, b)) :
    0 < a.source.len ∧ 0 < b.source.len ∧
      a.source.len + b.source.len = v.source.len := by
  unfold chop_op at h
  by_cases h1 : 0 < k
  · rw [if_neg (not_not_intro h1)] at h
    by_cases h2 : v.source.start + k < v.source.stop
    · rw [if_neg (not_not_intro h2)] at h
      simp only [Option.some_inj, Prod.mk.injEq] at h
      obtain ⟨ha, hb⟩ := h
      subst ha
      subst hb
      simp only [Rg.len]
      omega
    · rw [if_pos h2] at h
      exact absurd h (by simp)
  · rw [if_pos h1] at h
    exact absurd h (by simp)

/-- Removing one op of positive length strictly decreases the measure. -/
theorem measure_drop_remove {E2 E : List CopyOp} {x : CopyOp}
    (hperm : (x :: E2).Perm E) (hpos : ∀ y ∈ E, 0 < y.source.len) :
    (∀ y ∈ E2, 0 < y.source.len) ∧
      2 * sumLens E2 - E2.length < 2 * sumLens E - E.length := by
  have hsum : sumLens E = x.source.len + sumLens E2 := by
    rw [← sumLens_perm hperm, sumLens_cons]
  have hlen : E.length = E2.length + 1 := by
    simpa using hperm.symm.length_eq
  have hpos2 : ∀ y ∈ E2, 0 < y.source.len := fun y hy =>
    hpos y (hperm.mem_iff.mp (List.mem_cons_of_mem x hy))
  have hge := sumLens_ge_length hpos2
  have hx : 0 < x.source.len := hpos x (hperm.mem_iff.mp (by simp))
  exact ⟨hpos2, by omega⟩

/-- Splitting one op into two of the same total positive length strictly
decreases the measure. -/
theorem measure_drop_split {E2 E F : List CopyOp} {v a b : CopyOp}
    (hperm : (v :: E2).Perm E) (hfinal : F.Perm (b :: a :: E2))
    (hsum2 : a.source.len + b.source.len = v.source.len)
    (ha : 0 < a.source.len) (hb : 0 < b.source.len)
    (hpos : ∀ y ∈ E, 0 < y.source.len) :
    (∀ y ∈ F, 0 < y.source.len) ∧
      2 * sumLens F - F.length < 2 * sumLens E - E.length := by
  have hpos2 : ∀ y ∈ E2, 0 < y.source.len := fun y hy =>
    hpos y (hperm.mem_iff.mp (List.mem_cons_of_mem v hy))
  have hposF : ∀ y ∈ F, 0 < y.source.len := by
    intro y hy
    rcases List.mem_cons.mp (hfinal.mem_iff.mp hy) with h1 | h1
    · rw [h1]
      exact hb
    · rcases List.mem_cons.mp h1 with h2 | h2
      · rw [h2]
        exact ha
      · exact hpos2 y h2
  have hsumE : sumLens E = v.source.len + sumLens E2 := by
    rw [← sumLens_perm hperm, sumLens_cons]
  have hsumF : sumLens F = b.source.len + (a.source.len + sumLens E2) := by
    rw [sumLens_perm hfinal, sumLens_cons, sumLens_cons]
  have hlenE : E.length = E2.length + 1 := by
    simpa using hperm.symm.length_eq
  have hlenF : F.length = E2.length + 2 := by
    simpa using hfinal.length_eq
  have hge := sumLens_ge_length hpos2
  exact ⟨hposF, by omega⟩

/-- The Step D rewrite loop neither changes the total source length nor the
op count, and preserves length positivity. -/
theorem swapRewrite_track (op : CopyOp) (dest : Rg)
    (hd : dest.len = op.source.len) (hL : 0 < op.source.len) :
    ∀ (l : List CopyOp) (t t3 : IntervalTree CopyOp),
    swapRewrite op dest l t = some t3 →
    (∀ x ∈ IntervalTree.entriesT t, 0 < x.source.len) →
    (∀ x ∈ IntervalTree.entriesT t3, 0 < x.source.len) ∧
      sumLens (IntervalTree.entriesT t3)
        = sumLens (IntervalTree.entriesT t) ∧
      (IntervalTree.entriesT t3).length
        = (IntervalTree.entriesT t).length := by
  intro l
  induction l with
  | nil =>
    intro t t3 h hpos
    rw [swapRewrite] at h
    injection h with h
    subst h
    exact ⟨hpos, rfl, rfl⟩
  | cons o rest ih =>
    intro t t3 h hpos
    rw [swapRewrite] at h
    by_cases heq : op = o
    · rw [if_pos heq] at h
      exact absurd h (by simp)
    · rw [if_neg heq] at h
      by_cases hds : dest = o.source
      · rw [if_neg (by simpa using hds)] at h
        cases hrem : IntervalTree.remove CopyOp.interval t o with
        | none =>
          rw [hrem] at h
          exact absurd h (by simp)
        | some p =>
          rw [hrem] at h
          obtain ⟨br, t2⟩ := p
          cases br with
          | false =>
            dsimp only at h
            exact absurd h (by simp)
          | true =>
            dsimp only at h
            obtain ⟨hsp2, htr2, -⟩ := removeT_track CopyOp.interval hrem
            obtain ⟨ho_mem, hperm2⟩ := htr2 rfl
            cases hins : IntervalTree.insert CopyOp.interval t2
                ⟨op.source, o.destination_offset⟩ with
            | none =>
              rw [hins] at h
              exact absurd h (by simp)
            | some q =>
              rw [hins] at h
              obtain ⟨bi, t3b⟩ := q
              cases bi with
              | false =>
                dsimp only at h
                exact absurd h (by simp)
              | true =>
                dsimp only at h
                obtain ⟨hsp3, hti3, -⟩ := insertT_track CopyOp.interval hins
                have hperm3 := hti3 rfl
                have holen : o.source.len = op.source.len := by
                  rw [← hds]
                  exact hd
                have hpos2 : ∀ x ∈ IntervalTree.entriesT t2,
                    0 < x.source.len := fun x hx =>
                  hpos x (hperm2.mem_iff.mp (List.mem_cons_of_mem o hx))
                have hpos3 : ∀ x ∈ IntervalTree.entriesT t3b,
                    0 < x.source.len := by
                  intro x hx
                  rcases List.mem_cons.mp (hperm3.mem_iff.mp hx) with h1 | h1
                  · rw [h1]
                    exact hL
                  · exact hpos2 x h1
                obtain ⟨hA, hB, hC⟩ := ih t3b t3 h hpos3
                refine ⟨hA, ?_, ?_⟩
                · rw [hB, sumLens_perm hperm3, sumLens_cons,
                    ← sumLens_perm hperm2, sumLens_cons]
                  simp only [CopyOp.interval] at holen ⊢
                  omega
                · rw [hC, hperm3.length_eq, List.length_cons,
                    ← hperm2.length_eq, List.length_cons]
      · rw [if_pos (by simpa using hds)] at h
        exact absurd h (by simp)

/-- The Step C split strictly decreases the measure and preserves length
positivity. -/
theorem splitStep_track {op other : CopyOp} {dest : Rg}
    {t t2 : IntervalTree CopyOp}
    (h : splitStep op other dest t = some t2)
    (hpos : ∀ x ∈ IntervalTree.entriesT t, 0 < x.source.len) :
    (∀ x ∈ IntervalTree.entriesT t2, 0 < x.source.len) ∧
      measureT t2 < measureT t := by
  unfold splitStep at h
  dsimp only at h
  have core : ∀ (victim : CopyOp) (k : Nat),
      (match IntervalTree.remove CopyOp.interval t victim with
       | some (true, t2') =>
         match chop_op victim k with
         | none => none
         | some (op1, op2) =>
           match IntervalTree.insert CopyOp.interval t2' op1 with
           | some (true, t3) =>
             match IntervalTree.insert CopyOp.interval t3 op2 with
             | some (true, t4) => some t4
             | _ => none
           | _ => none
       | _ => none) = some t2 →
      (∀ x ∈ IntervalTree.entriesT t2, 0 < x.source.len) ∧
        measureT t2 < measureT t := by
    intro victim k hch
    cases hrem : IntervalTree.remove CopyOp.interval t victim with
    | none =>
      rw [hrem] at hch
      exact absurd hch (by simp)
    | some p =>
      rw [hrem] at hch
      obtain ⟨br, t2'⟩ := p
      cases br with
      | false =>
        dsimp only at hch
        exact absurd hch (by simp)
      | true =>
        dsimp only at hch
        obtain ⟨hsp2, htr2, -⟩ := removeT_track CopyOp.interval hrem
        obtain ⟨hv_mem, hperm2⟩ := htr2 rfl
        cases hchop : chop_op victim k with
        | none =>
          rw [hchop] at hch
          exact absurd hch (by simp)
        | some pq =>
          rw [hchop] at hch
          obtain ⟨op1, op2⟩ := pq
          dsimp only at hch
          obtain ⟨h1, h2, h3⟩ := chop_op_lens hchop
          cases hins1 : IntervalTree.insert CopyOp.interval t2' op1 with
          | none =>
            rw [hins1] at hch
            exact absurd hch (by simp)
          | some q1 =>
            rw [hins1] at hch
            obtain ⟨b1, t3⟩ := q1
            cases b1 with
            | false =>
              dsimp only at hch
              exact absurd hch (by simp)
            | true =>
              dsimp only at hch
              obtain ⟨hsp3, hti3, -⟩ := insertT_track CopyOp.interval hins1
              have hperm3 := hti3 rfl
              cases hins2 : IntervalTree.insert CopyOp.interval t3 op2 with
              | none =>
                rw [hins2] at hch
                exact absurd hch (by simp)
              | some q2 =>
                rw [hins2] at hch
                obtain ⟨b2, t4⟩ := q2
                cases b2 with
                | false =>
                  dsimp only at hch
                  exact absurd hch (by simp)
                | true =>
                  dsimp only at hch
                  injection hch with hch
                  subst hch
                  obtain ⟨hsp4, hti4, -⟩ := insertT_track CopyOp.interval hins2
                  have hperm4 := hti4 rfl
                  have hfinal : (IntervalTree.entriesT t4).Perm
                      (op2 :: op1 :: IntervalTree.entriesT t2') :=
                    hperm4.trans (hperm3.cons op2)
                  exact measure_drop_split hperm2 hfinal h3 h1 h2 hpos
  by_cases hc1 : dest.start < other.source.start
  · rw [if_pos hc1] at h
    exact core op (other.source.start - dest.start) h
  · rw [if_neg hc1] at h
    by_cases hc2 : other.source.start < dest.start
    · rw [if_pos hc2] at h
      exact core other (dest.start - other.source.start) h
    · rw [if_neg hc2] at h
      by_cases hc3 : other.source.stop < dest.stop
      · rw [if_pos hc3] at h
        exact core op (other.source.stop - other.source.start) h
      · rw [if_neg hc3] at h
        by_cases hc4 : dest.stop < other.source.stop
        · rw [if_pos hc4] at h
          exact core other (dest.stop - dest.start) h
        · rw [if_neg hc4] at h
          exact absurd h (by simp)

/-- Every successful copy-loop iteration preserves length positivity and
strictly decreases the measure. -/
theorem copyIter_measure (dev : List Nat) (t : IntervalTree CopyOp)
    (hpos : ∀ x ∈ IntervalTree.entriesT t, 0 < x.source.len) :
    ∀ dev2 t2, copyIter dev t = some (dev2, t2) →
      (∀ x ∈ IntervalTree.entriesT t2, 0 < x.source.len) ∧
        measureT t2 < measureT t := by
  intro dev2 t2 h
  rw [copyIter] at h
  cases hf : IntervalTree.first t with
  | none =>
    rw [hf] at h
    exact absurd h (by simp)
  | some op =>
    rw [hf] at h
    dsimp only at h
    have hop : op ∈ IntervalTree.entriesT t := firstT_mem hf
    have hL : 0 < op.source.len := hpos op hop
    by_cases hnoop : op.source.start = op.destination_offset
    · rw [if_pos hnoop] at h
      cases hrem : IntervalTree.remove CopyOp.interval t op with
      | none =>
        rw [hrem] at h
        exact absurd h (by simp)
      | some p =>
        rw [hrem] at h
        obtain ⟨br, t2'⟩ := p
        cases br with
        | false =>
          dsimp only at h
          exact absurd h (by simp)
        | true =>
          dsimp only at h
          simp only [Option.some_inj, Prod.mk.injEq] at h
          obtain ⟨-, ht2⟩ := h
          subst ht2
          obtain ⟨-, htr2, -⟩ := removeT_track CopyOp.interval hrem
          exact measure_drop_remove (htr2 rfl).2 hpos
    · rw [if_neg hnoop] at h
      cases hfind : IntervalTree.find CopyOp.interval t
          ⟨op.destination_offset,
            op.source.stop - op.source.start + op.destination_offset⟩ with
      | none =>
        rw [hfind] at h
        exact absurd h (by simp)
      | some overlapping =>
        rw [hfind] at h
        dsimp only at h
        by_cases hempty : overlapping.isEmpty = true
        · rw [if_pos hempty] at h
          cases hrem : IntervalTree.remove CopyOp.interval t op with
          | none =>
            rw [hrem] at h
            exact absurd h (by simp)
          | some p =>
            rw [hrem] at h
            obtain ⟨br, t2'⟩ := p
            cases br with
            | false =>
              dsimp only at h
              exact absurd h (by simp)
            | true =>
              dsimp only at h
              cases hcp : copy_segment dev op.source op.destination_offset with
              | none =>
                rw [hcp] at h
                exact absurd h (by simp)
              | some devc =>
                rw [hcp] at h
                dsimp only at h
                simp only [Option.some_inj, Prod.mk.injEq] at h
                obtain ⟨-, ht2⟩ := h
                subst ht2
                obtain ⟨-, htr2, -⟩ := removeT_track CopyOp.interval hrem
                exact measure_drop_remove (htr2 rfl).2 hpos
        · rw [if_neg hempty] at h
          cases hscan : scanOverlaps ⟨op.destination_offset,
              op.source.stop - op.source.start + op.destination_offset⟩
              overlapping with
          | none =>
            rw [hscan] at h
            exact absurd h (by simp)
          | some sel =>
            rw [hscan] at h
            cases sel with
            | some other =>
              dsimp only at h
              cases hsplit : splitStep op other ⟨op.destination_offset,
                  op.source.stop - op.source.start + op.destination_offset⟩
                  t with
              | none =>
                rw [hsplit] at h
                exact absurd h (by simp)
              | some t2b =>
                rw [hsplit] at h
                dsimp only at h
                simp only [Option.some_inj, Prod.mk.injEq] at h
                obtain ⟨-, ht2⟩ := h
                subst ht2
                exact splitStep_track hsplit hpos
            | none =>
              dsimp only at h
              cases hrem : IntervalTree.remove CopyOp.interval t op with
              | none =>
                rw [hrem] at h
                exact absurd h (by simp)
              | some p =>
                rw [hrem] at h
                obtain ⟨br, t2'⟩ := p
                cases br with
                | false =>
                  dsimp only at h
                  exact absurd h (by simp)
                | true =>
                  dsimp only at h
                  cases hsw : swap_segment dev op.source
                      op.destination_offset with
                  | none =>
                    rw [hsw] at h
                    exact absurd h (by simp)
                  | some devs =>
                    rw [hsw] at h
                    dsimp only at h
                    cases hrw : swapRewrite op ⟨op.destination_offset,
                        op.source.stop - op.source.start
                          + op.destination_offset⟩ overlapping t2' with
                    | none =>
                      rw [hrw] at h
                      exact absurd h (by simp)
                    | some t3 =>
                      rw [hrw] at h
                      simp only [Option.some_inj, Prod.mk.injEq] at h
                      obtain ⟨-, ht2⟩ := h
                      subst ht2
                      obtain ⟨-, htr2, -⟩ := removeT_track CopyOp.interval hrem
                      obtain ⟨hpos2, hdrop⟩ :=
                        measure_drop_remove (htr2 rfl).2 hpos
                      obtain ⟨hA, hB, hC⟩ := swapRewrite_track op
                        ⟨op.destination_offset,
                          op.source.stop - op.source.start
                            + op.destination_offset⟩
                        (by simp only [Rg.len]; omega) hL overlapping t2'
                        t3 hrw hpos2
                      refine ⟨hA, ?_⟩
                      unfold measureT
                      rw [hB, hC]
                      exact hdrop

/-- With fuel above the measure, the copy loop never runs out of fuel. -/
theorem copyLoop_no_fuelOut : ∀ (fuel : Nat) (dev : List Nat)
    (t : IntervalTree CopyOp),
    (∀ x ∈ IntervalTree.entriesT t, 0 < x.source.len) →
    measureT t < fuel → copyLoop fuel dev t ≠ .fuelOut := by
  intro fuel
  induction fuel with
  | zero =>
    intro dev t hpos hm
    omega
  | succ fuel ih =>
    intro dev t hpos hm
    rw [copyLoop]
    by_cases hemp : IntervalTree.is_emptyT t = true
    · rw [if_pos hemp]
      simp
    · rw [if_neg hemp]
      cases hit : copyIter dev t with
      | none => simp
      | some p =>
        obtain ⟨dev2, t2⟩ := p
        dsimp only
        obtain ⟨hpos2, hdec⟩ := copyIter_measure dev t hpos dev2 t2 hit
        exact ih dev2 t2 hpos2 (by omega)

/-- C3: shuffler termination — for every index state whose ops all have
non-empty sources, the termination measure lies strictly below
`2 * (total source length) + 1` (the fuel `do_lift` passes to the loop),
and the copy loop run with any fuel above the measure never exhausts it:
each iteration strictly decreases the measure (Steps A, B and D remove an
op; Step C splits one op into two of unchanged total source length), so
the loop always terminates. -/
theorem C3_shuffler_terminates (dev : List Nat) (t : IntervalTree CopyOp)
    (hpos : ∀ op ∈ IntervalTree.entriesT t, 0 < op.source.len) :
    measureT t < 2 * sumLens (IntervalTree.entriesT t) + 1 ∧
    ∀ fuel, measureT t < fuel → copyLoop fuel dev t ≠ .fuelOut := by
  constructor
  · unfold measureT
    omega
  · intro fuel hf
    exact copyLoop_no_fuelOut fuel dev t hpos hf

theorem C3_shuffler_terminates_witness :
    (∀ op ∈ IntervalTree.entriesT
        (⟨⟨0, 4⟩, .Populated [⟨⟨2, 4⟩, 0⟩] .Empty .Empty⟩ :
          IntervalTree CopyOp), 0 < op.source.len) ∧
    (measureT ⟨⟨0, 4⟩, .Populated [⟨⟨2, 4⟩, 0⟩] .Empty .Empty⟩
        < 2 * sumLens (IntervalTree.entriesT
          (⟨⟨0, 4⟩, .Populated [⟨⟨2, 4⟩, 0⟩] .Empty .Empty⟩ :
            IntervalTree CopyOp)) + 1 ∧
      ∀ fuel, measureT ⟨⟨0, 4⟩, .Populated [⟨⟨2, 4⟩, 0⟩] .Empty .Empty⟩
          < fuel →
        copyLoop fuel [10, 11, 12, 13]
          ⟨⟨0, 4⟩, .Populated [⟨⟨2, 4⟩, 0⟩] .Empty .Empty⟩ ≠ .fuelOut) :=
  ⟨by decide,
    C3_shuffler_terminates [10, 11, 12, 13]
      ⟨⟨0, 4⟩, .Populated [⟨⟨2, 4⟩, 0⟩] .Empty .Empty⟩ (by decide)⟩

/-- C1 counterexample: a valid report in the claim's sense — the summary
matches the device length, the three extents tile `[0, 6)` in order, and
every `Offset` record's source bytes match its recorded fingerprint — on
which `do_lift` nevertheless aborts: the records' sources overlap one
another, a swap clobbers the third op's source bytes, and the final
checksum pass fails. -/
theorem C1_counterexample :
    (ReportSummary.mk 6).device_length = ([1, 2, 3, 4, 5, 6] : List Nat).length ∧
    ((0 : Nat) + 2 = 2 ∧ (2 : Nat) + 2 = 4 ∧ (4 : Nat) + 2 = 6) ∧
    validate_checksum [1, 2, 3, 4, 5, 6] 2 2 2874123395575884 = some () ∧
    validate_checksum [1, 2, 3, 4, 5, 6] 0 2 2871924372319460 = some () ∧
    validate_checksum [1, 2, 3, 4, 5, 6] 1 2 2873023883947672 = some () ∧
    do_lift [1, 2, 3, 4, 5, 6] ⟨6⟩
        [⟨0, 2, .Offset 2 2874123395575884⟩,
         ⟨2, 2, .Offset 0 2871924372319460⟩,
         ⟨4, 2, .Offset 1 2873023883947672⟩]
      = none :=
  ⟨rfl, ⟨rfl, rfl, rfl⟩, rfl, rfl, rfl, rfl⟩

/-! ## Device-surgery lemmas: `readSeg` / `writeSeg` semantics -/

theorem readSeg_some {dev : List Nat} {off len : Nat}
    (h : off + len ≤ dev.length) :
    ∃ d, readSeg dev off len = some d ∧ d.length = len ∧
      ∀ j, j < len → d.get? j = dev.get? (off + j) := by
  refine ⟨(dev.drop off).take len, ?_, ?_, ?_⟩
  · unfold readSeg
    rw [if_pos h]
  · rw [List.length_take, List.length_drop]
    omega
  · intro j hj
    rw [List.get?_take hj, List.get?_drop]

theorem writeSeg_some {dev data : List Nat} {off : Nat}
    (h : off + data.length ≤ dev.length) :
    writeSeg dev off data
      = some (dev.take off ++ data ++ dev.drop (off + data.length)) := by
  unfold writeSeg
  rw [if_pos h]

theorem writeSeg_length {dev data dev2 : List Nat} {off : Nat}
    (h : writeSeg dev off data = some dev2)
    (hb : off + data.length ≤ dev.length) :
    dev2.length = dev.length := by
  rw [writeSeg_some hb] at h
  injection h with h
  subst h
  simp only [List.length_append, List.length_take, List.length_drop]
  omega

theorem writeSeg_bound {dev data dev2 : List Nat} {off : Nat}
    (h : writeSeg dev off data = some dev2) :
    off + data.length ≤ dev.length := by
  unfold writeSeg at h
  by_cases hb : off + data.length ≤ dev.length
  · exact hb
  · rw [if_neg hb] at h
    exact absurd h (by simp)

theorem writeSeg_get_in {dev data dev2 : List Nat} {off p : Nat}
    (h : writeSeg dev off data = some dev2)
    (h1 : off ≤ p) (h2 : p < off + data.length) :
    dev2.get? p = data.get? (p - off) := by
  have hb := writeSeg_bound h
  rw [writeSeg_some hb] at h
  injection h with h
  subst h
  rw [List.get?_append, List.get?_append_right]
  · congr 1
    rw [List.length_take]
    omega
  · rw [List.length_take]
    omega
  · rw [List.length_append, List.length_take]
    omega

theorem writeSeg_get_out {dev data dev2 : List Nat} {off p : Nat}
    (h : writeSeg dev off data = some dev2)
    (hp : p < off ∨ off + data.length ≤ p) :
    dev2.get? p = dev.get? p := by
  have hb := writeSeg_bound h
  rw [writeSeg_some hb] at h
  injection h with h
  subst h
  have hlt : (List.take off dev).length = off := by
    rw [List.length_take]
    omega
  rcases hp with hp | hp
  · rw [List.get?_append (by rw [List.length_append, hlt]; omega),
      List.get?_append (by rw [hlt]; exact hp), List.get?_take hp]
  · by_cases hq : p < dev.length
    · rw [List.get?_append_right (by rw [List.length_append, hlt]; omega),
        List.get?_drop]
      congr 1
      rw [List.length_append, hlt]
      omega
    · have hL : (List.take off dev ++ data
          ++ List.drop (off + data.length) dev).length = dev.length := by
        simp only [List.length_append, List.length_take, List.length_drop]
        omega
      rw [List.get?_eq_none.mpr (by rw [hL]; omega),
        List.get?_eq_none.mpr (by omega)]

theorem replicate_get? (c j : Nat) (hj : j < c) :
    (List.replicate c (0 : Nat)).get? j = some 0 := by
  induction c generalizing j with
  | zero => omega
  | succ c ih =>
    cases j with
    | zero => rfl
    | succ j =>
      rw [List.replicate_succ]
      exact ih j (by omega)

/-- Semantic specification of the chunked copy loop: with disjoint source
and destination regions and sufficient fuel it succeeds, overwriting
exactly `[destOff + read, destOff + length)` with the corresponding source
bytes and leaving every other position unchanged. -/
theorem copyChunks_ok (srcStart destOff length : Nat)
    (hdisj : srcStart + length ≤ destOff ∨ destOff + length ≤ srcStart) :
    ∀ (fuel read : Nat) (cur : List Nat),
    length ≤ read + fuel →
    srcStart + length ≤ cur.length → destOff + length ≤ cur.length →
    ∃ cur2, copyChunks srcStart destOff length fuel read cur = some cur2 ∧
      cur2.length = cur.length ∧
      (∀ p, destOff + read ≤ p → p < destOff + length →
        cur2.get? p = cur.get? (srcStart + (p - destOff))) ∧
      (∀ p, p < destOff + read ∨ destOff + length ≤ p →
        cur2.get? p = cur.get? p) := by
  have hB : BUFFER_LENGTH = 131072 := by norm_num [BUFFER_LENGTH]
  intro fuel
  induction fuel with
  | zero =>
    intro read cur hfuel hs hd
    rw [copyChunks, if_neg (by omega)]
    exact ⟨cur, rfl, rfl, fun p h1 h2 => absurd h2 (by omega),
      fun p hp => rfl⟩
  | succ fuel ih =>
    intro read cur hfuel hs hd
    rw [copyChunks]
    by_cases hlt : read < length
    · rw [if_pos hlt]
      dsimp only
      have hch1 : 1 ≤ min BUFFER_LENGTH (length - read) := by omega
      have hch2 : read + min BUFFER_LENGTH (length - read) ≤ length := by
        omega
      obtain ⟨data, hrd, hdlen, hdget⟩ := readSeg_some
        (show srcStart + read + min BUFFER_LENGTH (length - read)
            ≤ cur.length by omega)
      rw [hrd]
      dsimp only
      have hwb : destOff + read + data.length ≤ cur.length := by
        rw [hdlen]
        omega
      have hw := writeSeg_some hwb
      rw [hw]
      dsimp only
      have hculen := writeSeg_length hw hwb
      obtain ⟨cur2, hrec, hlen2, hin, hout⟩ :=
        ih (read + min BUFFER_LENGTH (length - read)) _
          (by omega) (by rw [hculen]; omega) (by rw [hculen]; omega)
      refine ⟨cur2, hrec, by rw [hlen2, hculen], ?_, ?_⟩
      · intro p h1 h2
        by_cases hp : p < destOff + (read + min BUFFER_LENGTH (length - read))
        · rw [hout p (Or.inl hp),
            writeSeg_get_in hw (by omega) (by rw [hdlen]; omega),
            hdget (p - (destOff + read)) (by omega)]
          congr 1
          omega
        · rw [hin p (by omega) h2,
            writeSeg_get_out hw (by rw [hdlen]; omega)]
      · intro p hp
        rw [hout p (by omega), writeSeg_get_out hw (by rw [hdlen]; omega)]
    · rw [if_neg hlt]
      exact ⟨cur, rfl, rfl, fun p h1 h2 => absurd h2 (by omega),
        fun p hp => rfl⟩

/-- `copy_segment` at the segment level. -/
theorem copy_segment_ok {cur : List Nat} {source : Rg} {destOff : Nat}
    (hdisj : source.stop ≤ destOff ∨ destOff + source.len ≤ source.start)
    (hs : source.stop ≤ cur.length) (hd : destOff + source.len ≤ cur.length)
    (hne : source.start ≤ source.stop) :
    ∃ cur2, copy_segment cur source destOff = some cur2 ∧
      cur2.length = cur.length ∧
      (∀ p, destOff ≤ p → p < destOff + source.len →
        cur2.get? p = cur.get? (source.start + (p - destOff))) ∧
      (∀ p, p < destOff ∨ destOff + source.len ≤ p →
        cur2.get? p = cur.get? p) := by
  unfold copy_segment
  obtain ⟨cur2, hrun, h1, h2, h3⟩ := copyChunks_ok source.start destOff
    (source.stop - source.start)
    (by simp only [Rg.len] at hdisj; omega)
    (source.stop - source.start + 1) 0 cur (by omega) (by omega)
    (by simp only [Rg.len] at hd; omega)
  exact ⟨cur2, hrun, h1,
    fun p hp1 hp2 => h2 p (by omega) (by simp only [Rg.len] at hp2; omega),
    fun p hp => h3 p (by simp only [Rg.len] at hp; omega)⟩

/-- Semantic specification of the chunked swap loop: the two regions are
disjoint, the destination receives the source bytes, the source receives
the destination bytes, and everything else is untouched. -/
theorem swapChunks_ok (srcStart destOff length : Nat)
    (hdisj : srcStart + length ≤ destOff ∨ destOff + length ≤ srcStart) :
    ∀ (fuel read : Nat) (cur : List Nat),
    length ≤ read + fuel →
    srcStart + length ≤ cur.length → destOff + length ≤ cur.length →
    ∃ cur2, swapChunks srcStart destOff length fuel read cur = some cur2 ∧
      cur2.length = cur.length ∧
      (∀ p, destOff + read ≤ p → p < destOff + length →
        cur2.get? p = cur.get? (srcStart + (p - destOff))) ∧
      (∀ p, srcStart + read ≤ p → p < srcStart + length →
        cur2.get? p = cur.get? (destOff + (p - srcStart))) ∧
      (∀ p, (p < destOff + read ∨ destOff + length ≤ p) →
        (p < srcStart + read ∨ srcStart + length ≤ p) →
        cur2.get? p = cur.get? p) := by
  have hB : BUFFER_LENGTH = 131072 := by norm_num [BUFFER_LENGTH]
  intro fuel
  induction fuel with
  | zero =>
    intro read cur hfuel hs hd
    rw [swapChunks, if_neg (by omega)]
    exact ⟨cur, rfl, rfl, fun p h1 h2 => absurd h2 (by omega),
      fun p h1 h2 => absurd h2 (by omega), fun p h1 h2 => rfl⟩
  | succ fuel ih =>
    intro read cur hfuel hs hd
    rw [swapChunks]
    by_cases hlt : read < length
    · rw [if_pos hlt]
      dsimp only
      have hch1 : 1 ≤ min BUFFER_LENGTH (length - read) := by omega
      have hch2 : read + min BUFFER_LENGTH (length - read) ≤ length := by
        omega
      obtain ⟨chA, hrdA, hlenA, hgetA⟩ := readSeg_some
        (show srcStart + read + min BUFFER_LENGTH (length - read)
            ≤ cur.length by omega)
      rw [hrdA]
      dsimp only
      obtain ⟨chB, hrdB, hlenB, hgetB⟩ := readSeg_some
        (show destOff + read + min BUFFER_LENGTH (length - read)
            ≤ cur.length by omega)
      rw [hrdB]
      dsimp only
      have hwb1 : destOff + read + chA.length ≤ cur.length := by
        rw [hlenA]
        omega
      have hw1 := writeSeg_some hwb1
      rw [hw1]
      dsimp only
      have hculen1 := writeSeg_length hw1 hwb1
      have hwb2 : srcStart + read + chB.length
          ≤ (cur.take (destOff + read) ++ chA
            ++ cur.drop (destOff + read + chA.length)).length := by
        rw [hculen1, hlenB]
        omega
      have hw2 := writeSeg_some hwb2
      rw [hw2]
      dsimp only
      have hculen2 := writeSeg_length hw2 hwb2
      obtain ⟨cur2, hrec, hlen2, hinD, hinS, hout⟩ :=
        ih (read + min BUFFER_LENGTH (length - read)) _
          (by omega) (by rw [hculen2, hculen1]; omega)
          (by rw [hculen2, hculen1]; omega)
      refine ⟨cur2, hrec, by rw [hlen2, hculen2, hculen1], ?_, ?_, ?_⟩
      · intro p h1 h2
        by_cases hp : p < destOff + (read + min BUFFER_LENGTH (length - read))
        · rw [hout p (Or.inl hp) (by rw [hlenB] at hwb2; omega),
            writeSeg_get_out hw2 (by rw [hlenB]; omega),
            writeSeg_get_in hw1 (by omega) (by rw [hlenA]; omega),
            hgetA (p - (destOff + read)) (by omega)]
          congr 1
          omega
        · rw [hinD p (by omega) h2,
            writeSeg_get_out hw2 (by rw [hlenB]; omega),
            writeSeg_get_out hw1 (by rw [hlenA]; omega)]
      · intro p h1 h2
        by_cases hp : p < srcStart + (read + min BUFFER_LENGTH (length - read))
        · rw [hout p (by omega) (Or.inl hp),
            writeSeg_get_in hw2 (by omega) (by rw [hlenB]; omega),
            hgetB (p - (srcStart + read)) (by omega)]
          congr 1
          omega
        · rw [hinS p (by omega) h2,
            writeSeg_get_out hw2 (by rw [hlenB]; omega),
            writeSeg_get_out hw1 (by rw [hlenA]; omega)]
      · intro p h1 h2
        rw [hout p (by omega) (by omega),
          writeSeg_get_out hw2 (by rw [hlenB]; omega),
          writeSeg_get_out hw1 (by rw [hlenA]; omega)]
    · rw [if_neg hlt]
      exact ⟨cur, rfl, rfl, fun p h1 h2 => absurd h2 (by omega),
        fun p h1 h2 => absurd h2 (by omega), fun p h1 h2 => rfl⟩

/-- `swap_segment` at the segment level. -/
theorem swap_segment_ok {cur : List Nat} {source : Rg} {destOff : Nat}
    (hdisj : source.stop ≤ destOff ∨ destOff + source.len ≤ source.start)
    (hs : source.stop ≤ cur.length) (hd : destOff + source.len ≤ cur.length)
    (hne : source.start ≤ source.stop) :
    ∃ cur2, swap_segment cur source destOff = some cur2 ∧
      cur2.length = cur.length ∧
      (∀ p, destOff ≤ p → p < destOff + source.len →
        cur2.get? p = cur.get? (source.start + (p - destOff))) ∧
      (∀ p, source.start ≤ p → p < source.stop →
        cur2.get? p = cur.get? (destOff + (p - source.start))) ∧
      (∀ p, (p < destOff ∨ destOff + source.len ≤ p) →
        (p < source.start ∨ source.stop ≤ p) →
        cur2.get? p = cur.get? p) := by
  unfold swap_segment
  obtain ⟨cur2, hrun, h1, h2, h3, h4⟩ := swapChunks_ok source.start destOff
    (source.stop - source.start)
    (by simp only [Rg.len] at hdisj; omega)
    (source.stop - source.start + 1) 0 cur (by omega) (by omega)
    (by simp only [Rg.len] at hd; omega)
  exact ⟨cur2, hrun, h1,
    fun p hp1 hp2 => h2 p (by omega) (by simp only [Rg.len] at hp2; omega),
    fun p hp1 hp2 => h3 p (by omega) (by omega),
    fun p hp1 hp2 => h4 p (by simp only [Rg.len] at hp1; omega)
      (by omega)⟩

/-- Semantic specification of the chunked zeroing loop. -/
theorem zeroChunks_ok (stop : Nat) :
    ∀ (fuel outOff : Nat) (cur : List Nat),
    stop ≤ outOff + fuel → stop ≤ cur.length →
    ∃ cur2, zeroChunks stop fuel outOff cur = some cur2 ∧
      cur2.length = cur.length ∧
      (∀ p, outOff ≤ p → p < stop → cur2.get? p = some 0) ∧
      (∀ p, p < outOff ∨ stop ≤ p → cur2.get? p = cur.get? p) := by
  have hB : BUFFER_LENGTH = 131072 := by norm_num [BUFFER_LENGTH]
  intro fuel
  induction fuel with
  | zero =>
    intro outOff cur hfuel hs
    rw [zeroChunks, if_neg (by omega)]
    exact ⟨cur, rfl, rfl, fun p h1 h2 => absurd h2 (by omega),
      fun p hp => rfl⟩
  | succ fuel ih =>
    intro outOff cur hfuel hs
    rw [zeroChunks]
    by_cases hlt : outOff < stop
    · rw [if_pos hlt]
      dsimp only
      have hch1 : 1 ≤ min BUFFER_LENGTH (stop - outOff) := by omega
      have hch2 : outOff + min BUFFER_LENGTH (stop - outOff) ≤ stop := by
        omega
      have hwb : outOff
          + (List.replicate (min BUFFER_LENGTH (stop - outOff)) 0).length
          ≤ cur.length := by
        rw [List.length_replicate]
        omega
      have hw := writeSeg_some hwb
      rw [hw]
      dsimp only
      have hculen := writeSeg_length hw hwb
      obtain ⟨cur2, hrec, hlen2, hin, hout⟩ :=
        ih (outOff + min BUFFER_LENGTH (stop - outOff)) _
          (by omega) (by rw [hculen]; omega)
      refine ⟨cur2, hrec, by rw [hlen2, hculen], ?_, ?_⟩
      · intro p h1 h2
        by_cases hp : p < outOff + min BUFFER_LENGTH (stop - outOff)
        · rw [hout p (Or.inl hp),
            writeSeg_get_in hw (by omega)
              (by rw [List.length_replicate]; omega)]
          exact replicate_get? _ _ (by omega)
        · exact hin p (by omega) h2
      · intro p hp
        rw [hout p (by omega),
          writeSeg_get_out hw (by rw [List.length_replicate]; omega)]
    · rw [if_neg hlt]
      exact ⟨cur, rfl, rfl, fun p h1 h2 => absurd h2 (by omega),
        fun p hp => rfl⟩

/-- `fill_zeros` at the segment level. -/
theorem fill_zeros_ok {cur : List Nat} {range : Rg}
    (hs : range.stop ≤ cur.length) :
    ∃ cur2, fill_zeros cur range = some cur2 ∧
      cur2.length = cur.length ∧
      (∀ p, range.start ≤ p → p < range.stop → cur2.get? p = some 0) ∧
      (∀ p, p < range.start ∨ range.stop ≤ p →
        cur2.get? p = cur.get? p) := by
  unfold fill_zeros
  obtain ⟨cur2, hrun, h1, h2, h3⟩ := zeroChunks_ok range.stop
    (range.len + 1) range.start cur (by simp only [Rg.len]; omega) hs
  exact ⟨cur2, hrun, h1, h2, h3⟩

/-- The fingerprint loop depends only on the bytes of the hashed segment:
two in-bounds segments with equal bytes hash identically. -/
theorem csumChunks_congr {L : Nat} {devA devB : List Nat} {offA offB : Nat}
    (hbA : offA + L ≤ devA.length) (hbB : offB + L ≤ devB.length)
    (heq : ∀ j, j < L → devA.get? (offA + j) = devB.get? (offB + j)) :
    ∀ (fuel read h : Nat),
    csumChunks offA L devA fuel read h
      = csumChunks offB L devB fuel read h := by
  intro fuel
  induction fuel with
  | zero =>
    intro read h
    rfl
  | succ fuel ih =>
    intro read h
    rw [csumChunks, csumChunks]
    by_cases hlt : read < L
    · rw [if_pos hlt, if_pos hlt]
      dsimp only
      obtain ⟨dA, hrdA, hlenA, hgetA⟩ := readSeg_some
        (show offA + read + min BUFFER_LENGTH (L - read) ≤ devA.length by
          omega)
      obtain ⟨dB, hrdB, hlenB, hgetB⟩ := readSeg_some
        (show offB + read + min BUFFER_LENGTH (L - read) ≤ devB.length by
          omega)
      rw [hrdA, hrdB]
      dsimp only
      have hAB : dA = dB := by
        apply List.ext
        intro j
        by_cases hj : j < min BUFFER_LENGTH (L - read)
        · rw [hgetA j hj, hgetB j hj]
          have h1 : offA + read + j = offA + (read + j) := by omega
          have h2 : offB + read + j = offB + (read + j) := by omega
          rw [h1, h2]
          exact heq (read + j) (by omega)
        · rw [List.get?_eq_none.mpr (by omega),
            List.get?_eq_none.mpr (by omega)]
      rw [hAB]
      exact ih (read + min BUFFER_LENGTH (L - read)) (hashChunk h dB)
    · rw [if_neg hlt, if_neg hlt]

theorem validate_checksum_congr {L : Nat} {devA devB : List Nat}
    {offA offB : Nat} (hbA : offA + L ≤ devA.length)
    (hbB : offB + L ≤ devB.length)
    (heq : ∀ j, j < L → devA.get? (offA + j) = devB.get? (offB + j))
    (c : Nat) :
    validate_checksum devA offA L c = validate_checksum devB offB L c := by
  unfold validate_checksum
  rw [csumChunks_congr hbA hbB heq (L + 1) 0 0]

/-! ## The report's semantic target -/

/-- `tiles U expected exts`: the records tile `[expected, U)` in order,
each with positive length. -/
def tiles (U : Nat) : Nat → List ReportExtent → Prop
  | expected, [] => expected = U
  | expected, r :: rest =>
    r.destination_offset = expected ∧ 0 < r.length ∧
      tiles U (expected + r.length) rest

/-- The copy ops the parse loop inserts, in record order. -/
def opsOf : List ReportExtent → List CopyOp
  | [] => []
  | r :: rest =>
    match r.source with
    | .Zeros => opsOf rest
    | .Offset off _ =>
      ⟨⟨off, off + r.length⟩, r.destination_offset⟩ :: opsOf rest

/-- The zeroing queue the parse loop builds, in record order. -/
def zerosOf : List ReportExtent → List Rg
  | [] => []
  | r :: rest =>
    match r.source with
    | .Zeros =>
      ⟨r.destination_offset, r.destination_offset + r.length⟩ :: zerosOf rest
    | .Offset _ _ => zerosOf rest

/-- The final-checksum queue the parse loop builds, in record order. -/
def csumsOf : List ReportExtent → List CsumOp
  | [] => []
  | r :: rest =>
    match r.source with
    | .Zeros => csumsOf rest
    | .Offset _ csum =>
      ⟨r.destination_offset, r.length, csum⟩ :: csumsOf rest

/-- The byte the report dictates at device position `p` (via the first
record covering `p`). -/
def targetAt (dev : List Nat) : List ReportExtent → Nat → Option Nat
  | [], _ => none
  | r :: rest, p =>
    if r.destination_offset ≤ p ∧ p < r.destination_offset + r.length then
      match r.source with
      | .Zeros => some 0
      | .Offset off _ => dev.get? (off + (p - r.destination_offset))
    else targetAt dev rest p

/-- `p` lies in the destination range of an `Offset` record. -/
def isOffsetPos : List ReportExtent → Nat → Prop
  | [], _ => False
  | r :: rest, p =>
    (r.destination_offset ≤ p ∧ p < r.destination_offset + r.length ∧
      ∃ off csum, r.source = .Offset off csum) ∨ isOffsetPos rest p

/-- `p` lies in the source range of `op`. -/
def inSrc (op : CopyOp) (p : Nat) : Prop :=
  op.source.start ≤ p ∧ p < op.source.stop

/-- `p` lies in the destination range of `op`. -/
def inDst (op : CopyOp) (p : Nat) : Prop :=
  op.destination_offset ≤ p ∧ p < op.destination_offset + op.source.len

/-- Disjointness of two ops' source ranges. -/
def srcDisj (a b : CopyOp) : Prop :=
  a.source.stop ≤ b.source.start ∨ b.source.stop ≤ a.source.start

/-- Disjointness of two ops' destination ranges. -/
def dstDisj (a b : CopyOp) : Prop :=
  a.destination_offset + a.source.len ≤ b.destination_offset ∨
    b.destination_offset + b.source.len ≤ a.destination_offset

/-- The copy-phase invariant tying the live op list `E` and the current
device `cur` to the initial device `dev` and the report. -/
structure StInv (dev : List Nat) (extents : List ReportExtent)
    (E : List CopyOp) (cur : List Nat) : Prop where
  len_eq : cur.length = dev.length
  bounds : ∀ op ∈ E, 0 < op.source.len ∧ op.source.stop ≤ dev.length ∧
    op.destination_offset + op.source.len ≤ dev.length
  src_disj : E.Pairwise srcDisj
  dst_disj : E.Pairwise dstDisj
  dst_off : ∀ op ∈ E, ∀ p, inDst op p → isOffsetPos extents p
  carry : ∀ op ∈ E, ∀ j, j < op.source.len →
    targetAt dev extents (op.destination_offset + j)
      = cur.get? (op.source.start + j)
  done_ok : ∀ p, isOffsetPos extents p → (∀ op ∈ E, ¬ inDst op p) →
    cur.get? p = targetAt dev extents p
  src_live : ∀ op ∈ E, ∀ p, inSrc op p → isOffsetPos extents p →
    ∃ op2 ∈ E, inDst op2 p

theorem srcDisj_symm : ∀ {a b : CopyOp}, srcDisj a b → srcDisj b a := by
  intro a b h
  unfold srcDisj at h ⊢
  omega

theorem dstDisj_symm : ∀ {a b : CopyOp}, dstDisj a b → dstDisj b a := by
  intro a b h
  unfold dstDisj at h ⊢
  omega

/-- The invariant only depends on the multiset of live ops. -/
theorem StInv_perm {dev : List Nat} {extents : List ReportExtent}
    {E E2 : List CopyOp} {cur : List Nat} (hp : E.Perm E2)
    (h : StInv dev extents E cur) : StInv dev extents E2 cur := by
  obtain ⟨h1, h2, h3, h4, h5, h6, h7, h8⟩ := h
  refine ⟨h1, ?_, ?_, ?_, ?_, ?_, ?_, ?_⟩
  · intro op hop
    exact h2 op (hp.mem_iff.mpr hop)
  · exact (hp.pairwise_iff (fun h => srcDisj_symm h)).mp h3
  · exact (hp.pairwise_iff (fun h => dstDisj_symm h)).mp h4
  · intro op hop
    exact h5 op (hp.mem_iff.mpr hop)
  · intro op hop
    exact h6 op (hp.mem_iff.mpr hop)
  · intro p hoff hunc
    exact h7 p hoff (fun op hop => hunc op (hp.mem_iff.mp hop))
  · intro op hop p hps hpo
    obtain ⟨op2, hop2, hin⟩ := h8 op (hp.mem_iff.mpr hop) p hps hpo
    exact ⟨op2, hp.mem_iff.mp hop2, hin⟩

theorem tiles_le {U : Nat} : ∀ {exts : List ReportExtent} {expected : Nat},
    tiles U expected exts → expected ≤ U := by
  intro exts
  induction exts with
  | nil =>
    intro expected h
    exact Nat.le_of_eq h
  | cons r rest ih =>
    intro expected h
    have := ih h.2.2
    omega

theorem tiles_mem_bounds {U : Nat} : ∀ {exts : List ReportExtent}
    {expected : Nat}, tiles U expected exts →
    ∀ r ∈ exts, expected ≤ r.destination_offset ∧
      r.destination_offset + r.length ≤ U ∧ 0 < r.length := by
  intro exts
  induction exts with
  | nil =>
    intro expected h r hr
    exact absurd hr (by simp)
  | cons r0 rest ih =>
    intro expected h r hr
    obtain ⟨hd, hl, ht⟩ := h
    rcases List.mem_cons.mp hr with hr | hr
    · subst hr
      have := tiles_le ht
      omega
    · have := ih ht r hr
      omega

theorem opsOf_mem : ∀ {exts : List ReportExtent} {op : CopyOp},
    op ∈ opsOf exts → ∃ r ∈ exts, ∃ off csum,
      r.source = .Offset off csum ∧
      op = ⟨⟨off, off + r.length⟩, r.destination_offset⟩ := by
  intro exts
  induction exts with
  | nil =>
    intro op hop
    exact absurd hop (by simp [opsOf])
  | cons r rest ih =>
    intro op hop
    rw [opsOf] at hop
    cases hsrc : r.source with
    | Zeros =>
      rw [hsrc] at hop
      obtain ⟨r2, hr2, hrest⟩ := ih hop
      exact ⟨r2, List.mem_cons_of_mem r hr2, hrest⟩
    | Offset off csum =>
      rw [hsrc] at hop
      rcases List.mem_cons.mp hop with hop | hop
      · exact ⟨r, by simp, off, csum, hsrc, hop⟩
      · obtain ⟨r2, hr2, hrest⟩ := ih hop
        exact ⟨r2, List.mem_cons_of_mem r hr2, hrest⟩

theorem isOffsetPos_lb {U : Nat} : ∀ {exts : List ReportExtent}
    {expected p : Nat}, tiles U expected exts → isOffsetPos exts p →
    expected ≤ p ∧ p < U := by
  intro exts
  induction exts with
  | nil =>
    intro expected p ht h
    exact absurd h (by simp [isOffsetPos])
  | cons r rest ih =>
    intro expected p ht h
    obtain ⟨hd, hl, ht2⟩ := ht
    have hU := tiles_le ht2
    rcases h with ⟨h1, h2, -⟩ | h
    · omega
    · have := ih ht2 h
      omega

theorem zerosOf_lb {U : Nat} : ∀ {exts : List ReportExtent}
    {expected : Nat}, tiles U expected exts →
    ∀ z ∈ zerosOf exts, expected ≤ z.start ∧ z.stop ≤ U := by
  intro exts
  induction exts with
  | nil =>
    intro expected ht z hz
    exact absurd hz (by simp [zerosOf])
  | cons r rest ih =>
    intro expected ht z hz
    obtain ⟨hd, hl, ht2⟩ := ht
    have hU := tiles_le ht2
    rw [zerosOf] at hz
    cases hsrc : r.source with
    | Zeros =>
      rw [hsrc] at hz
      rcases List.mem_cons.mp hz with hz | hz
      · subst hz
        simp only
        omega
      · have := ih ht2 z hz
        omega
    | Offset off csum =>
      rw [hsrc] at hz
      have := ih ht2 z hz
      omega

/-- A position inside a zeros record's range is not an `Offset`
position. -/
theorem zerosOf_not_offset {U : Nat} : ∀ {exts : List ReportExtent}
    {expected : Nat}, tiles U expected exts →
    ∀ z ∈ zerosOf exts, ∀ p, z.start ≤ p → p < z.stop →
    ¬ isOffsetPos exts p := by
  intro exts
  induction exts with
  | nil =>
    intro expected ht z hz
    exact absurd hz (by simp [zerosOf])
  | cons r rest ih =>
    intro expected ht z hz p hp1 hp2 hoff
    obtain ⟨hd, hl, ht2⟩ := ht
    rw [zerosOf] at hz
    cases hsrc : r.source with
    | Zeros =>
      rw [hsrc] at hz
      rcases List.mem_cons.mp hz with hz | hz
      · subst hz
        simp only at hp1 hp2
        rcases hoff with ⟨-, -, off, csum, hcs⟩ | hoff
        · rw [hsrc] at hcs
          exact absurd hcs (by simp)
        · have := (isOffsetPos_lb ht2 hoff).1
          omega
      · rcases hoff with ⟨h1, h2, -⟩ | hoff
        · have := (zerosOf_lb ht2 z hz).1
          omega
        · exact ih ht2 z hz p hp1 hp2 hoff
    | Offset off csum =>
      rw [hsrc] at hz
      rcases hoff with ⟨h1, h2, -⟩ | hoff
      · have := (zerosOf_lb ht2 z hz).1
        omega
      · exact ih ht2 z hz p hp1 hp2 hoff

/-- The target byte at a position of an `Offset` record comes from that
record's source; at a `Zeros` record it is zero. -/
theorem targetAt_record {U : Nat} {dev : List Nat} :
    ∀ {exts : List ReportExtent} {expected : Nat},
    tiles U expected exts → ∀ r ∈ exts, ∀ j, j < r.length →
    targetAt dev exts (r.destination_offset + j)
      = match r.source with
        | .Zeros => some 0
        | .Offset off _ => dev.get? (off + j) := by
  intro exts
  induction exts with
  | nil =>
    intro expected ht r hr
    exact absurd hr (by simp)
  | cons r0 rest ih =>
    intro expected ht r hr j hj
    obtain ⟨hd, hl, ht2⟩ := ht
    rcases List.mem_cons.mp hr with hr | hr
    · subst hr
      rw [targetAt, if_pos (by omega)]
      cases hsrc : r.source with
      | Zeros => rfl
      | Offset off csum =>
        simp only
        congr 1
        omega
    · have hrb := tiles_mem_bounds ht2 r hr
      rw [targetAt, if_neg (by omega)]
      exact ih ht2 r hr j hj

/-- Every `Offset` position is initially covered by its record's op. -/
theorem isOffsetPos_covered : ∀ {exts : List ReportExtent} {p : Nat},
    isOffsetPos exts p → ∃ op ∈ opsOf exts, inDst op p := by
  intro exts
  induction exts with
  | nil =>
    intro p h
    exact absurd h (by simp [isOffsetPos])
  | cons r rest ih =>
    intro p h
    rcases h with ⟨h1, h2, off, csum, hcs⟩ | h
    · refine ⟨⟨⟨off, off + r.length⟩, r.destination_offset⟩, ?_, ?_⟩
      · rw [opsOf, hcs]
        simp
      · unfold inDst
        simp only [Rg.len]
        omega
    · obtain ⟨op, hop, hin⟩ := ih h
      refine ⟨op, ?_, hin⟩
      rw [opsOf]
      cases hsrc : r.source with
      | Zeros => exact hop
      | Offset off csum => exact List.mem_cons_of_mem _ hop

/-- Each op's destination positions are `Offset` positions. -/
theorem opsOf_dst_off : ∀ {exts : List ReportExtent} {op : CopyOp},
    op ∈ opsOf exts → ∀ p, inDst op p → isOffsetPos exts p := by
  intro exts
  induction exts with
  | nil =>
    intro op hop
    exact absurd hop (by simp [opsOf])
  | cons r rest ih =>
    intro op hop p hin
    rw [opsOf] at hop
    cases hsrc : r.source with
    | Zeros =>
      rw [hsrc] at hop
      exact Or.inr (ih hop p hin)
    | Offset off csum =>
      rw [hsrc] at hop
      rcases List.mem_cons.mp hop with hop | hop
      · subst hop
        unfold inDst at hin
        simp only [Rg.len] at hin
        exact Or.inl ⟨by omega, by omega, off, csum, hsrc⟩
      · exact Or.inr (ih hop p hin)

theorem csumsOf_mem : ∀ {exts : List ReportExtent} {c : CsumOp},
    c ∈ csumsOf exts → ∃ r ∈ exts, ∃ off,
      r.source = .Offset off c.csum ∧
      c = ⟨r.destination_offset, r.length, c.csum⟩ := by
  intro exts
  induction exts with
  | nil =>
    intro c hc
    exact absurd hc (by simp [csumsOf])
  | cons r rest ih =>
    intro c hc
    rw [csumsOf] at hc
    cases hsrc : r.source with
    | Zeros =>
      rw [hsrc] at hc
      obtain ⟨r2, hr2, hrest⟩ := ih hc
      exact ⟨r2, List.mem_cons_of_mem r hr2, hrest⟩
    | Offset off csum =>
      rw [hsrc] at hc
      rcases List.mem_cons.mp hc with hc | hc
      · subst hc
        exact ⟨r, by simp, off, hsrc, rfl⟩
      · obtain ⟨r2, hr2, hrest⟩ := ih hc
        exact ⟨r2, List.mem_cons_of_mem r hr2, hrest⟩

/-! ## Success lemmas for the copy loop's tree operations -/

theorem findT_spec {T : Type} [DecidableEq T] (ivl : T → Rg)
    {t : IntervalTree T} {Q : Rg} (hwf : WFt ivl t)
    (hq : Q.is_emptyR = false)
    (hov : overlapsRangeItree t.span Q = true) :
    IntervalTree.find ivl t Q
      = some ((IntervalTree.entriesT t).filter
        (fun h => overlapsRangeItree Q (ivl h))) := by
  unfold IntervalTree.find
  rw [if_neg (by simp [hq]),
    NodeType.findN_spec ivl hwf.1 (nonemptyR_len hq) hov]
  rfl

theorem firstEntry_some {T : Type} [DecidableEq T] (ivl : T → Rg) :
    ∀ {n : NodeType T} {span : Rg}, NodeType.WFn ivl span n →
    n ≠ .Empty → ∃ x, NodeType.firstEntry n = some x := by
  intro n
  induction n with
  | Empty =>
    intro span _ h
    exact absurd rfl h
  | Populated here l r ihl ihr =>
    intro span hwf _
    obtain ⟨hA, hB, hC, hlg, hD, hwl, hwr⟩ :=
      NodeType.WFn_pop_iff ivl |>.mp hwf
    rw [NodeType.firstEntry]
    cases hh : here.head? with
    | some y => exact ⟨y, rfl⟩
    | none =>
      have hhe : here = [] := by
        cases here with
        | nil => rfl
        | cons a tl => exact absurd hh (by simp)
      dsimp only
      cases hln : NodeType.firstEntry l with
      | some y => exact ⟨y, rfl⟩
      | none =>
        have hlE : l = .Empty := by
          by_contra hne
          obtain ⟨x, hx⟩ := ihl hwl hne
          rw [hx] at hln
          exact absurd hln (by simp)
        have hrne : r ≠ .Empty := by
          intro hrE
          rw [hhe, hlE, hrE] at hC
          exact hC (by simp [NodeType.entriesN])
        obtain ⟨x, hx⟩ := ihr hwr hrne
        exact ⟨x, hx⟩

theorem firstT_some {T : Type} [DecidableEq T] (ivl : T → Rg)
    {t : IntervalTree T} (hwf : WFt ivl t)
    (hne : IntervalTree.is_emptyT t = false) :
    ∃ x, IntervalTree.first t = some x := by
  apply firstEntry_some ivl hwf.1
  intro hE
  unfold IntervalTree.is_emptyT at hne
  rw [hE] at hne
  exact absurd hne (by simp [NodeType.is_emptyN])

theorem scanOverlaps_sel {dest : Rg} : ∀ {l : List CopyOp}
    {other : CopyOp}, scanOverlaps dest l = some (some other) →
    other ∈ l ∧ overlapsRangeLift dest other.source = true ∧
      dest ≠ other.source := by
  intro l
  induction l with
  | nil =>
    intro other h
    rw [scanOverlaps] at h
    exact absurd h (by simp)
  | cons o rest ih =>
    intro other h
    rw [scanOverlaps] at h
    by_cases hov : overlapsRangeLift dest o.source = true
    · rw [if_neg (not_not_intro hov)] at h
      by_cases heq : dest = o.source
      · rw [if_pos heq] at h
        obtain ⟨h1, h2, h3⟩ := ih h
        exact ⟨List.mem_cons_of_mem o h1, h2, h3⟩
      · rw [if_neg heq] at h
        injection h with h
        injection h with h
        subst h
        exact ⟨by simp, hov, heq⟩
    · rw [if_pos hov] at h
      exact absurd h (by simp)

theorem scanOverlaps_all {dest : Rg} : ∀ {l : List CopyOp},
    scanOverlaps dest l = some none → ∀ o ∈ l, o.source = dest := by
  intro l
  induction l with
  | nil =>
    intro h o ho
    exact absurd ho (by simp)
  | cons o0 rest ih =>
    intro h o ho
    rw [scanOverlaps] at h
    by_cases hov : overlapsRangeLift dest o0.source = true
    · rw [if_neg (not_not_intro hov)] at h
      by_cases heq : dest = o0.source
      · rw [if_pos heq] at h
        rcases List.mem_cons.mp ho with ho | ho
        · rw [ho, ← heq]
        · exact ih h o ho
      · rw [if_neg heq] at h
        exact absurd h (by simp)
    · rw [if_pos hov] at h
      exact absurd h (by simp)

/-- The parse phase succeeds on a tiling report with valid fingerprints
and pairwise-disjoint sources, building exactly the zeroing queue, the
checksum queue, and the op index of the report. -/
theorem parse_ok {dev : List Nat} {U : Nat} (hU : U = dev.length) :
    ∀ (exts : List ReportExtent) (expected : Nat) (zq : List Rg)
      (cq : List CsumOp) (t : IntervalTree CopyOp),
    t.span = ⟨0, U⟩ → WFt CopyOp.interval t →
    tiles U expected exts →
    (∀ r ∈ exts, ∀ off csum, r.source = .Offset off csum →
      off + r.length ≤ dev.length ∧
      validate_checksum dev off r.length csum = some ()) →
    (IntervalTree.entriesT t ++ opsOf exts).Pairwise srcDisj →
    (∀ op ∈ IntervalTree.entriesT t, 0 < op.source.len) →
    ∃ t2, parsePhase dev U expected exts zq cq t
        = some (zq ++ zerosOf exts, cq ++ csumsOf exts, t2) ∧
      t2.span = ⟨0, U⟩ ∧ WFt CopyOp.interval t2 ∧
      (IntervalTree.entriesT t2).Perm
        (IntervalTree.entriesT t ++ opsOf exts) := by
  intro exts
  induction exts with
  | nil =>
    intro expected zq cq t hspan hwf ht hval hpw hpos
    rw [parsePhase, if_neg (by rw [ht]; omega)]
    refine ⟨t, by simp [zerosOf, csumsOf], hspan, hwf, by
      simp [opsOf]⟩
  | cons r rest ih =>
    intro expected zq cq t hspan hwf ht hval hpw hpos
    obtain ⟨hd, hl, ht2⟩ := ht
    have hlt : expected < U := by
      have := tiles_le ht2
      omega
    rw [parsePhase, if_pos hlt, if_neg (by simp [hd])]
    cases hsrc : r.source with
    | Zeros =>
      dsimp only
      have hpw2 : (IntervalTree.entriesT t ++ opsOf rest).Pairwise
          srcDisj := by
        rw [opsOf, hsrc] at hpw
        exact hpw
      obtain ⟨t2, hrun, hsp2, hwf2, hperm2⟩ := ih (expected + r.length)
        (zq ++ [⟨r.destination_offset, r.destination_offset + r.length⟩])
        cq t hspan hwf ht2
        (fun r2 hr2 => hval r2 (List.mem_cons_of_mem r hr2)) hpw2 hpos
      refine ⟨t2, ?_, hsp2, hwf2, ?_⟩
      · rw [hrun, zerosOf, csumsOf, hsrc]
        simp
      · rw [opsOf, hsrc]
        exact hperm2
    | Offset off csum =>
      dsimp only
      obtain ⟨hbnd, hcs⟩ := hval r (by simp) off csum hsrc
      rw [hcs]
      dsimp only
      rw [opsOf, hsrc] at hpw
      have hfresh :
          (⟨⟨off, off + r.length⟩, r.destination_offset⟩ : CopyOp)
            ∉ IntervalTree.entriesT t := by
        intro hmem
        obtain ⟨-, -, hcross⟩ := List.pairwise_append.mp hpw
        have := hcross _ hmem
          (⟨⟨off, off + r.length⟩, r.destination_offset⟩ : CopyOp)
          (by simp)
        unfold srcDisj at this
        simp only at this
        omega
      obtain ⟨t2, hins, hwf2, hsp2, hperm2⟩ := insert_fresh CopyOp.interval
        hwf (by simp [CopyOp.interval, Rg.is_emptyR]; omega)
        (by rw [hspan]; simp [CopyOp.interval, containsRange]; omega) hfresh
      rw [hins]
      dsimp only
      have hpw2 : (IntervalTree.entriesT t2 ++ opsOf rest).Pairwise
          srcDisj := by
        have hp : (IntervalTree.entriesT t2 ++ opsOf rest).Perm
            (IntervalTree.entriesT t
              ++ (⟨⟨off, off + r.length⟩, r.destination_offset⟩ : CopyOp)
                :: opsOf rest) := by
          refine (hperm2.append_right (opsOf rest)).trans ?_
          exact List.perm_middle.symm
        exact (hp.pairwise_iff (fun h => srcDisj_symm h)).mpr hpw
      have hpos2 : ∀ op ∈ IntervalTree.entriesT t2,
          0 < op.source.len := by
        intro op hop
        rcases List.mem_cons.mp (hperm2.mem_iff.mp hop) with h1 | h1
        · subst h1
          simp only [Rg.len]
          omega
        · exact hpos op h1
      obtain ⟨t3, hrun, hsp3, hwf3, hperm3⟩ := ih (expected + r.length) zq
        (cq ++ [⟨r.destination_offset, r.length, csum⟩]) t2
        (by rw [hsp2, hspan]) hwf2 ht2
        (fun r2 hr2 => hval r2 (List.mem_cons_of_mem r hr2)) hpw2 hpos2
      refine ⟨t3, ?_, hsp3, hwf3, ?_⟩
      · rw [hrun, zerosOf, csumsOf, hsrc]
        simp
      · rw [opsOf, hsrc]
        refine hperm3.trans ?_
        refine (hperm2.append_right (opsOf rest)).trans ?_
        exact List.perm_middle.symm

/-! ## Invariant preservation through the copy loop's four steps -/

/-- Step A (no-op elimination) preserves the invariant. -/
theorem stepA_inv {dev cur : List Nat} {extents : List ReportExtent}
    {E E1 : List CopyOp} {op : CopyOp}
    (hperm : (op :: E1).Perm E)
    (hnoop : op.source.start = op.destination_offset)
    (hinv : StInv dev extents E cur) :
    StInv dev extents E1 cur := by
  obtain ⟨h1, h2, h3, h4, h5, h6, h7, h8⟩ := StInv_perm hperm.symm hinv
  have hopb := h2 op (by simp)
  have hsd := List.pairwise_cons.mp h3
  have hdd := List.pairwise_cons.mp h4
  have hsame : ∀ p, inDst op p ↔ inSrc op p := by
    intro p
    unfold inDst inSrc
    simp only [Rg.len]
    omega
  refine ⟨h1, ?_, hsd.2, hdd.2, ?_, ?_, ?_, ?_⟩
  · intro op2 hop2
    exact h2 op2 (by simp [hop2])
  · intro op2 hop2
    exact h5 op2 (by simp [hop2])
  · intro op2 hop2
    exact h6 op2 (by simp [hop2])
  · intro p hoff hunc
    by_cases hin : inDst op p
    · obtain ⟨hd1, hd2⟩ := hin
      have hj := h6 op (by simp) (p - op.destination_offset)
        (by omega)
      rw [show op.destination_offset + (p - op.destination_offset) = p by
        omega] at hj
      rw [show op.source.start + (p - op.destination_offset) = p by
        omega] at hj
      exact hj.symm
    · refine h7 p hoff (fun op2 hop2 => ?_)
      rcases List.mem_cons.mp hop2 with h9 | h9
      · subst h9
        exact hin
      · exact hunc op2 h9
  · intro op2 hop2 p hps hpo
    obtain ⟨op3, hop3, hin3⟩ := h8 op2 (by simp [hop2]) p hps hpo
    rcases List.mem_cons.mp hop3 with h9 | h9
    · subst h9
      exfalso
      have hdis := hsd.1 op2 hop2
      have hp2 := (hsame p).mp hin3
      unfold srcDisj at hdis
      unfold inSrc at hp2 hps
      omega
    · exact ⟨op3, h9, hin3⟩

/-- `chop_op`'s output in full. -/
theorem chop_op_eq {v a b : CopyOp} {k : Nat}
    (h : chop_op v k = some (a, b)) :
    0 < k ∧ v.source.start + k < v.source.stop ∧
      a = ⟨⟨v.source.start, v.source.start + k⟩, v.destination_offset⟩ ∧
      b = ⟨⟨v.source.start + k, v.source.stop⟩,
        v.destination_offset + k⟩ := by
  unfold chop_op at h
  by_cases h1 : 0 < k
  · rw [if_neg (not_not_intro h1)] at h
    by_cases h2 : v.source.start + k < v.source.stop
    · rw [if_neg (not_not_intro h2)] at h
      simp only [Option.some_inj, Prod.mk.injEq] at h
      exact ⟨h1, h2, h.1.symm, h.2.symm⟩
    · rw [if_pos h2] at h
      exact absurd h (by simp)
  · rw [if_pos h1] at h
    exact absurd h (by simp)

/-- Step C (splitting one op into two halves) preserves the invariant. -/
theorem stepC_inv {dev cur : List Nat} {extents : List ReportExtent}
    {E E1 : List CopyOp} {v a b : CopyOp} {k : Nat}
    (hperm : (v :: E1).Perm E)
    (hchop : chop_op v k = some (a, b))
    (hinv : StInv dev extents E cur) :
    StInv dev extents (b :: a :: E1) cur := by
  obtain ⟨hk, hklt, ha, hb⟩ := chop_op_eq hchop
  subst ha
  subst hb
  obtain ⟨h1, h2, h3, h4, h5, h6, h7, h8⟩ := StInv_perm hperm.symm hinv
  have hvb := h2 v (by simp)
  have hsd := List.pairwise_cons.mp h3
  have hdd := List.pairwise_cons.mp h4
  simp only [Rg.len] at hvb
  have hcover : ∀ p, inDst v p ↔
      (inDst (⟨⟨v.source.start, v.source.start + k⟩,
        v.destination_offset⟩ : CopyOp) p ∨
       inDst (⟨⟨v.source.start + k, v.source.stop⟩,
        v.destination_offset + k⟩ : CopyOp) p) := by
    intro p
    unfold inDst
    simp only [Rg.len]
    omega
  refine ⟨h1, ?_, ?_, ?_, ?_, ?_, ?_, ?_⟩
  · intro op2 hop2
    rcases List.mem_cons.mp hop2 with h9 | h9
    · subst h9
      simp only [Rg.len]
      omega
    rcases List.mem_cons.mp h9 with h9 | h9
    · subst h9
      simp only [Rg.len]
      omega
    · exact h2 op2 (by simp [h9])
  · refine List.pairwise_cons.mpr ⟨?_, List.pairwise_cons.mpr ⟨?_, hsd.2⟩⟩
    · intro x hx
      rcases List.mem_cons.mp hx with h9 | h9
      · subst h9
        unfold srcDisj
        simp only
        omega
      · have := hsd.1 x h9
        unfold srcDisj at this ⊢
        simp only at this ⊢
        omega
    · intro x hx
      have := hsd.1 x hx
      unfold srcDisj at this ⊢
      simp only at this ⊢
      omega
  · refine List.pairwise_cons.mpr ⟨?_, List.pairwise_cons.mpr ⟨?_, hdd.2⟩⟩
    · intro x hx
      rcases List.mem_cons.mp hx with h9 | h9
      · subst h9
        unfold dstDisj
        simp only [Rg.len]
        omega
      · have := hdd.1 x h9
        unfold dstDisj at this ⊢
        simp only [Rg.len] at this ⊢
        omega
    · intro x hx
      have := hdd.1 x hx
      unfold dstDisj at this ⊢
      simp only [Rg.len] at this ⊢
      omega
  · intro op2 hop2 p hin
    rcases List.mem_cons.mp hop2 with h9 | h9
    · subst h9
      exact h5 v (by simp) p ((hcover p).mpr (Or.inr hin))
    rcases List.mem_cons.mp h9 with h9 | h9
    · subst h9
      exact h5 v (by simp) p ((hcover p).mpr (Or.inl hin))
    · exact h5 op2 (by simp [h9]) p hin
  · intro op2 hop2 j hj
    rcases List.mem_cons.mp hop2 with h9 | h9
    · subst h9
      simp only [Rg.len] at hj ⊢
      have := h6 v (by simp) (k + j) (by simp only [Rg.len]; omega)
      rw [show v.destination_offset + (k + j)
          = v.destination_offset + k + j by omega] at this
      rw [show v.source.start + (k + j)
          = v.source.start + k + j by omega] at this
      exact this
    rcases List.mem_cons.mp h9 with h9 | h9
    · subst h9
      simp only [Rg.len] at hj ⊢
      exact h6 v (by simp) j (by simp only [Rg.len]; omega)
    · exact h6 op2 (by simp [h9]) j hj
  · intro p hoff hunc
    refine h7 p hoff (fun op2 hop2 => ?_)
    rcases List.mem_cons.mp hop2 with h9 | h9
    · subst h9
      intro hin
      rcases (hcover p).mp hin with hc | hc
      · exact hunc _ (by simp) hc
      · exact hunc _ (by simp) hc
    · exact hunc op2 (by simp [h9])
  · intro op2 hop2 p hps hpo
    have hget : ∀ q, (∃ op3 ∈ (v :: E1), inDst op3 q) →
        ∃ op3 ∈ ((⟨⟨v.source.start + k, v.source.stop⟩,
            v.destination_offset + k⟩ : CopyOp)
          :: (⟨⟨v.source.start, v.source.start + k⟩,
            v.destination_offset⟩ : CopyOp) :: E1), inDst op3 q := by
      intro q hq
      obtain ⟨op3, hop3, hin3⟩ := hq
      rcases List.mem_cons.mp hop3 with h9 | h9
      · subst h9
        rcases (hcover q).mp hin3 with hc | hc
        · exact ⟨_, by simp, hc⟩
        · exact ⟨_, by simp, hc⟩
      · exact ⟨op3, by simp [h9], hin3⟩
    rcases List.mem_cons.mp hop2 with h9 | h9
    · subst h9
      refine hget p (h8 v (by simp) p ?_ hpo)
      unfold inSrc at hps ⊢
      simp only at hps
      omega
    rcases List.mem_cons.mp h9 with h9 | h9
    · subst h9
      refine hget p (h8 v (by simp) p ?_ hpo)
      unfold inSrc at hps ⊢
      simp only at hps
      omega
    · exact hget p (h8 op2 (by simp [h9]) p hps hpo)
/-- Step B (plain copy when no live source overlaps the destination)
preserves the invariant. -/
theorem stepB_inv {dev cur cur2 : List Nat} {extents : List ReportExtent}
    {E E1 : List CopyOp} {op : CopyOp}
    (hperm : (op :: E1).Perm E)
    (hinv : StInv dev extents E cur)
    (hnov : ∀ op2 ∈ E, op2.source.stop ≤ op.destination_offset ∨
      op.destination_offset + op.source.len ≤ op2.source.start)
    (hlen2 : cur2.length = cur.length)
    (hin2 : ∀ p, op.destination_offset ≤ p →
      p < op.destination_offset + op.source.len →
      cur2.get? p = cur.get? (op.source.start + (p - op.destination_offset)))
    (hout2 : ∀ p, p < op.destination_offset ∨
      op.destination_offset + op.source.len ≤ p →
      cur2.get? p = cur.get? p) :
    StInv dev extents E1 cur2 := by
  obtain ⟨h1, h2, h3, h4, h5, h6, h7, h8⟩ := StInv_perm hperm.symm hinv
  have hsd := List.pairwise_cons.mp h3
  have hdd := List.pairwise_cons.mp h4
  have hnov2 : ∀ op2 ∈ (op :: E1), op2.source.stop ≤ op.destination_offset ∨
      op.destination_offset + op.source.len ≤ op2.source.start :=
    fun op2 hop2 => hnov op2 (hperm.mem_iff.mp hop2)
  refine ⟨by rw [hlen2, h1], ?_, hsd.2, hdd.2, ?_, ?_, ?_, ?_⟩
  · intro op2 hop2
    exact h2 op2 (by simp [hop2])
  · intro op2 hop2
    exact h5 op2 (by simp [hop2])
  · intro op2 hop2 j hj
    rw [h6 op2 (by simp [hop2]) j hj]
    have hb2 := h2 op2 (by simp [hop2])
    have hno := hnov2 op2 (by simp [hop2])
    rw [hout2 (op2.source.start + j) (by
      simp only [Rg.len] at hb2 hno hj ⊢
      omega)]
  · intro p hoff hunc
    by_cases hin : inDst op p
    · obtain ⟨hd1, hd2⟩ := hin
      rw [hin2 p hd1 hd2]
      have hj := h6 op (by simp) (p - op.destination_offset) (by omega)
      rw [show op.destination_offset + (p - op.destination_offset) = p by
        omega] at hj
      exact hj.symm
    · have hold := h7 p hoff (fun op2 hop2 => by
        rcases List.mem_cons.mp hop2 with h9 | h9
        · subst h9
          exact hin
        · exact hunc op2 h9)
      rw [← hold]
      refine hout2 p ?_
      unfold inDst at hin
      omega
  · intro op2 hop2 p hps hpo
    obtain ⟨op3, hop3, hin3⟩ := h8 op2 (by simp [hop2]) p hps hpo
    rcases List.mem_cons.mp hop3 with h9 | h9
    · subst h9
      exfalso
      have hno := hnov2 op2 (by simp [hop2])
      unfold inDst at hin3
      unfold inSrc at hps
      omega
    · exact ⟨op3, h9, hin3⟩

/-- Step D (swap and rewrite of the single identically-ranged overlapper)
preserves the invariant. -/
theorem stepD_inv {dev cur cur2 : List Nat} {extents : List ReportExtent}
    {E E2 : List CopyOp} {E1 : List CopyOp} {op o : CopyOp}
    (hperm1 : (op :: E1).Perm E)
    (hperm2 : (o :: E2).Perm E1)
    (ho_src : o.source = ⟨op.destination_offset,
      op.source.stop - op.source.start + op.destination_offset⟩)
    (hnov : ∀ op2 ∈ E, op2 ≠ o →
      op2.source.stop ≤ op.destination_offset ∨
      op.destination_offset + op.source.len ≤ op2.source.start)
    (hinv : StInv dev extents E cur)
    (hlen2 : cur2.length = cur.length)
    (hinD : ∀ p, op.destination_offset ≤ p →
      p < op.destination_offset + op.source.len →
      cur2.get? p = cur.get? (op.source.start + (p - op.destination_offset)))
    (hinS : ∀ p, op.source.start ≤ p → p < op.source.stop →
      cur2.get? p = cur.get? (op.destination_offset + (p - op.source.start)))
    (hout : ∀ p, (p < op.destination_offset ∨
        op.destination_offset + op.source.len ≤ p) →
      (p < op.source.start ∨ op.source.stop ≤ p) →
      cur2.get? p = cur.get? p) :
    StInv dev extents
      ((⟨op.source, o.destination_offset⟩ : CopyOp) :: E2) cur2 := by
  have hperm3 : (op :: o :: E2).Perm E := (hperm2.cons op).trans hperm1
  obtain ⟨h1, h2, h3, h4, h5, h6, h7, h8⟩ := StInv_perm hperm3.symm hinv
  have hopb := h2 op (by simp)
  have hob := h2 o (by simp)
  have hsd1 := List.pairwise_cons.mp h3
  have hsd2 := List.pairwise_cons.mp hsd1.2
  have hdd1 := List.pairwise_cons.mp h4
  have hdd2 := List.pairwise_cons.mp hdd1.2
  have hL : 0 < op.source.len := hopb.1
  have hLr : 0 < op.source.stop - op.source.start := by
    simp only [Rg.len] at hL
    omega
  have ho_start : o.source.start = op.destination_offset := by
    rw [ho_src]
  have ho_stop : o.source.stop
      = op.source.stop - op.source.start + op.destination_offset := by
    rw [ho_src]
  have hoL2 : o.source.stop - o.source.start
      = op.source.stop - op.source.start := by
    rw [ho_start, ho_stop]
    omega
  have hop_ne_o : op ≠ o := by
    intro h
    have hdis := hsd1.1 o (by simp)
    unfold srcDisj at hdis
    rw [h] at hdis
    have := hob.1
    simp only [Rg.len] at this
    omega
  have ho_notin : o ∉ E2 := by
    intro hmem
    have hdis := hsd2.1 o hmem
    unfold srcDisj at hdis
    have := hob.1
    simp only [Rg.len] at this
    omega
  have hself := hnov op (hperm3.mem_iff.mp (by simp)) hop_ne_o
  simp only [Rg.len] at hself
  have hnovx : ∀ x ∈ E2, x.source.stop ≤ op.destination_offset ∨
      op.destination_offset + (op.source.stop - op.source.start)
        ≤ x.source.start := by
    intro x hx
    have hxne : x ≠ o := fun hc => ho_notin (hc ▸ hx)
    have := hnov x (hperm3.mem_iff.mp (by simp [hx])) hxne
    simp only [Rg.len] at this
    exact this
  have hsdx : ∀ x ∈ E2, srcDisj op x := fun x hx =>
    hsd1.1 x (by simp [hx])
  have hcov_oo : ∀ p, inDst o p ↔
      inDst (⟨op.source, o.destination_offset⟩ : CopyOp) p := by
    intro p
    unfold inDst
    simp only [Rg.len]
    omega
  refine ⟨by rw [hlen2, h1], ?_, ?_, ?_, ?_, ?_, ?_, ?_⟩
  · intro x hx
    rcases List.mem_cons.mp hx with h9 | h9
    · subst h9
      refine ⟨hopb.1, hopb.2.1, ?_⟩
      simp only [Rg.len] at hob ⊢
      omega
    · exact h2 x (by simp [h9])
  · refine List.pairwise_cons.mpr ⟨?_, hsd2.2⟩
    intro x hx
    exact hsdx x hx
  · refine List.pairwise_cons.mpr ⟨?_, hdd2.2⟩
    intro x hx
    have := hdd2.1 x hx
    unfold dstDisj at this ⊢
    simp only [Rg.len] at this ⊢
    omega
  · intro x hx p hin
    rcases List.mem_cons.mp hx with h9 | h9
    · subst h9
      exact h5 o (by simp) p ((hcov_oo p).mpr hin)
    · exact h5 x (by simp [h9]) p hin
  · intro x hx j hj
    rcases List.mem_cons.mp hx with h9 | h9
    · subst h9
      simp only at hj ⊢
      have hc := h6 o (by simp) j (by simp only [Rg.len] at hj ⊢; omega)
      rw [ho_start] at hc
      rw [hinS (op.source.start + j)
        (by omega) (by simp only [Rg.len] at hj; omega)]
      rw [show op.destination_offset
          + (op.source.start + j - op.source.start)
          = op.destination_offset + j by omega]
      exact hc
    · have hc := h6 x (by simp [h9]) j hj
      rw [hc]
      have hxb := h2 x (by simp [h9])
      have hno := hnovx x h9
      have hds := hsdx x h9
      unfold srcDisj at hds
      refine (hout (x.source.start + j) ?_ ?_).symm
      · simp only [Rg.len] at hxb hj ⊢
        omega
      · simp only [Rg.len] at hxb hj
        omega
  · intro p hoff hunc
    by_cases hpd : inDst op p
    · obtain ⟨hd1, hd2⟩ := hpd
      rw [hinD p hd1 hd2]
      have hj := h6 op (by simp) (p - op.destination_offset) (by omega)
      rw [show op.destination_offset + (p - op.destination_offset) = p by
        omega] at hj
      exact hj.symm
    · have hunc3 : ∀ x ∈ (op :: o :: E2), ¬ inDst x p := by
        intro x hx
        rcases List.mem_cons.mp hx with h9 | h9
        · subst h9
          exact hpd
        rcases List.mem_cons.mp h9 with h9 | h9
        · subst h9
          intro hc
          exact hunc _ (by simp) ((hcov_oo p).mp hc)
        · exact hunc x (by simp [h9])
      have hold := h7 p hoff hunc3
      rw [← hold]
      refine hout p (by unfold inDst at hpd; omega) ?_
      by_contra hc
      have hps : inSrc op p := by
        unfold inSrc
        omega
      obtain ⟨op3, hop3, hin3⟩ := h8 op (by simp) p hps hoff
      exact hunc3 op3 hop3 hin3
  · intro x hx p hps hpo
    rcases List.mem_cons.mp hx with h9 | h9
    · subst h9
      obtain ⟨op3, hop3, hin3⟩ := h8 op (by simp) p hps hpo
      rcases List.mem_cons.mp hop3 with h9 | h9
      · subst h9
        exfalso
        unfold inSrc at hps
        unfold inDst at hin3
        simp only [Rg.len] at hin3 hps
        omega
      rcases List.mem_cons.mp h9 with h9 | h9
      · subst h9
        exact ⟨_, by simp, (hcov_oo p).mp hin3⟩
      · exact ⟨op3, by simp [h9], hin3⟩
    · obtain ⟨op3, hop3, hin3⟩ := h8 x (by simp [h9]) p hps hpo
      rcases List.mem_cons.mp hop3 with h10 | h10
      · subst h10
        exfalso
        have hno := hnovx x h9
        unfold inSrc at hps
        unfold inDst at hin3
        simp only [Rg.len] at hin3
        omega
      rcases List.mem_cons.mp h10 with h10 | h10
      · subst h10
        exact ⟨_, by simp, (hcov_oo p).mp hin3⟩
      · exact ⟨op3, by simp [h10], hin3⟩
theorem is_emptyR_false_of_pos {r : Rg} (h : 0 < r.len) :
    r.is_emptyR = false := by
  simp only [Rg.len] at h
  simp [Rg.is_emptyR]
  omega

theorem containsSpan {U : Nat} {r : Rg} (h : r.stop ≤ U) :
    containsRange ⟨0, U⟩ r = true := by
  simp [containsRange, h]

theorem pairwise_unordered {α : Type} {R : α → α → Prop}
    (hsymm : ∀ {x y : α}, R x y → R y x) :
    ∀ {l : List α}, l.Pairwise R →
    ∀ x ∈ l, ∀ y ∈ l, x ≠ y → R x y := by
  intro l
  induction l with
  | nil =>
    intro h x hx
    exact absurd hx (by simp)
  | cons a tl ih =>
    intro h x hx y hy hne
    have hc := List.pairwise_cons.mp h
    rcases List.mem_cons.mp hx with h1 | h1
    · subst h1
      rcases List.mem_cons.mp hy with h2 | h2
      · exact (hne h2.symm).elim
      · exact hc.1 y h2
    · rcases List.mem_cons.mp hy with h2 | h2
      · subst h2
        exact hsymm (hc.1 x h1)
      · exact ih hc.2 x h1 y h2 hne

/-- No live op's source can sit inside another live op's source: source
ranges are pairwise disjoint, so a contained nonempty source forces the
two ops to coincide. -/
theorem no_strict_sub {E : List CopyOp} {v x : CopyOp}
    (hpw : E.Pairwise srcDisj) (hv : v ∈ E) (hx : x ∈ E)
    (hss : v.source.start ≤ x.source.start)
    (hse : x.source.stop ≤ v.source.stop)
    (hpos : x.source.start < x.source.stop)
    (hne : x ≠ v) : False := by
  have := pairwise_unordered (fun h => srcDisj_symm h) hpw x hx v hv hne
  unfold srcDisj at this
  omega

theorem chop_op_some {v : CopyOp} {k : Nat} (h1 : 0 < k)
    (h2 : v.source.start + k < v.source.stop) :
    chop_op v k = some
      (⟨⟨v.source.start, v.source.start + k⟩, v.destination_offset⟩,
       ⟨⟨v.source.start + k, v.source.stop⟩, v.destination_offset + k⟩) := by
  unfold chop_op
  rw [if_neg (not_not_intro h1), if_neg (not_not_intro h2)]

theorem scanOverlaps_progress {dest : Rg} : ∀ {l : List CopyOp},
    (∀ o ∈ l, overlapsRangeLift dest o.source = true) →
    ∃ res, scanOverlaps dest l = some res := by
  intro l
  induction l with
  | nil =>
    intro h
    exact ⟨none, rfl⟩
  | cons o rest ih =>
    intro h
    rw [scanOverlaps]
    rw [if_neg (not_not_intro (h o (by simp)))]
    by_cases heq : dest = o.source
    · rw [if_pos heq]
      exact ih (fun x hx => h x (by simp [hx]))
    · rw [if_neg heq]
      exact ⟨some o, rfl⟩

theorem not_overlap_disj {a b : Rg} (ha : a.start < a.stop)
    (hb : b.start < b.stop) (h : overlapsRangeItree a b = false) :
    b.stop ≤ a.start ∨ a.stop ≤ b.start := by
  have h2 : ¬(b.start < a.stop ∧ a.start < b.stop) := by
    intro hc
    have h3 := (overlapsRangeItree_iff ha hb).mpr hc
    rw [h] at h3
    exact absurd h3 (by simp)
  omega

/-- Step C succeeds: given the non-identical overlapper chosen by the
scan, `splitStep` removes the proper victim, chops it, re-inserts the two
halves, and preserves every invariant (the device is untouched). -/
theorem split_ok {dev cur : List Nat} {extents : List ReportExtent}
    {t : IntervalTree CopyOp} {op other : CopyOp}
    (hspan : t.span = ⟨0, dev.length⟩)
    (hwf : WFt CopyOp.interval t)
    (hinv : StInv dev extents (IntervalTree.entriesT t) cur)
    (hop : op ∈ IntervalTree.entriesT t)
    (hoth_mem : other ∈ IntervalTree.entriesT t)
    (hovl1 : other.source.start
      < op.source.stop - op.source.start + op.destination_offset)
    (hovl2 : op.destination_offset < other.source.stop)
    (hoth_ne : (⟨op.destination_offset, op.source.stop - op.source.start
        + op.destination_offset⟩ : Rg) ≠ other.source) :
    ∃ t4, splitStep op other ⟨op.destination_offset,
        op.source.stop - op.source.start + op.destination_offset⟩ t
      = some t4 ∧ t4.span = t.span ∧ WFt CopyOp.interval t4 ∧
      StInv dev extents (IntervalTree.entriesT t4) cur := by
  have hopb := hinv.bounds op hop
  have hothb := hinv.bounds other hoth_mem
  have hopl : op.source.start < op.source.stop := by
    have := hopb.1
    simp only [Rg.len] at this
    omega
  have hothl : other.source.start < other.source.stop := by
    have := hothb.1
    simp only [Rg.len] at this
    omega
  have core : ∀ v k, v ∈ IntervalTree.entriesT t → 0 < k →
      v.source.start + k < v.source.stop →
      ∃ t2 t3 t4,
        IntervalTree.remove CopyOp.interval t v = some (true, t2) ∧
        chop_op v k = some
          (⟨⟨v.source.start, v.source.start + k⟩, v.destination_offset⟩,
           ⟨⟨v.source.start + k, v.source.stop⟩,
             v.destination_offset + k⟩) ∧
        IntervalTree.insert CopyOp.interval t2
          ⟨⟨v.source.start, v.source.start + k⟩, v.destination_offset⟩
          = some (true, t3) ∧
        IntervalTree.insert CopyOp.interval t3
          ⟨⟨v.source.start + k, v.source.stop⟩, v.destination_offset + k⟩
          = some (true, t4) ∧
        t4.span = t.span ∧ WFt CopyOp.interval t4 ∧
        StInv dev extents (IntervalTree.entriesT t4) cur := by
    intro v k hv hk hk2
    have hvb := hinv.bounds v hv
    obtain ⟨t2, hrem, hwf2, hsp2, hperm1⟩ := remove_found CopyOp.interval
      hwf (is_emptyR_false_of_pos hvb.1)
      (by rw [hspan]; exact containsSpan hvb.2.1) hv
    have hchop := chop_op_some hk hk2
    have hfresh_a : (⟨⟨v.source.start, v.source.start + k⟩,
        v.destination_offset⟩ : CopyOp) ∉ IntervalTree.entriesT t2 := by
      intro hmem
      have hmemt := hperm1.mem_iff.mp (List.mem_cons_of_mem v hmem)
      refine no_strict_sub hinv.src_disj hv hmemt
        (show v.source.start ≤ v.source.start from le_rfl)
        (show v.source.start + k ≤ v.source.stop by omega)
        (show v.source.start < v.source.start + k by omega) ?_
      intro hc
      have := congrArg (fun x => x.source.stop) hc
      simp only at this
      omega
    obtain ⟨t3, hins1, hwf3, hsp3, hperm_a⟩ := insert_fresh CopyOp.interval
      hwf2
      (show (CopyOp.interval (⟨⟨v.source.start, v.source.start + k⟩,
          v.destination_offset⟩ : CopyOp)).is_emptyR = false
        from is_emptyR_false_of_pos (show 0 < Rg.len ⟨v.source.start,
          v.source.start + k⟩ by simp only [Rg.len]; omega))
      (by
        rw [hsp2, hspan]
        exact containsSpan (show v.source.start + k ≤ dev.length by
          have := hvb.2.1
          omega))
      hfresh_a
    have hfresh_b : (⟨⟨v.source.start + k, v.source.stop⟩,
        v.destination_offset + k⟩ : CopyOp) ∉ IntervalTree.entriesT t3 := by
      intro hmem
      rcases List.mem_cons.mp (hperm_a.mem_iff.mp hmem) with h9 | h9
      · have := congrArg (fun x => x.source.start) h9
        simp only at this
        omega
      · have hmemt := hperm1.mem_iff.mp (List.mem_cons_of_mem v h9)
        refine no_strict_sub hinv.src_disj hv hmemt
          (show v.source.start ≤ v.source.start + k by omega)
          (show v.source.stop ≤ v.source.stop from le_rfl)
          (show v.source.start + k < v.source.stop from hk2) ?_
        intro hc
        have := congrArg (fun x => x.source.start) hc
        simp only at this
        omega
    obtain ⟨t4, hins2, hwf4, hsp4, hperm_b⟩ := insert_fresh CopyOp.interval
      hwf3
      (show (CopyOp.interval (⟨⟨v.source.start + k, v.source.stop⟩,
          v.destination_offset + k⟩ : CopyOp)).is_emptyR = false
        from is_emptyR_false_of_pos (show 0 < Rg.len ⟨v.source.start + k,
          v.source.stop⟩ by simp only [Rg.len]; omega))
      (by
        rw [hsp3, hsp2, hspan]
        exact containsSpan (show v.source.stop ≤ dev.length from hvb.2.1))
      hfresh_b
    refine ⟨t2, t3, t4, hrem, hchop, hins1, hins2,
      by rw [hsp4, hsp3, hsp2], hwf4, ?_⟩
    have hfinal : (IntervalTree.entriesT t4).Perm
        ((⟨⟨v.source.start + k, v.source.stop⟩,
            v.destination_offset + k⟩ : CopyOp)
          :: (⟨⟨v.source.start, v.source.start + k⟩,
            v.destination_offset⟩ : CopyOp)
          :: IntervalTree.entriesT t2) :=
      hperm_b.trans (hperm_a.cons _)
    exact StInv_perm hfinal.symm (stepC_inv hperm1 hchop hinv)
  unfold splitStep
  dsimp only
  by_cases hc1 : op.destination_offset < other.source.start
  · rw [if_pos hc1]
    dsimp only
    obtain ⟨t2, t3, t4, e1, e2, e3, e4, hsp, hwf4, hinv4⟩ :=
      core op (other.source.start - op.destination_offset) hop (by omega)
        (by omega)
    rw [e1]
    dsimp only
    rw [e2]
    dsimp only
    rw [e3]
    dsimp only
    rw [e4]
    exact ⟨t4, rfl, hsp, hwf4, hinv4⟩
  · rw [if_neg hc1]
    by_cases hc2 : other.source.start < op.destination_offset
    · rw [if_pos hc2]
      dsimp only
      obtain ⟨t2, t3, t4, e1, e2, e3, e4, hsp, hwf4, hinv4⟩ :=
        core other (op.destination_offset - other.source.start) hoth_mem
          (by omega) (by omega)
      rw [e1]
      dsimp only
      rw [e2]
      dsimp only
      rw [e3]
      dsimp only
      rw [e4]
      exact ⟨t4, rfl, hsp, hwf4, hinv4⟩
    · rw [if_neg hc2]
      by_cases hc3 : other.source.stop
          < op.source.stop - op.source.start + op.destination_offset
      · rw [if_pos hc3]
        dsimp only
        obtain ⟨t2, t3, t4, e1, e2, e3, e4, hsp, hwf4, hinv4⟩ :=
          core op (other.source.stop - other.source.start) hop (by omega)
            (by omega)
        rw [e1]
        dsimp only
        rw [e2]
        dsimp only
        rw [e3]
        dsimp only
        rw [e4]
        exact ⟨t4, rfl, hsp, hwf4, hinv4⟩
      · rw [if_neg hc3]
        by_cases hc4 : op.source.stop - op.source.start
            + op.destination_offset < other.source.stop
        · rw [if_pos hc4]
          dsimp only
          obtain ⟨t2, t3, t4, e1, e2, e3, e4, hsp, hwf4, hinv4⟩ :=
            core other (op.source.stop - op.source.start
              + op.destination_offset - op.destination_offset) hoth_mem
              (by omega) (by omega)
          rw [e1]
          dsimp only
          rw [e2]
          dsimp only
          rw [e3]
          dsimp only
          rw [e4]
          exact ⟨t4, rfl, hsp, hwf4, hinv4⟩
        · exfalso
          apply hoth_ne
          have hstart : other.source.start = op.destination_offset := by
            omega
          have hstop : other.source.stop
              = op.source.stop - op.source.start + op.destination_offset := by
            omega
          cases hos : other.source with
          | mk a b =>
            rw [hos] at hstart hstop
            simp only at hstart hstop
            rw [hstart, hstop]

/-- Under the invariants, one copy-loop iteration on a non-empty index
succeeds and preserves the span, the tree invariant, and the semantic
invariant. -/
theorem copyIter_ok {dev cur : List Nat} {extents : List ReportExtent}
    {t : IntervalTree CopyOp}
    (hspan : t.span = ⟨0, dev.length⟩)
    (hwf : WFt CopyOp.interval t)
    (hinv : StInv dev extents (IntervalTree.entriesT t) cur)
    (hne : IntervalTree.is_emptyT t = false) :
    ∃ cur2 t2, copyIter cur t = some (cur2, t2) ∧
      t2.span = t.span ∧ WFt CopyOp.interval t2 ∧
      StInv dev extents (IntervalTree.entriesT t2) cur2 := by
  obtain ⟨op, hf⟩ := firstT_some CopyOp.interval hwf hne
  have hop : op ∈ IntervalTree.entriesT t := firstT_mem hf
  have hopb := hinv.bounds op hop
  have hcurlen := hinv.len_eq
  have hnod := NodeType.WFn_nodup CopyOp.interval hwf.1
  have hopl : op.source.start < op.source.stop := by
    have := hopb.1
    simp only [Rg.len] at this
    omega
  have hvalop : (CopyOp.interval op).is_emptyR = false :=
    is_emptyR_false_of_pos hopb.1
  have hcontop : containsRange t.span (CopyOp.interval op) = true := by
    rw [hspan]
    exact containsSpan hopb.2.1
  rw [copyIter, hf]
  dsimp only
  by_cases hnoop : op.source.start = op.destination_offset
  · rw [if_pos hnoop]
    obtain ⟨t2, hrem, hwf2, hsp2, hperm1⟩ :=
      remove_found CopyOp.interval hwf hvalop hcontop hop
    rw [hrem]
    exact ⟨cur, t2, rfl, hsp2, hwf2, stepA_inv hperm1 hnoop hinv⟩
  · rw [if_neg hnoop]
    have hUpos : 0 < dev.length := by
      have := hopb.2.1
      omega
    have hqne : (⟨op.destination_offset, op.source.stop - op.source.start
        + op.destination_offset⟩ : Rg).is_emptyR = false := by
      apply is_emptyR_false_of_pos
      simp only [Rg.len]
      omega
    have hov : overlapsRangeItree t.span
        ⟨op.destination_offset, op.source.stop - op.source.start
          + op.destination_offset⟩ = true := by
      rw [hspan]
      rw [overlapsRangeItree_iff (by simpa using hUpos)
        (show op.destination_offset < op.source.stop - op.source.start
          + op.destination_offset by omega)]
      refine ⟨?_, by simp only; omega⟩
      show op.destination_offset < dev.length
      have := hopb.2.2
      simp only [Rg.len] at this
      omega
    have hfind := findT_spec CopyOp.interval hwf hqne hov
    rw [hfind]
    dsimp only
    have hFmem : ∀ x, x ∈ (IntervalTree.entriesT t).filter
        (fun h => overlapsRangeItree ⟨op.destination_offset,
          op.source.stop - op.source.start + op.destination_offset⟩
          (CopyOp.interval h)) ↔ x ∈ IntervalTree.entriesT t ∧
        overlapsRangeItree ⟨op.destination_offset,
          op.source.stop - op.source.start + op.destination_offset⟩
          x.source = true := by
      intro x
      rw [List.mem_filter]
      exact Iff.rfl
    have hdisj_of_not : ∀ x ∈ IntervalTree.entriesT t,
        x ∉ (IntervalTree.entriesT t).filter
          (fun h => overlapsRangeItree ⟨op.destination_offset,
            op.source.stop - op.source.start + op.destination_offset⟩
            (CopyOp.interval h)) →
        x.source.stop ≤ op.destination_offset ∨
          op.destination_offset + op.source.len ≤ x.source.start := by
      intro x hx hnx
      have hxb := hinv.bounds x hx
      have hxl : x.source.start < x.source.stop := by
        have := hxb.1
        simp only [Rg.len] at this
        omega
      have hno : overlapsRangeItree ⟨op.destination_offset,
          op.source.stop - op.source.start + op.destination_offset⟩
          x.source = false := by
        cases hcase : overlapsRangeItree ⟨op.destination_offset,
            op.source.stop - op.source.start + op.destination_offset⟩
            x.source
        · rfl
        · exact absurd ((hFmem x).mpr ⟨hx, hcase⟩) hnx
      have hd := not_overlap_disj
        (show (⟨op.destination_offset, op.source.stop - op.source.start
          + op.destination_offset⟩ : Rg).start
          < (⟨op.destination_offset, op.source.stop - op.source.start
          + op.destination_offset⟩ : Rg).stop by simp only; omega)
        hxl hno
      simp only [Rg.len] at hd ⊢
      omega
    by_cases hemp : ((IntervalTree.entriesT t).filter
        (fun h => overlapsRangeItree ⟨op.destination_offset,
          op.source.stop - op.source.start + op.destination_offset⟩
          (CopyOp.interval h))).isEmpty = true
    · rw [if_pos hemp]
      have hFnil := List.isEmpty_iff.mp hemp
      have hnov : ∀ x ∈ IntervalTree.entriesT t,
          x.source.stop ≤ op.destination_offset ∨
          op.destination_offset + op.source.len ≤ x.source.start := by
        intro x hx
        exact hdisj_of_not x hx (by rw [hFnil]; simp)
      obtain ⟨t2, hrem, hwf2, hsp2, hperm1⟩ :=
        remove_found CopyOp.interval hwf hvalop hcontop hop
      rw [hrem]
      dsimp only
      obtain ⟨cur2, hcp, hlen2, hin2, hout2⟩ := copy_segment_ok
        (show op.source.stop ≤ op.destination_offset ∨
          op.destination_offset + op.source.len ≤ op.source.start from
          hnov op hop)
        (show op.source.stop ≤ cur.length by
          rw [hcurlen]
          exact hopb.2.1)
        (show op.destination_offset + op.source.len ≤ cur.length by
          rw [hcurlen]
          exact hopb.2.2)
        (show op.source.start ≤ op.source.stop by omega)
      rw [hcp]
      exact ⟨cur2, t2, rfl, hsp2, hwf2,
        stepB_inv hperm1 hinv hnov hlen2 hin2 hout2⟩
    · rw [if_neg hemp]
      have hFov : ∀ x ∈ (IntervalTree.entriesT t).filter
          (fun h => overlapsRangeItree ⟨op.destination_offset,
            op.source.stop - op.source.start + op.destination_offset⟩
            (CopyOp.interval h)),
          overlapsRangeLift ⟨op.destination_offset,
            op.source.stop - op.source.start + op.destination_offset⟩
            x.source = true := by
        intro x hx
        obtain ⟨hx1, hx2⟩ := (hFmem x).mp hx
        have hxb := hinv.bounds x hx1
        rw [← overlapsRangeItree_eq_lift (by simp only; omega)
          (by have := hxb.1; simp only [Rg.len] at this; omega)]
        exact hx2
      obtain ⟨res, hscan⟩ := scanOverlaps_progress hFov
      rw [hscan]
      cases res with
      | some other =>
        dsimp only
        obtain ⟨hoth_F, hoth_ov, hoth_ne⟩ := scanOverlaps_sel hscan
        obtain ⟨hoth_mem, -⟩ := (hFmem other).mp hoth_F
        have hovl := overlapsRangeLift_iff.mp hoth_ov
        simp only at hovl
        obtain ⟨t4, hsplit, hsp4, hwf4, hinv4⟩ := split_ok hspan hwf hinv
          hop hoth_mem hovl.1 hovl.2 hoth_ne
        rw [hsplit]
        exact ⟨cur, t4, rfl, hsp4, hwf4, hinv4⟩
      | none =>
        dsimp only
        have hFne : (IntervalTree.entriesT t).filter
            (fun h => overlapsRangeItree ⟨op.destination_offset,
              op.source.stop - op.source.start + op.destination_offset⟩
              (CopyOp.interval h)) ≠ [] := by
          intro hc
          rw [← List.isEmpty_iff] at hc
          exact hemp hc
        obtain ⟨o, ho_F⟩ := List.exists_mem_of_ne_nil _ hFne
        have ho_srcdest := scanOverlaps_all hscan o ho_F
        obtain ⟨ho_mem, -⟩ := (hFmem o).mp ho_F
        have hob := hinv.bounds o ho_mem
        have hFsingle : (IntervalTree.entriesT t).filter
            (fun h => overlapsRangeItree ⟨op.destination_offset,
              op.source.stop - op.source.start + op.destination_offset⟩
              (CopyOp.interval h)) = [o] := by
          have hFnd : ((IntervalTree.entriesT t).filter
              (fun h => overlapsRangeItree ⟨op.destination_offset,
                op.source.stop - op.source.start + op.destination_offset⟩
                (CopyOp.interval h))).Nodup := hnod.filter _
          cases hF : (IntervalTree.entriesT t).filter
              (fun h => overlapsRangeItree ⟨op.destination_offset,
                op.source.stop - op.source.start + op.destination_offset⟩
                (CopyOp.interval h)) with
          | nil => exact absurd hF hFne
          | cons o1 rest =>
            have ho1src := scanOverlaps_all hscan o1 (by rw [hF]; simp)
            have ho1F : o1 ∈ (IntervalTree.entriesT t).filter
                (fun h => overlapsRangeItree ⟨op.destination_offset,
                  op.source.stop - op.source.start
                    + op.destination_offset⟩ (CopyOp.interval h)) := by
              rw [hF]
              simp
            obtain ⟨ho1_mem, -⟩ := (hFmem o1).mp ho1F
            have hrest : rest = [] := by
              by_contra hc
              obtain ⟨x, hx⟩ := List.exists_mem_of_ne_nil _ hc
              have hxF : x ∈ (IntervalTree.entriesT t).filter
                  (fun h => overlapsRangeItree ⟨op.destination_offset,
                    op.source.stop - op.source.start
                      + op.destination_offset⟩ (CopyOp.interval h)) := by
                rw [hF]
                simp [hx]
              have hxsrc := scanOverlaps_all hscan x hxF
              obtain ⟨hx_mem, -⟩ := (hFmem x).mp hxF
              rw [hF] at hFnd
              have hxne : x ≠ o1 := by
                intro hc2
                subst hc2
                exact (List.nodup_cons.mp hFnd).1 hx
              have hdis := pairwise_unordered (fun h => srcDisj_symm h)
                hinv.src_disj x hx_mem o1 ho1_mem hxne
              unfold srcDisj at hdis
              rw [hxsrc, ho1src] at hdis
              simp only at hdis
              omega
            subst hrest
            rw [hF] at ho_F
            simp only [List.mem_singleton] at ho_F
            rw [ho_F]
        have ho_ne_op : o ≠ op := by
          intro hc
          subst hc
          have := congrArg (fun r => r.start) ho_srcdest
          simp only at this
          exact hnoop this
        obtain ⟨t2, hrem, hwf2, hsp2, hperm1⟩ :=
          remove_found CopyOp.interval hwf hvalop hcontop hop
        rw [hrem]
        dsimp only
        have hopF : op ∉ (IntervalTree.entriesT t).filter
            (fun h => overlapsRangeItree ⟨op.destination_offset,
              op.source.stop - op.source.start + op.destination_offset⟩
              (CopyOp.interval h)) := by
          intro hc
          have h9 := scanOverlaps_all hscan op hc
          have h10 := congrArg (fun r => r.start) h9
          simp only at h10
          exact hnoop h10
        have hself := hdisj_of_not op hop hopF
        obtain ⟨cur2, hswp, hlen2, hinD, hinS, hout⟩ := swap_segment_ok
          (show op.source.stop ≤ op.destination_offset ∨
            op.destination_offset + op.source.len ≤ op.source.start from
            hself)
          (show op.source.stop ≤ cur.length by
            rw [hcurlen]
            exact hopb.2.1)
          (show op.destination_offset + op.source.len ≤ cur.length by
            rw [hcurlen]
            exact hopb.2.2)
          (show op.source.start ≤ op.source.stop by omega)
        rw [hswp]
        dsimp only
        rw [hFsingle]
        rw [swapRewrite]
        rw [if_neg (fun hc => ho_ne_op hc.symm),
          if_neg (not_not_intro ho_srcdest.symm)]
        have ho_mem2 : o ∈ IntervalTree.entriesT t2 := by
          have h9 := hperm1.mem_iff.mpr ho_mem
          rcases List.mem_cons.mp h9 with h10 | h10
          · exact absurd h10 ho_ne_op
          · exact h10
        obtain ⟨t3, hrem2, hwf3, hsp3, hperm2⟩ := remove_found
          CopyOp.interval hwf2
          (show (CopyOp.interval o).is_emptyR = false from
            is_emptyR_false_of_pos hob.1)
          (by rw [hsp2, hspan]; exact containsSpan hob.2.1) ho_mem2
        rw [hrem2]
        dsimp only
        have hop_notin : op ∉ IntervalTree.entriesT t2 := by
          have hnd2 : (op :: IntervalTree.entriesT t2).Nodup :=
            hperm1.nodup_iff.mpr hnod
          exact (List.nodup_cons.mp hnd2).1
        have hfresh : (⟨op.source, o.destination_offset⟩ : CopyOp)
            ∉ IntervalTree.entriesT t3 := by
          intro hmem
          have h9 : (⟨op.source, o.destination_offset⟩ : CopyOp)
              ∈ IntervalTree.entriesT t2 :=
            hperm2.mem_iff.mp (List.mem_cons_of_mem o hmem)
          have h10 : (⟨op.source, o.destination_offset⟩ : CopyOp)
              ∈ IntervalTree.entriesT t :=
            hperm1.mem_iff.mp (List.mem_cons_of_mem op h9)
          have hne2 : (⟨op.source, o.destination_offset⟩ : CopyOp) ≠ op := by
            intro hc
            rw [hc] at h9
            exact hop_notin h9
          have hdis := pairwise_unordered (fun h => srcDisj_symm h)
            hinv.src_disj _ h10 op hop hne2
          unfold srcDisj at hdis
          simp only at hdis
          omega
        obtain ⟨t4, hins, hwf4, hsp4, hperm4⟩ := insert_fresh
          CopyOp.interval hwf3
          (show (CopyOp.interval (⟨op.source, o.destination_offset⟩
            : CopyOp)).is_emptyR = false from
            is_emptyR_false_of_pos hopb.1)
          (by rw [hsp3, hsp2, hspan]; exact containsSpan hopb.2.1)
          hfresh
        rw [hins]
        dsimp only
        rw [swapRewrite]
        have hnov_d : ∀ x ∈ IntervalTree.entriesT t, x ≠ o →
            x.source.stop ≤ op.destination_offset ∨
            op.destination_offset + op.source.len ≤ x.source.start := by
          intro x hx hxne
          refine hdisj_of_not x hx (fun hc => ?_)
          rw [hFsingle] at hc
          simp only [List.mem_singleton] at hc
          exact hxne hc
        have hinv4 := StInv_perm hperm4.symm
          (stepD_inv hperm1 hperm2 ho_srcdest hnov_d hinv hlen2 hinD hinS
            hout)
        exact ⟨cur2, t4, rfl, by rw [hsp4, hsp3, hsp2], hwf4, hinv4⟩

/-- With enough fuel, the copy loop driven by the invariant terminates
successfully and realises the report's target at every Offset position. -/
theorem copyLoop_ok : ∀ (fuel : Nat) {dev cur : List Nat}
    {extents : List ReportExtent} {t : IntervalTree CopyOp},
    t.span = ⟨0, dev.length⟩ →
    WFt CopyOp.interval t →
    StInv dev extents (IntervalTree.entriesT t) cur →
    measureT t < fuel →
    ∃ curF, copyLoop fuel cur t = .ok curF ∧ curF.length = dev.length ∧
      ∀ p, isOffsetPos extents p →
        curF.get? p = targetAt dev extents p := by
  intro fuel
  induction fuel with
  | zero =>
    intro dev cur extents t hspan hwf hinv hlt
    omega
  | succ fuel ih =>
    intro dev cur extents t hspan hwf hinv hlt
    rw [copyLoop]
    cases hne : IntervalTree.is_emptyT t with
    | true =>
      rw [if_pos (rfl : true = true)]
      have hnil := (is_emptyT_iff_nil CopyOp.interval hwf).mp hne
      refine ⟨cur, rfl, hinv.len_eq, ?_⟩
      intro p hp
      apply hinv.done_ok p hp
      intro op hopmem
      rw [hnil] at hopmem
      exact absurd hopmem (List.not_mem_nil op)
    | false =>
      rw [if_neg Bool.false_ne_true]
      obtain ⟨cur2, t2, hiter, hsp2, hwf2, hinv2⟩ :=
        copyIter_ok hspan hwf hinv hne
      rw [hiter]
      have hpos : ∀ x ∈ IntervalTree.entriesT t, 0 < x.source.len :=
        fun x hx => (hinv.bounds x hx).1
      obtain ⟨-, hdec⟩ := copyIter_measure cur t hpos cur2 t2 hiter
      exact ih (hsp2.trans hspan) hwf2 hinv2 (by omega)

/-- The zeroing loop succeeds when all queued ranges fit in the device; it
zeroes the queued positions and leaves every other position unchanged. -/
theorem zeroPhase_ok : ∀ (zq : List Rg) (cur : List Nat),
    (∀ r ∈ zq, r.stop ≤ cur.length) →
    ∃ cur2, zeroPhase zq cur = some cur2 ∧ cur2.length = cur.length ∧
      (∀ p, (∀ r ∈ zq, ¬ (r.start ≤ p ∧ p < r.stop)) →
        cur2.get? p = cur.get? p) ∧
      (∀ r ∈ zq, ∀ p, r.start ≤ p → p < r.stop →
        cur2.get? p = some 0) := by
  intro zq
  induction zq with
  | nil =>
    intro cur hb
    exact ⟨cur, rfl, rfl, fun p _ => rfl,
      fun r hr => absurd hr (List.not_mem_nil r)⟩
  | cons r rest ih =>
    intro cur hb
    obtain ⟨cur1, hrun, hlen1, hzero1, hkeep1⟩ :=
      fill_zeros_ok (hb r (List.mem_cons_self r rest))
    have hstep : zeroPhase (r :: rest) cur = zeroPhase rest cur1 := by
      rw [zeroPhase, hrun]
    obtain ⟨cur2, hrun2, hlen2, hout2, hzero2⟩ := ih cur1
      (fun z hz => by
        rw [hlen1]
        exact hb z (List.mem_cons_of_mem r hz))
    refine ⟨cur2, hstep.trans hrun2, by rw [hlen2, hlen1], ?_, ?_⟩
    · intro p hp
      rw [hout2 p (fun z hz => hp z (List.mem_cons_of_mem r hz))]
      refine hkeep1 p ?_
      have := hp r (List.mem_cons_self r rest)
      omega
    · intro z hz p hp1 hp2
      rcases List.mem_cons.mp hz with hz | hz
      · subst hz
        by_cases hc : ∀ z2 ∈ rest, ¬ (z2.start ≤ p ∧ p < z2.stop)
        · rw [hout2 p hc]
          exact hzero1 p hp1 hp2
        · push_neg at hc
          obtain ⟨z2, hz2, hc1, hc2⟩ := hc
          exact hzero2 z2 hz2 p hc1 hc2
      · exact hzero2 z hz p hp1 hp2

/-- The final verification loop succeeds when each queued fingerprint check
succeeds on the final device. -/
theorem verifyPhase_ok : ∀ (cq : List CsumOp) (dev2 : List Nat),
    (∀ c ∈ cq, validate_checksum dev2 c.offset c.length c.csum = some ()) →
    verifyPhase dev2 cq = some () := by
  intro cq
  induction cq with
  | nil =>
    intro dev2 h
    rfl
  | cons c rest ih =>
    intro dev2 h
    rw [verifyPhase, h c (List.mem_cons_self c rest)]
    exact ih dev2 (fun c2 hc2 => h c2 (List.mem_cons_of_mem c hc2))

/-- A tiling report yields pairwise-disjoint copy destinations. -/
theorem opsOf_dstDisj {U : Nat} : ∀ {exts : List ReportExtent}
    {expected : Nat}, tiles U expected exts →
    (opsOf exts).Pairwise dstDisj := by
  intro exts
  induction exts with
  | nil =>
    intro expected ht
    exact List.Pairwise.nil
  | cons r rest ih =>
    intro expected ht
    obtain ⟨hd, hl, ht2⟩ := ht
    rw [opsOf]
    cases hsrc : r.source with
    | Zeros => exact ih ht2
    | Offset off csum =>
      refine List.Pairwise.cons ?_ (ih ht2)
      intro op2 hop2
      obtain ⟨r2, hr2, off2, csum2, hsrc2, hop2eq⟩ := opsOf_mem hop2
      have hb2 := tiles_mem_bounds ht2 r2 hr2
      subst hop2eq
      unfold dstDisj
      simp only [Rg.len]
      omega

/-- Each Offset record contributes its copy op to `opsOf`. -/
theorem opsOf_mem_of : ∀ {exts : List ReportExtent} {r : ReportExtent},
    r ∈ exts → ∀ {off csum : Nat}, r.source = .Offset off csum →
    (⟨⟨off, off + r.length⟩, r.destination_offset⟩ : CopyOp)
      ∈ opsOf exts := by
  intro exts
  induction exts with
  | nil =>
    intro r hr
    exact absurd hr (List.not_mem_nil r)
  | cons r0 rest ih =>
    intro r hr off csum hsrc
    rcases List.mem_cons.mp hr with hr | hr
    · subst hr
      rw [opsOf, hsrc]
      exact List.mem_cons_self _ _
    · rw [opsOf]
      cases hs0 : r0.source with
      | Zeros => exact ih hr hsrc
      | Offset o c => exact List.mem_cons_of_mem _ (ih hr hsrc)

/-- Each Zeros record contributes its range to `zerosOf`. -/
theorem zerosOf_mem_of : ∀ {exts : List ReportExtent} {r : ReportExtent},
    r ∈ exts → r.source = .Zeros →
    (⟨r.destination_offset, r.destination_offset + r.length⟩ : Rg)
      ∈ zerosOf exts := by
  intro exts
  induction exts with
  | nil =>
    intro r hr
    exact absurd hr (List.not_mem_nil r)
  | cons r0 rest ih =>
    intro r hr hsrc
    rcases List.mem_cons.mp hr with hr | hr
    · subst hr
      rw [zerosOf, hsrc]
      exact List.mem_cons_self _ _
    · rw [zerosOf]
      cases hs0 : r0.source with
      | Zeros => exact List.mem_cons_of_mem _ (ih hr hsrc)
      | Offset o c => exact ih hr hsrc

/-- C1 (amended): end-to-end shuffler correctness for reports whose Offset
sources are pairwise disjoint.  For a non-empty device, a summary matching
the device length, extent records tiling `[0, device_length)` in order with
positive lengths, every Offset record's source bytes matching its recorded
fingerprint and lying within the device, and the Offset records' source
ranges pairwise disjoint, `do_lift` succeeds and the final device has zeros
on every Zeros destination and the original source bytes on every Offset
destination. -/
theorem C1_lift_correct {dev : List Nat} {sr : ReportSummary}
    {extents : List ReportExtent}
    (hU : 0 < dev.length)
    (hsr : sr.device_length = dev.length)
    (htile : tiles dev.length 0 extents)
    (hval : ∀ r ∈ extents, ∀ off csum, r.source = .Offset off csum →
      off + r.length ≤ dev.length ∧
      validate_checksum dev off r.length csum = some ())
    (hdisj : (opsOf extents).Pairwise srcDisj) :
    ∃ out, do_lift dev sr extents = some out ∧
      out.length = dev.length ∧
      ∀ r ∈ extents, ∀ j, j < r.length →
        (r.source = .Zeros →
          out.get? (r.destination_offset + j) = some 0) ∧
        (∀ off csum, r.source = .Offset off csum →
          out.get? (r.destination_offset + j) = dev.get? (off + j)) := by
  rw [do_lift]
  rw [if_neg (not_not_intro hsr)]
  have hnew : (IntervalTree.new ⟨0, dev.length⟩
      : Option (IntervalTree CopyOp)) = some ⟨⟨0, dev.length⟩, .Empty⟩ := by
    unfold IntervalTree.new
    rw [if_pos (show (⟨0, dev.length⟩ : Rg).start
      < (⟨0, dev.length⟩ : Rg).stop from hU)]
  rw [hnew]
  dsimp only
  obtain ⟨hwf0, hsp0, hent0⟩ := WFt_new CopyOp.interval hnew
  obtain ⟨tree, hparse, hsp1, hwf1, hperm1⟩ := parse_ok rfl extents 0 [] []
    ⟨⟨0, dev.length⟩, .Empty⟩ hsp0 hwf0 htile hval
    (by rw [hent0]; simpa using hdisj)
    (by rw [hent0]; intro op hop; exact absurd hop (List.not_mem_nil op))
  rw [hparse]
  dsimp only
  simp only [List.nil_append]
  have hinv0 : StInv dev extents (opsOf extents) dev := by
    refine ⟨rfl, ?_, hdisj, opsOf_dstDisj htile, fun op hop => opsOf_dst_off hop, ?_, ?_, ?_⟩
    · intro op hop
      obtain ⟨r, hr, off, csum, hsrc, hopeq⟩ := opsOf_mem hop
      have hb := tiles_mem_bounds htile r hr
      have hv := (hval r hr off csum hsrc).1
      subst hopeq
      simp only [Rg.len]
      omega
    · intro op hop j hj
      obtain ⟨r, hr, off, csum, hsrc, hopeq⟩ := opsOf_mem hop
      subst hopeq
      simp only [Rg.len] at hj
      have hrec : targetAt dev extents (r.destination_offset + j)
          = match r.source with
            | .Zeros => some 0
            | .Offset off2 _ => dev.get? (off2 + j) :=
        targetAt_record htile r hr j (by omega)
      rw [hsrc] at hrec
      exact hrec
    · intro p hoffp hunc
      obtain ⟨op2, hop2, hin2⟩ := isOffsetPos_covered hoffp
      exact absurd hin2 (hunc op2 hop2)
    · intro op hop p hins hoffp
      exact isOffsetPos_covered hoffp
  have hp2 : (IntervalTree.entriesT tree).Perm (opsOf extents) := by
    rw [hent0] at hperm1
    simpa using hperm1
  have hinv1 : StInv dev extents (IntervalTree.entriesT tree) dev :=
    StInv_perm hp2.symm hinv0
  have hm : measureT tree
      < 2 * sumLens (IntervalTree.entriesT tree) + 1 := by
    unfold measureT
    omega
  obtain ⟨curF, hloop, hlenF, htgt⟩ := copyLoop_ok
    (2 * sumLens (IntervalTree.entriesT tree) + 1) hsp1 hwf1 hinv1 hm
  rw [hloop]
  dsimp only
  have hzb : ∀ z ∈ zerosOf extents, z.stop ≤ curF.length := by
    intro z hz
    rw [hlenF]
    exact (zerosOf_lb htile z hz).2
  obtain ⟨dev2, hz, hlen2, hkeep, hzero⟩ :=
    zeroPhase_ok (zerosOf extents) curF hzb
  rw [hz]
  dsimp only
  have hOffProp : ∀ r ∈ extents, ∀ off csum, r.source = .Offset off csum →
      ∀ j, j < r.length →
      dev2.get? (r.destination_offset + j) = dev.get? (off + j) := by
    intro r hr off csum hsrc j hj
    have hmem := opsOf_mem_of hr hsrc
    have hoffp : isOffsetPos extents (r.destination_offset + j) := by
      refine opsOf_dst_off hmem _ ?_
      unfold inDst
      simp only [Rg.len]
      omega
    have hkeepP : dev2.get? (r.destination_offset + j)
        = curF.get? (r.destination_offset + j) := by
      refine hkeep _ ?_
      intro z hz2 hcov
      exact zerosOf_not_offset htile z hz2 _ hcov.1 hcov.2 hoffp
    rw [hkeepP, htgt _ hoffp]
    have hrec : targetAt dev extents (r.destination_offset + j)
        = match r.source with
          | .Zeros => some 0
          | .Offset off2 _ => dev.get? (off2 + j) :=
      targetAt_record htile r hr j hj
    rw [hsrc] at hrec
    exact hrec
  have hver : verifyPhase dev2 (csumsOf extents) = some () := by
    refine verifyPhase_ok _ _ ?_
    intro c hc
    obtain ⟨r, hr, off, hsrc, hceq⟩ := csumsOf_mem hc
    have hb := tiles_mem_bounds htile r hr
    have hv := hval r hr off c.csum hsrc
    rw [hceq]
    dsimp only
    rw [validate_checksum_congr
      (show r.destination_offset + r.length ≤ dev2.length by
        rw [hlen2, hlenF]; omega)
      (show off + r.length ≤ dev.length from hv.1)
      (fun j hj => hOffProp r hr off c.csum hsrc j hj)
      c.csum]
    exact hv.2
  rw [hver]
  refine ⟨dev2, rfl, by rw [hlen2, hlenF], ?_⟩
  intro r hr j hj
  constructor
  · intro hsrc
    exact hzero _ (zerosOf_mem_of hr hsrc) _
      (show r.destination_offset ≤ r.destination_offset + j by omega)
      (show r.destination_offset + j < r.destination_offset + r.length by
        omega)
  · intro off csum hsrc
    exact hOffProp r hr off csum hsrc j hj

/-- Witness: a concrete valid report (one Zeros record tiling a two-byte
device) on which the amended C1 theorem applies. -/
theorem C1_lift_correct_witness :
    0 < ([10, 11] : List Nat).length ∧
    ∃ out, do_lift [10, 11] ⟨2⟩ [⟨0, 2, .Zeros⟩] = some out ∧
      out.length = ([10, 11] : List Nat).length ∧
      ∀ r ∈ [(⟨0, 2, .Zeros⟩ : ReportExtent)], ∀ j, j < r.length →
        (r.source = .Zeros →
          out.get? (r.destination_offset + j) = some 0) ∧
        (∀ off csum, r.source = .Offset off csum →
          out.get? (r.destination_offset + j)
            = ([10, 11] : List Nat).get? (off + j)) :=
  ⟨by decide, C1_lift_correct (by decide) rfl ⟨rfl, by decide, rfl⟩
    (by
      intro r hr off csum hsrc
      rw [List.mem_singleton.mp hr] at hsrc
      exact ExtentSource.noConfusion hsrc)
    List.Pairwise.nil⟩

end Looplift
